import Mathlib

/-!
# md-tree: explode / assemble and heading-level adjustment

A shallow embedding of the text pipeline of
`node_modules/@kayvan/markdown-tree-parser/bin/md-tree.js`
(`explodeDocumentTextBased`, `adjustHeadingLevels`, `assembleDocument`,
`generateIndexContentWithSubsections`, `extractSectionFilesFromTOC`,
`sanitizeText`).

A JavaScript string is modelled as a `List Char`.  The files are read as UTF-8
text, so no lone surrogate occurs, and none of the regular expressions of the
program distinguishes a surrogate pair from one ordinary character; a list of
Unicode scalar values is therefore a faithful carrier.
-/

namespace MdTree

/-- The carrier of JavaScript strings. -/
abbrev JsString := List Char

/-! ## String primitives -/

/-- The characters matched by `\s` in a JavaScript regular expression, which
are also the characters removed by `String.prototype.trim`
(ECMAScript WhiteSpace and LineTerminator). -/
def isJsWhitespace (c : Char) : Bool :=
  let n := c.toNat
  n == 0x09 || n == 0x0A || n == 0x0B || n == 0x0C || n == 0x0D || n == 0x20 ||
  n == 0xA0 || n == 0x1680 || (0x2000 ≤ n && n ≤ 0x200A) || n == 0x2028 ||
  n == 0x2029 || n == 0x202F || n == 0x205F || n == 0x3000 || n == 0xFEFF

/-- The characters that `.` does not match in a JavaScript regular expression
without the `s` flag (ECMAScript LineTerminator). -/
def isLineTerminator (c : Char) : Bool :=
  let n := c.toNat
  n == 0x0A || n == 0x0D || n == 0x2028 || n == 0x2029

/-- Models `s.trim()`. -/
def jsTrim (s : JsString) : JsString :=
  ((s.dropWhile isJsWhitespace).reverse.dropWhile isJsWhitespace).reverse

/-- Models `s.startsWith(p)`. -/
def startsWith (p s : JsString) : Bool := p.isPrefixOf s

/-- The auxiliary of `splitLines`: `cur` holds, reversed, the characters of the
line being read. -/
def splitLinesAux : JsString → JsString → List JsString
  | cur, [] => [cur.reverse]
  | cur, c :: cs =>
    if c = '\n' then cur.reverse :: splitLinesAux [] cs else splitLinesAux (c :: cur) cs

/-- Models `content.split('\n')`. -/
def splitLines (content : JsString) : List JsString := splitLinesAux [] content

/-- Models `lines.join('\n')`. -/
def joinLines : List JsString → JsString
  | [] => []
  | [l] => l
  | l :: l2 :: ls => l ++ '\n' :: joinLines (l2 :: ls)

/-- Models `'#'.repeat(n)`. -/
def hashes (n : Nat) : JsString := List.replicate n '#'

/-- The test `trimmed.startsWith('```') || trimmed.startsWith('~~~')` on
`trimmed = line.trim()`: the line is a fence delimiter. -/
def isFenceDelimiter (line : JsString) : Bool :=
  startsWith "```".toList (jsTrim line) || startsWith "~~~".toList (jsTrim line)

/-- Models `line.match(/^(#{lo,hi})(\s+.*)$/)`: the two capture groups, when the line
matches.  The hashes are the whole leading run of `#` (the next character has
to be whitespace), whose length has to lie in `lo..hi`; the rest starts with
whitespace and, after that whitespace, holds no line terminator, since `.`
matches none. -/
def matchHeading (lo hi : Nat) (line : JsString) : Option (JsString × JsString) :=
  let hs := line.takeWhile (· == '#')
  let rest := line.dropWhile (· == '#')
  if lo ≤ hs.length && hs.length ≤ hi && (rest.head?.map isJsWhitespace).getD false
      && (rest.dropWhile isJsWhitespace).all (fun c => !isLineTerminator c) then
    some (hs, rest)
  else none

/-! ## `adjustHeadingLevels` -/

/-- Models `LIMITS.MIN_HEADING_LEVEL`. -/
def MIN_HEADING_LEVEL : Int := 1

/-- Models `LIMITS.MAX_HEADING_LEVEL`. -/
def MAX_HEADING_LEVEL : Int := 6

/-- The body of the `lines.map` callback of `adjustHeadingLevels` past the two
code-block tests: a line matching `PATTERNS.HEADING_LEVEL_1_5`, that is
`/^(#{1,5})(\s+.*)$/`, gets `currentLevel + adjustment` hashes when that level
is within bounds; every other line is returned as it is. -/
def adjustLine (adjustment : Int) (line : JsString) : JsString :=
  match matchHeading 1 5 line with
  | some (hs, rest) =>
    let currentLevel : Int := hs.length
    let newLevel := currentLevel + adjustment
    if newLevel ≥ MIN_HEADING_LEVEL ∧ newLevel ≤ MAX_HEADING_LEVEL then
      hashes newLevel.toNat ++ rest
    else line
  | none => line

/-- The `lines.map` of `adjustHeadingLevels`, with the captured variable
`inCodeBlock` threaded through. -/
def adjustLines (adjustment : Int) : Bool → List JsString → List JsString
  | _, [] => []
  | inCodeBlock, line :: ls =>
    if isFenceDelimiter line then line :: adjustLines adjustment (!inCodeBlock) ls
    else if inCodeBlock then line :: adjustLines adjustment inCodeBlock ls
    else adjustLine adjustment line :: adjustLines adjustment inCodeBlock ls

/-- Models `adjustHeadingLevels(content, adjustment)`. -/
def adjustHeadingLevels (content : JsString) (adjustment : Int) : JsString :=
  joinLines (adjustLines adjustment false (splitLines content))

/-! ## The section scan of `explodeDocumentTextBased` -/

/-- An element of `sections`, and the value of `currentSection`. -/
structure Section where
  headingText : JsString
  startLine : Nat
  endLine : Option Int
  lines : List JsString
deriving DecidableEq, Repr

/-- The loop variables of the scan: `sections`, `currentSection` (`none` for
`null`) and `inCodeBlock`. -/
structure ScanState where
  sections : List Section
  currentSection : Option Section
  inCodeBlock : Bool
deriving DecidableEq, Repr

/-- Models `if (currentSection) { currentSection.lines.push(line); }`. -/
def pushLine (line : JsString) : Option Section → Option Section
  | some c => some { c with lines := c.lines ++ [line] }
  | none => none

/-- Models `if (currentSection) { currentSection.endLine = e;
sections.push(currentSection); }`. -/
def closeSection (e : Int) (sections : List Section) : Option Section → List Section
  | some c => sections ++ [{ c with endLine := some e }]
  | none => sections

/-- One iteration of the `for` loop over the lines, at index `i`. -/
def scanStep (i : Nat) (st : ScanState) (line : JsString) : ScanState :=
  if isFenceDelimiter line then
    { st with currentSection := pushLine line st.currentSection,
              inCodeBlock := !st.inCodeBlock }
  else if st.inCodeBlock then
    { st with currentSection := pushLine line st.currentSection }
  else if startsWith ['#', ' '] line then
    { st with sections := closeSection ((i : Int) - 1) st.sections st.currentSection,
              currentSection := none }
  else if startsWith ['#', '#', ' '] line then
    { st with sections := closeSection ((i : Int) - 1) st.sections st.currentSection,
              currentSection := some
                { headingText := line.drop 3, startLine := i, endLine := none, lines := [] } }
  else
    { st with currentSection := pushLine line st.currentSection }

/-- The `for` loop from index `i` on, over the lines that remain. -/
def scanLoop : Nat → ScanState → List JsString → ScanState
  | _, st, [] => st
  | i, st, line :: ls => scanLoop (i + 1) (scanStep i st line) ls

/-- The state before the loop. -/
def initialScanState : ScanState :=
  { sections := [], currentSection := none, inCodeBlock := false }

/-- The array `sections` after the loop and the closing of the last section. -/
def collectSections (lines : List JsString) : List Section :=
  let st := scanLoop 0 initialScanState lines
  closeSection ((lines.length : Int) - 1) st.sections st.currentSection

/-! ## `sanitizeText` -/

/-- Models `text.toLowerCase()`, character by character, as far as `sanitizeText` can
observe it: the ASCII capitals, and the two other characters whose lower-case
form holds an ASCII letter (U+0130, which becomes `i` followed by U+0307, and
the Kelvin sign U+212A, which becomes `k`).  Every other character that
lower-casing changes is, before and after, outside the set `sanitizeText`
keeps, and is left as it is here.  The keys of `sectionMap` can observe more
than that, so `generateIndexContentWithSubsections` takes the lower-casing as
an argument. -/
def toLowerCaseChar (c : Char) : JsString :=
  if 'A'.toNat ≤ c.toNat ∧ c.toNat ≤ 'Z'.toNat then [Char.ofNat (c.toNat + 32)]
  else if c.toNat = 0x130 then ['i', Char.ofNat 0x307]
  else if c.toNat = 0x212A then ['k']
  else [c]

/-- Models `text.toLowerCase()`. -/
def toLowerCase (text : JsString) : JsString := text.flatMap toLowerCaseChar

/-- The class `[a-z0-9\u4e00-\u9fff\u3040-\u309f\u30a0-\u30ff\uac00-\ud7af\s-]`. -/
def isSlugChar (c : Char) : Bool :=
  let n := c.toNat
  (0x61 ≤ n && n ≤ 0x7A) || (0x30 ≤ n && n ≤ 0x39) || (0x4E00 ≤ n && n ≤ 0x9FFF) ||
  (0x3040 ≤ n && n ≤ 0x309F) || (0x30A0 ≤ n && n ≤ 0x30FF) || (0xAC00 ≤ n && n ≤ 0xD7AF) ||
  isJsWhitespace c || c == '-'

/-- Models `.replace(/p+/g, '-')` for a character class `p`: every maximal run of
characters of the class becomes one hyphen.  `inRun` tells that the previous
character was of the class. -/
def replaceRuns (p : Char → Bool) : Bool → JsString → JsString
  | _, [] => []
  | inRun, c :: cs =>
    if p c then
      if inRun then replaceRuns p true cs else '-' :: replaceRuns p true cs
    else c :: replaceRuns p false cs

/-- The first alternative of `.replace(/^-|-$/g, '')`: a hyphen at the start
is removed. -/
def stripLeadingHyphen : JsString → JsString
  | '-' :: cs => cs
  | s => s

/-- The second alternative of `.replace(/^-|-$/g, '')`: a hyphen at the end is
removed. -/
def stripTrailingHyphen (s : JsString) : JsString :=
  match s.reverse with
  | '-' :: r => r.reverse
  | _ => s

/-- Models `.replace(/^-|-$/g, '')`: a hyphen at the start is removed, and a hyphen
at the end of what follows it. -/
def stripEdgeHyphens (s : JsString) : JsString :=
  stripTrailingHyphen (stripLeadingHyphen s)

/-- Models `sanitizeText(text)`. -/
def sanitizeText (text : JsString) : JsString :=
  stripEdgeHyphens
    (replaceRuns (· == '-') false
      (replaceRuns isJsWhitespace false
        ((toLowerCase text).filter isSlugChar)))

/-- Models `sanitizeFilename(text)`, an alias of `sanitizeText`. -/
def sanitizeFilename (text : JsString) : JsString := sanitizeText text

/-- Models `createAnchor(text)`, an alias of `sanitizeText`. -/
def createAnchor (text : JsString) : JsString := sanitizeText text

/-! ## The parser, the file system and the outcome of a command -/

/-- An element of the list `getHeadingsList` returns. -/
structure Heading where
  level : Nat
  text : JsString
deriving DecidableEq, Repr

/-- The three methods of `MarkdownTreeParser` (`lib/markdown-parser.js`) that
the explode and assemble commands call.  The class is taken as a parameter of
the commands. -/
structure MarkdownTreeParser where
  Tree : Type
  parse : JsString → Tree
  getHeadingsList : Tree → List Heading
  stringify : Tree → JsString

/-- The heading list of the lines of a text, `inCodeBlock` threaded through as
in the scans of the program. -/
def scanHeadings : Bool → List JsString → List Heading
  | _, [] => []
  | inCodeBlock, line :: ls =>
    if isFenceDelimiter line then scanHeadings (!inCodeBlock) ls
    else if inCodeBlock then scanHeadings inCodeBlock ls
    else match matchHeading 1 6 line with
      | some (hs, rest) =>
        { level := hs.length, text := jsTrim rest } :: scanHeadings inCodeBlock ls
      | none => scanHeadings inCodeBlock ls

/-- Modelled from the spec: the class `MarkdownTreeParser` of
`lib/markdown-parser.js`, which is not among the sources.  Following section
4.1 of the specification, the heading list of a text holds, for every line
outside fenced code blocks that matches `^(#{1,6})(\s+.*)$`, its level (the
number of hashes) and the text after the hashes, trimmed; parsing and
re-serialising a text gives the text back. -/
def specParser : MarkdownTreeParser where
  Tree := JsString
  parse := id
  getHeadingsList := fun text => scanHeadings false (splitLines text)
  stringify := id

/-- A directory: the files it holds, by name, with their content.  Names are
compared as written, and a directory holds files only. -/
abbrev Dir := List (JsString × JsString)

/-- The effect of a `fs.writeFile(path.join(dir, name), content)` that succeeds:
the file is created, or its content replaced. -/
def putFile : Dir → JsString → JsString → Dir
  | [], name, content => [(name, content)]
  | (n, c) :: rest, name, content =>
    if n = name then (name, content) :: rest else (n, c) :: putFile rest name content

/-- The number of bytes a character takes in UTF-8. -/
def utf8Size (c : Char) : Nat :=
  if c.toNat < 0x80 then 1
  else if c.toNat < 0x800 then 2
  else if c.toNat < 0x10000 then 3
  else 4

/-- The number of bytes a string takes in UTF-8, the encoding of file names. -/
def utf8Length (s : JsString) : Nat := (s.map utf8Size).sum

/-- The longest file name the file system takes, in bytes (`NAME_MAX`). -/
def NAME_MAX : Nat := 255

/-- Models `writeFile(path.join(dir, name), content)` (md-tree.js 86-100): the
directory after the write, `none` when `fs.writeFile` throws, where the method
logs the error and calls `process.exit(1)`.  The write throws when the file
name is longer than `NAME_MAX` bytes (`ENAMETOOLONG`); the failures that do
not depend on the document (permissions, a full disk) are taken not to
occur. -/
def writeFile (dir : Dir) (name content : JsString) : Option Dir :=
  if utf8Length name ≤ NAME_MAX then some (putFile dir name content) else none

/-- The content `fs.readFile(path.join(dir, name))` gives, `none` when the read
fails. -/
def readFile (dir : Dir) (name : JsString) : Option JsString := dir.lookup name

/-- How a command ends: it returns to `run`, which ends with exit code 0, or it
calls `process.exit(code)`. -/
inductive Outcome where
  | returned
  | exited (code : Nat)
deriving DecidableEq, Repr

/-! ## The index -/

/-- An element of `sectionFiles` in `explodeDocumentTextBased`. -/
structure SectionFile where
  filename : JsString
  headingText : JsString
deriving DecidableEq, Repr

/-- Models `sectionMap.get(key)` for the `Map` filled, in order, with
`file.headingText.toLowerCase() ↦ file.filename`: a later file replaces an
earlier one with the same key.  `lower` is `String.prototype.toLowerCase`, a
function of the language and not of the program. -/
def sectionMapGet (lower : JsString → JsString) (sectionFiles : List SectionFile)
    (key : JsString) : Option JsString :=
  (sectionFiles.reverse.find? (fun f => lower f.headingText == key)).map (·.filename)

/-- The value of a file name as a condition sees it: the empty string counts,
like `undefined`, as not set. -/
def truthy : Option JsString → Option JsString
  | some (c :: cs) => some (c :: cs)
  | _ => none

/-- The text `[text](target)`. -/
def mdLink (text target : JsString) : JsString :=
  '[' :: text ++ ']' :: '(' :: target ++ [')']

/-- One iteration of the loop over `headings` of
`generateIndexContentWithSubsections`: the text appended to `toc`, and the new
value of `currentLevel2Filename` as the conditions of the loop see it (`none`
when it is `null`, `undefined` or the empty string).  `lower` is
`String.prototype.toLowerCase`. -/
def tocStep (lower : JsString → JsString) (sectionFiles : List SectionFile)
    (currentLevel2Filename : Option JsString) (heading : Heading) :
    JsString × Option JsString :=
  if heading.level = 1 then ([], currentLevel2Filename)
  else if heading.level = 2 then
    match truthy (sectionMapGet lower sectionFiles (lower heading.text)) with
    | some filename =>
      ("  - ".toList ++ mdLink heading.text ("./".toList ++ filename) ++ ['\n'], some filename)
    | none =>
      ("  - ".toList ++ mdLink heading.text ('#' :: createAnchor heading.text) ++ ['\n'], none)
  else if heading.level > 2 then
    match currentLevel2Filename with
    | some filename =>
      ((List.replicate (heading.level - 1) "  ".toList).flatten ++ "- ".toList ++
          mdLink heading.text ("./".toList ++ filename ++ '#' :: createAnchor heading.text) ++
          ['\n'],
        currentLevel2Filename)
    | none => ([], currentLevel2Filename)
  else ([], currentLevel2Filename)

/-- The loop over `headings` of `generateIndexContentWithSubsections`: the
text appended to `toc`, given `currentLevel2Filename`. -/
def tocEntries (lower : JsString → JsString) (sectionFiles : List SectionFile) :
    Option JsString → List Heading → JsString
  | _, [] => []
  | currentLevel2Filename, heading :: hs =>
    (tocStep lower sectionFiles currentLevel2Filename heading).1 ++
      tocEntries lower sectionFiles (tocStep lower sectionFiles currentLevel2Filename heading).2 hs

/-- The head of every index: the title, the `Table of Contents` heading and the
link of the title. -/
def tocHeader (title : JsString) : JsString :=
  "# ".toList ++ title ++ "\n\n## Table of Contents\n\n".toList ++
    "- ".toList ++ mdLink title "#table-of-contents".toList ++ ['\n']

/-- Models `generateIndexContentTextBased(originalContent, sectionFiles)`. -/
def generateIndexContentTextBased (originalContent : JsString)
    (sectionFiles : List SectionFile) : JsString :=
  let lines := splitLines originalContent
  let mainTitle :=
    match lines.find? (startsWith ['#', ' ']) with
    | some line => line.drop 2
    | none => "Table of Contents".toList
  tocHeader mainTitle ++
    (sectionFiles.map (fun file =>
      "  - ".toList ++ mdLink file.headingText ("./".toList ++ file.filename) ++ ['\n'])).flatten

/-- Models `generateIndexContentWithSubsections(tree, sectionFiles)`, for the
function `lower` that the keys of `sectionMap` and the heading texts looked up
in it go through (`String.prototype.toLowerCase`). -/
def generateIndexContentWithSubsections (lower : JsString → JsString) (P : MarkdownTreeParser)
    (tree : P.Tree) (sectionFiles : List SectionFile) : JsString :=
  let headings := P.getHeadingsList tree
  match headings.find? (fun h => h.level == 1) with
  | none => generateIndexContentTextBased (P.stringify tree) sectionFiles
  | some mainTitle => tocHeader mainTitle.text ++ tocEntries lower sectionFiles none headings

/-! ## `explodeDocumentTextBased` -/

/-- The callback of `section.lines.map` in `explodeDocumentTextBased`: a line
matching `/^(#{2,6})(\s+.*)$/` loses its first hash. -/
def decrementLine (line : JsString) : JsString :=
  match matchHeading 2 6 line with
  | some (hs, rest) => hs.drop 1 ++ rest
  | none => line

/-- Models `adjustedContent`, the content written for a section. -/
def sectionContent (s : Section) : JsString :=
  joinLines (("# ".toList ++ s.headingText) :: s.lines.map decrementLine)

/-- Models `filename`, the name of the file of a section. -/
def sectionFilename (s : Section) : JsString :=
  sanitizeFilename s.headingText ++ ".md".toList

/-- The files the loop `for (const section of sections)` leaves when every write
succeeds. -/
def putSections : Dir → List Section → Dir
  | dir, [] => dir
  | dir, s :: ss => putSections (putFile dir (sectionFilename s) (sectionContent s)) ss

/-- The loop `for (const section of sections)`: the directory it leaves, and
whether every write succeeded.  The loop ends at the first write that fails,
since `writeFile` then ends the process. -/
def writeSections : Dir → List Section → Dir × Bool
  | dir, [] => (dir, true)
  | dir, s :: ss =>
    match writeFile dir (sectionFilename s) (sectionContent s) with
    | none => (dir, false)
    | some written => writeSections written ss

/-- The array `sectionFiles` that `explodeDocumentTextBased` builds for a
content: the file name and the heading text of every section. -/
def explodeSectionFiles (content : JsString) : List SectionFile :=
  (collectSections (splitLines content)).map
    (fun s => { filename := sectionFilename s, headingText := s.headingText : SectionFile })

/-- The `indexContent` that `explodeDocumentTextBased` writes to `index.md`.  The
lookups in `sectionMap` go through `toLowerCase` here: the files are those of
the sections, named by their slugs, and two heading texts with the same
lower-case form have the same slug, so that a heading text that is the
heading text of a section finds the file name of that section. -/
def explodeIndexContent (P : MarkdownTreeParser) (content : JsString) : JsString :=
  generateIndexContentWithSubsections toLowerCase P (P.parse content)
    (explodeSectionFiles content)

/-- Models `explodeDocumentTextBased(filePath, outputDir)`.  `file` is the content of
the file at `filePath`, `none` when it cannot be read; `outputDir` is the
output directory before the call, `none` when it does not exist.  The result
is how the command ends, and the output directory after it.  A write that
fails ends the process with exit code 1 and leaves the files written before
it. -/
def explodeDocumentTextBased (P : MarkdownTreeParser) (file : Option JsString)
    (outputDir : Option Dir) : Outcome × Option Dir :=
  match file with
  | none => (Outcome.exited 1, outputDir)
  | some content =>
    let sections := collectSections (splitLines content)
    if sections.length = 0 then (Outcome.returned, outputDir)
    else
      let created := outputDir.getD []
      match writeSections created sections with
      | (written, false) => (Outcome.exited 1, some written)
      | (written, true) =>
        let indexContent := explodeIndexContent P content
        match writeFile written "index.md".toList indexContent with
        | none => (Outcome.exited 1, some written)
        | some done => (Outcome.returned, some done)

/-! ## `assembleDocument` -/

/-- An element of the list `extractSectionFilesFromTOC` returns. -/
structure TocEntry where
  filename : JsString
  title : JsString
deriving DecidableEq, Repr

/-- A match of `PATTERNS.TOC_LINK`, `/\[([^\]]+)\]\(\.\/([^#)]+)(?:#[^)]*)?\)/`,
that starts at the first character of `s`: the link text and the file name.
After `[` the text is the whole run of characters other than `]`, and it is
followed by `](./`; the file name is the whole run of characters other than
`#` and `)`; then comes `)`, or `#` with a `)` somewhere after it.  Neither
run can be taken shorter, as the character that follows a shorter run is one
the pattern does not accept there. -/
def matchTocLinkAt (s : JsString) : Option (JsString × JsString) :=
  match s with
  | [] => none
  | c :: t =>
    if c = '[' then
      let linkText := t.takeWhile (· != ']')
      if linkText.length = 0 then none
      else if startsWith "](./".toList (t.dropWhile (· != ']')) then
        let r := (t.dropWhile (· != ']')).drop 4
        let filename := r.takeWhile (fun x => x != '#' && x != ')')
        if filename.length = 0 then none
        else
          match r.dropWhile (fun x => x != '#' && x != ')') with
          | [] => none
          | d :: r2 =>
            if d = ')' then some (linkText, filename)
            else if r2.contains ')' then some (linkText, filename)
            else none
      else none
    else none

/-- Models `line.match(PATTERNS.TOC_LINK)`: the leftmost match. -/
def matchTocLink : JsString → Option (JsString × JsString)
  | [] => none
  | c :: cs =>
    match matchTocLinkAt (c :: cs) with
    | some m => some m
    | none => matchTocLink cs

/-- Models `line.match(PATTERNS.LEVEL_2_TOC_ITEM)`, that is `/^ {2}[-*] \[/`. -/
def isLevel2TocItem (line : JsString) : Bool :=
  startsWith "  - [".toList line || startsWith "  * [".toList line

/-- The loop over the lines of `extractSectionFilesFromTOC`; `processedFiles`
is the set of the file names already taken. -/
def extractLoop : List TocEntry → List JsString → List JsString → List TocEntry
  | sectionFiles, _, [] => sectionFiles
  | sectionFiles, processedFiles, line :: ls =>
    match matchTocLink line with
    | some (linkText, filename) =>
      if isLevel2TocItem line && !processedFiles.contains filename then
        extractLoop (sectionFiles ++ [{ filename := filename, title := linkText }])
          (processedFiles ++ [filename]) ls
      else extractLoop sectionFiles processedFiles ls
    | none => extractLoop sectionFiles processedFiles ls

/-- Models `extractSectionFilesFromTOC(indexTree)`. -/
def extractSectionFilesFromTOC (P : MarkdownTreeParser) (indexTree : P.Tree) : List TocEntry :=
  extractLoop [] [] (splitLines (P.stringify indexTree))

/-- Models `incrementHeadingLevelsInText(content)`. -/
def incrementHeadingLevelsInText (content : JsString) : JsString :=
  adjustHeadingLevels content 1

/-- Models `decrementAllHeadingLevelsInText(content)`. -/
def decrementAllHeadingLevelsInText (content : JsString) : JsString :=
  adjustHeadingLevels content 1

/-- The loop `for (const sectionFile of sectionFiles)` of `assembleDocument`
on `assembledContent`.  A file that cannot be read ends the process: `readFile`
reports the error and calls `process.exit(1)` itself, so the `catch` of the loop
is never entered; the result is then `none`. -/
def assembleLoop (inputDir : Dir) : JsString → List TocEntry → Option JsString
  | assembledContent, [] => some assembledContent
  | assembledContent, sectionFile :: rest =>
    match readFile inputDir sectionFile.filename with
    | none => none
    | some sectionContent =>
      assembleLoop inputDir
        (assembledContent ++ '\n' :: incrementHeadingLevelsInText sectionContent) rest

/-- Models `assembleDocument(inputDir, outputFile)`.  `inputDir` is the input
directory, `none` when it does not exist.  The result is how the command ends,
and the content written to `outputFile`, `none` when nothing is written. -/
def assembleDocument (P : MarkdownTreeParser) (inputDir : Option Dir) :
    Outcome × Option JsString :=
  match inputDir with
  | none => (Outcome.exited 1, none)
  | some dir =>
    match readFile dir "index.md".toList with
    | none => (Outcome.exited 1, none)
    | some indexContent =>
      let indexTree := P.parse indexContent
      let headings := P.getHeadingsList indexTree
      match headings.find? (fun h => h.level == 1) with
      | none => (Outcome.exited 1, none)
      | some mainTitle =>
        let sectionFiles := extractSectionFilesFromTOC P indexTree
        if sectionFiles.length = 0 then (Outcome.exited 1, none)
        else
          match assembleLoop dir ("# ".toList ++ mainTitle.text ++ ['\n']) sectionFiles with
          | none => (Outcome.exited 1, none)
          | some assembledContent => (Outcome.returned, some assembledContent)

/-! ## Vocabulary of the statements -/

/-- A line index lies inside a fenced code block: the number of earlier lines
that are fence delimiters is odd. -/
def insideFence (lines : List JsString) (i : Nat) : Bool :=
  (lines.take i).countP isFenceDelimiter % 2 == 1

/-- Line `i` is outside fenced code blocks and starts with `## `. -/
def isSectionStart (lines : List JsString) (i : Nat) : Bool :=
  !insideFence lines i && startsWith ['#', '#', ' '] (lines.getD i [])

/-- Line `i` is outside fenced code blocks and starts with `# ` or `## `. -/
def isBoundary (lines : List JsString) (i : Nat) : Bool :=
  !insideFence lines i &&
    (startsWith ['#', ' '] (lines.getD i []) || startsWith ['#', '#', ' '] (lines.getD i []))

/-- The state of the scan of `explodeDocumentTextBased` before line `i`. -/
def stateBefore (lines : List JsString) (i : Nat) : ScanState :=
  scanLoop 0 initialScanState (lines.take i)

/-- The line is a heading: `PATTERNS.HEADING`, that is `/^(#{1,6})(\s+.*)$/`,
matches it. -/
def isHeading (line : JsString) : Bool := (matchHeading 1 6 line).isSome

/-- The number of hashes a line starts with. -/
def leadingHashes (line : JsString) : Nat := (line.takeWhile (· == '#')).length

/-- Section `s` starts at a line outside fenced code blocks that is `## `
followed by its heading text, and its body is the lines after that line up to,
and excluding, line `j`, none of which is a boundary. -/
def SpansUpTo (lines : List JsString) (s : Section) (j : Nat) : Prop :=
  s.startLine < j ∧ j ≤ lines.length ∧
  isSectionStart lines s.startLine = true ∧
  lines[s.startLine]? = some (['#', '#', ' '] ++ s.headingText) ∧
  s.lines = (lines.take j).drop (s.startLine + 1) ∧
  ∀ k, s.startLine < k → k < j → isBoundary lines k = false

/-- Line `k` lies in section `s`: between its start line and its end line. -/
def Section.covers (s : Section) (k : Nat) : Prop :=
  s.startLine ≤ k ∧ ∃ e, s.endLine = some e ∧ (k : Int) ≤ e

/-- The invariant of the scan before line `i`: the fence state is the parity
of the delimiters read; every closed section spans the lines up to a boundary
already read; the open section spans the lines up to `i`; the sections, closed
and open, started at the section starts read so far. -/
structure ScanInv (lines : List JsString) (i : Nat) (st : ScanState) : Prop where
  code : st.inCodeBlock = insideFence lines i
  closed : ∀ s ∈ st.sections, ∃ j, SpansUpTo lines s j ∧ j < i ∧ isBoundary lines j = true ∧
    s.endLine = some ((j : Int) - 1)
  opened : ∀ c, st.currentSection = some c → SpansUpTo lines c i
  starts : st.sections.map (·.startLine) ++ (st.currentSection.map (·.startLine)).toList =
    (List.range i).filter (isSectionStart lines)

/-- The lines of the document that a section was collected from: its `## `
line and its body. -/
def sourceLines (s : Section) : List JsString :=
  (['#', '#', ' '] ++ s.headingText) :: s.lines

/-- The lines the sections of a scan state were collected from. -/
def ScanState.sourceLines (st : ScanState) : List JsString :=
  (st.sections.map MdTree.sourceLines).flatten ++
    (match st.currentSection with
     | some c => MdTree.sourceLines c
     | none => [])

/-- Every line with a newline before it. -/
def newlineBefore (ls : List JsString) : JsString :=
  (ls.map (fun l => '\n' :: l)).flatten

/-- The entry of a section in the table of contents. -/
def tocEntryOf (s : Section) : TocEntry :=
  { filename := sectionFilename s, title := s.headingText }

/-- No line outside fenced code blocks starts with `# `; `inCodeBlock` is the
fence state before the first line. -/
def noTitleLine : Bool → List JsString → Bool
  | _, [] => true
  | inCodeBlock, line :: ls =>
    if isFenceDelimiter line then noTitleLine (!inCodeBlock) ls
    else if inCodeBlock then noTitleLine inCodeBlock ls
    else !startsWith ['#', ' '] line && noTitleLine inCodeBlock ls

/-- The body lines that explode and assemble give back: outside fenced code
blocks no line is a level-1 heading, and inside them no line has the form of a
heading of level 2 to 6; `inCodeBlock` is the fence state before the first
line. -/
def bodyOk : Bool → List JsString → Bool
  | _, [] => true
  | inCodeBlock, line :: ls =>
    if isFenceDelimiter line then bodyOk (!inCodeBlock) ls
    else if inCodeBlock then (matchHeading 2 6 line).isNone && bodyOk inCodeBlock ls
    else (matchHeading 1 1 line).isNone && bodyOk inCodeBlock ls

/-- The heading texts that the index gives back: not empty, without `]`, and
without line terminator after the leading whitespace. -/
def headingOk (headingText : JsString) : Bool :=
  headingText.length != 0 && !headingText.contains ']' &&
    (headingText.dropWhile isJsWhitespace).all (fun c => !isLineTerminator c)

/-- The documents of the round-trip property: a `# ` title line, an empty
line, then sections opened by `## ` lines, the first right after the empty
line; outside fenced code blocks every heading either opens a section or has
a level from 3 to 6; every fenced code block is closed. -/
def isRoundTripShape (content : JsString) : Bool :=
  let lines := splitLines content
  startsWith ['#', ' '] (lines.getD 0 []) && lines.getD 1 ['x'] == [] &&
  startsWith ['#', '#', ' '] (lines.getD 2 []) &&
  (List.range lines.length).all (fun i =>
    i < 2 || insideFence lines i || !isHeading (lines.getD i []) ||
      startsWith ['#', '#', ' '] (lines.getD i []) || 3 ≤ leadingHashes (lines.getD i [])) &&
  !insideFence lines lines.length

/-! ## Documents of the examples -/

/-- The document of scenario A of the specification. -/
def scenarioA : JsString :=
  "# Title\n\n## Alpha\nBody A\n\n### Sub\nNested\n\n## Beta\nBody B\n".toList

/-- A document with a heading-like line inside a fenced code block. -/
def fencedDocument : JsString := "# T\n\n## A\n```\n## Fake Heading\n```".toList

/-- A document with two sections of the same heading. -/
def twinDocument : JsString := "# T\n\n## A\nx\n## A\ny".toList

/-! ## Vocabulary of the slugs -/

/-- A character that `sanitizeText` turns into a hyphen or takes for one:
whitespace or a hyphen. -/
def isSeparator (c : Char) : Bool := isJsWhitespace c || c == '-'

/-- The state of `replaceRuns` after a text. -/
def runStateAfter (p : Char → Bool) : Bool → JsString → Bool
  | inRun, [] => inRun
  | _, c :: cs => runStateAfter p (p c) cs

/-- Two characters that are not both hyphens. -/
def notBothHyphens (a b : Char) : Prop := ¬ (a = '-' ∧ b = '-')

/-! ## Vocabulary of the index -/

/-- The file of a level-2 heading: the file name `sectionMap` holds for its
lower-case text, when that name is not empty. -/
def fileOf (lower : JsString → JsString) (sectionFiles : List SectionFile)
    (heading : Heading) : Option JsString :=
  truthy (sectionMapGet lower sectionFiles (lower heading.text))

/-- The file of the nearest level-2 heading among the headings before a
heading, when there is such a heading and it has a file. -/
def parentFile (lower : JsString → JsString) (sectionFiles : List SectionFile)
    (before : List Heading) : Option JsString :=
  match before.reverse.find? (fun h => h.level == 2) with
  | some parent => fileOf lower sectionFiles parent
  | none => none

/-- Follows the specification: the line of the index for a heading that comes
after the headings `before`.  A level-2 heading has a line two spaces deep that
links to its file, or to its anchor when it has no file; a heading of level
`k > 2` under a level-2 heading with a file has a line `2 * (k - 1)` spaces
deep that links to that file and to its own anchor; other headings have no
line. -/
def specTocLine (lower : JsString → JsString) (sectionFiles : List SectionFile)
    (before : List Heading) (heading : Heading) : Option JsString :=
  if heading.level = 2 then
    match fileOf lower sectionFiles heading with
    | some file => some ("  - ".toList ++ mdLink heading.text ("./".toList ++ file))
    | none => some ("  - ".toList ++ mdLink heading.text ('#' :: sanitizeText heading.text))
  else if 2 < heading.level then
    (parentFile lower sectionFiles before).map (fun file =>
      List.replicate (2 * (heading.level - 1)) ' ' ++ "- ".toList ++
        mdLink heading.text ("./".toList ++ file ++ '#' :: sanitizeText heading.text))
  else none

/-- Follows the specification: the lines of the index for the headings `hs`
that come, in document order, after the headings `before`. -/
def specTocLines (lower : JsString → JsString) (sectionFiles : List SectionFile) :
    List Heading → List Heading → List JsString
  | _, [] => []
  | before, heading :: hs =>
    (specTocLine lower sectionFiles before heading).toList ++
      specTocLines lower sectionFiles (before ++ [heading]) hs

/-- Every line followed by a newline. -/
def newlineAfter (ls : List JsString) : JsString :=
  (ls.map (fun l => l ++ ['\n'])).flatten

/-! ## Vocabulary of the section references -/

/-- The text `s` starts with a link to a file: `[text](./file)` or
`[text](./file#anchor)`, where `text` is not empty and holds no `]`, `file` is not
empty and holds neither `#` nor `)`, and `anchor` holds no `)`. -/
def LinkAt (s text file : JsString) : Prop :=
  text ≠ [] ∧ ']' ∉ text ∧ file ≠ [] ∧ '#' ∉ file ∧ ')' ∉ file ∧
  ∃ rest, s = mdLink text ("./".toList ++ file) ++ rest ∨
    ∃ anchor, ')' ∉ anchor ∧ s = mdLink text ("./".toList ++ file ++ '#' :: anchor) ++ rest

/-- The first link to a file that the line contains, reading from the left,
has the text `text` and the file name `file`. -/
def LeftmostLink (line text file : JsString) : Prop :=
  ∃ before s, line = before ++ s ∧ LinkAt s text file ∧
    ∀ before2 s2, line = before2 ++ s2 → before2.length < before.length →
      ∀ t f, ¬ LinkAt s2 t f

/-- The line begins with exactly two spaces, then `-` or `*`, a space and `[`. -/
def BeginsLevel2Item (line : JsString) : Prop :=
  ∃ marker rest, (marker = '-' ∨ marker = '*') ∧ line = ' ' :: ' ' :: marker :: ' ' :: '[' :: rest

/-- The file name that a line gives to the loop of `extractSectionFilesFromTOC`
when it passes both matches of the loop: a link to a file, and the form of a
level-2 item. -/
def sectionReference (line : JsString) : Option JsString :=
  match matchTocLink line with
  | some (_, filename) => if isLevel2TocItem line then some filename else none
  | none => none

/-- Follows the specification: every name once, in the order of its first
occurrence. -/
def firstOccurrences : List JsString → List JsString
  | [] => []
  | f :: fs => f :: (firstOccurrences fs).filter (fun g => g != f)

/-- The line of the index for a section: two spaces, the list marker, and the
link of the heading text to the file. -/
def level2Line (text file : JsString) : JsString :=
  "  - ".toList ++ mdLink text ("./".toList ++ file)

/-- The lines of `tocHeader`. -/
def headerLines (title : JsString) : List JsString :=
  ["# ".toList ++ title, [], "## Table of Contents".toList, [],
    "- ".toList ++ mdLink title "#table-of-contents".toList]

/-- A document without level-1 heading, with a comment line in a fenced code
block. -/
def fencedCommentDocument : JsString := "## A\n```\n# comment\n```".toList

/-- A document with a body line of two hashes and a tab. -/
def tabHeadingDocument : JsString := "## A\n##\tB".toList

/-- A lower-casing that turns `É` into `é`, as `String.prototype.toLowerCase`
does, and otherwise does what `toLowerCase` does. -/
def lowerWithAccent (text : JsString) : JsString :=
  toLowerCase (text.map (fun c => if c = 'É' then 'é' else c))

/-- A document whose only section has a heading of 85 ideographs: the file
name of the section takes 258 bytes. -/
def longNameDocument : JsString :=
  "# T\n\n## ".toList ++ List.replicate 85 '漢' ++ "\nx".toList

/-- The line of a level-2 heading in the index. -/
def level2LineOf (sf : List SectionFile) (h : Heading) : JsString :=
  match fileOf toLowerCase sf h with
  | some file => level2Line h.text file
  | none => "  - ".toList ++ mdLink h.text ('#' :: sanitizeText h.text)

/-- The line is a level-1 heading: `/^(#{1,1})(\s+.*)$/` matches it, one hash,
whitespace, and a text without line terminator. -/
def isLevel1Heading (line : JsString) : Bool := (matchHeading 1 1 line).isSome

/-! ## Vocabulary of the fence state -/

/-- The values of the captured variable `inCodeBlock` of `adjustHeadingLevels` at the
entry of the callback of `lines.map`, line by line; `inCodeBlock` is the value
before the first line. -/
def adjustCodeBlockStates : Bool → List JsString → List Bool
  | _, [] => []
  | inCodeBlock, line :: ls =>
    inCodeBlock ::
      adjustCodeBlockStates (if isFenceDelimiter line then !inCodeBlock else inCodeBlock) ls

/-- A document with a title and no section. -/
def untitledSectionsDocument : JsString := "# T\n\nsome text\n### deep".toList

end MdTree

namespace Flattener

open MdTree

/-! ## `findProjectRoot` -/

/-- A resolved path: its segments, the innermost first.  The file system root
is the empty list, and the parent directory (`path.dirname`) of a directory
other than the root is the tail. -/
abbrev Path := List JsString

/-- Models `path.join(d, rel)` and `path.join(d, ...rel)`: the path of `rel`, given
by its segments from the outermost on, below the directory `d`. -/
def joinPath (d : Path) (rel : List JsString) : Path := rel.reverse ++ d

/-- An element of `checks`: the relative path that `makePath` joins to a
directory, and the weight. -/
structure Check where
  rel : List JsString
  weight : Nat
deriving DecidableEq, Repr

/-- What `findProjectRoot` asks of the file system: `fs.pathExists(p)`, and whether the
`package.json` of a directory can be read and parsed and has a truthy `workspaces`. -/
structure FileSystem where
  pathExists : Path → Bool
  packageJsonWorkspaces : Path → Bool

/-- The checks that the calls of `add` with a literal name push, in order. -/
def builtinChecks : List Check := [
  ⟨[".project-root".toList], 110⟩,
  ⟨[".workspace-root".toList], 110⟩,
  ⟨[".repo-root".toList], 110⟩,
  ⟨[".git".toList], 100⟩,
  ⟨[".hg".toList], 95⟩,
  ⟨[".svn".toList], 95⟩,
  ⟨["pnpm-workspace.yaml".toList], 90⟩,
  ⟨["lerna.json".toList], 90⟩,
  ⟨["turbo.json".toList], 90⟩,
  ⟨["nx.json".toList], 90⟩,
  ⟨["rush.json".toList], 90⟩,
  ⟨["go.work".toList], 90⟩,
  ⟨["WORKSPACE".toList], 90⟩,
  ⟨["WORKSPACE.bazel".toList], 90⟩,
  ⟨["MODULE.bazel".toList], 90⟩,
  ⟨["pants.toml".toList], 90⟩,
  ⟨["yarn.lock".toList], 85⟩,
  ⟨["pnpm-lock.yaml".toList], 85⟩,
  ⟨["package-lock.json".toList], 85⟩,
  ⟨["bun.lockb".toList], 85⟩,
  ⟨["Cargo.lock".toList], 85⟩,
  ⟨["composer.lock".toList], 85⟩,
  ⟨["poetry.lock".toList], 85⟩,
  ⟨["Pipfile.lock".toList], 85⟩,
  ⟨["Gemfile.lock".toList], 85⟩,
  ⟨["settings.gradle".toList], 80⟩,
  ⟨["settings.gradle.kts".toList], 80⟩,
  ⟨["gradlew".toList], 80⟩,
  ⟨["pom.xml".toList], 80⟩,
  ⟨["build.sbt".toList], 80⟩,
  ⟨["project".toList, "build.properties".toList], 80⟩,
  ⟨["deno.json".toList], 75⟩,
  ⟨["deno.jsonc".toList], 75⟩,
  ⟨["pyproject.toml".toList], 75⟩,
  ⟨["Pipfile".toList], 75⟩,
  ⟨["requirements.txt".toList], 75⟩,
  ⟨["go.mod".toList], 75⟩,
  ⟨["Cargo.toml".toList], 75⟩,
  ⟨["composer.json".toList], 75⟩,
  ⟨["mix.exs".toList], 75⟩,
  ⟨["Gemfile".toList], 75⟩,
  ⟨["CMakeLists.txt".toList], 75⟩,
  ⟨["stack.yaml".toList], 75⟩,
  ⟨["cabal.project".toList], 75⟩,
  ⟨["rebar.config".toList], 75⟩,
  ⟨["pubspec.yaml".toList], 75⟩,
  ⟨["flake.nix".toList], 75⟩,
  ⟨["shell.nix".toList], 75⟩,
  ⟨["default.nix".toList], 75⟩,
  ⟨[".tool-versions".toList], 75⟩,
  ⟨["package.json".toList], 74⟩,
  ⟨[".changeset".toList, "config.json".toList], 70⟩,
  ⟨[".changeset".toList], 70⟩]

/-- The auxiliary of `splitComma`: `cur` holds, reversed, the characters of the
piece being read. -/
def splitCommaAux : JsString → JsString → List JsString
  | cur, [] => [cur.reverse]
  | cur, c :: cs =>
    if c = ',' then cur.reverse :: splitCommaAux [] cs else splitCommaAux (c :: cur) cs

/-- Models `s.split(',')`. -/
def splitComma (s : JsString) : List JsString := splitCommaAux [] s

/-- The checks added for `process.env.PROJECT_ROOT_MARKERS`: none when the variable is
not set or empty, and otherwise one of weight 72 for every name of
`.split(',').map((s) => s.trim()).filter(Boolean)`. -/
def customChecks (env : Option JsString) : List Check :=
  match env with
  | none => []
  | some [] => []
  | some (c :: cs) =>
    (((splitComma (c :: cs)).map jsTrim).filter (fun name => name.length != 0)).map
      (fun name => { rel := [name], weight := 72 })

/-- The array `checks` when the loop starts. -/
def checks (env : Option JsString) : List Check := builtinChecks ++ customChecks env

/-- The value of `best` when it is not `null`. -/
structure Best where
  dir : Path
  weight : Nat
deriving DecidableEq, Repr

/-- Models `hasWorkspacePackageJson(d)`. -/
def hasWorkspacePackageJson (fs : FileSystem) (d : Path) : Bool :=
  fs.pathExists (joinPath d ["package.json".toList]) && fs.packageJsonWorkspaces d

/-- The test `!best || weight >= best.weight`. -/
def accepts (best : Option Best) (weight : Nat) : Bool :=
  match best with
  | none => true
  | some b => decide (weight ≥ b.weight)

/-- One iteration of the `while` loop up to the test `dir === fsRoot`: the check
of a `package.json` with workspaces, then the checks of `checks` in order. -/
def checkDir (fs : FileSystem) (cs : List Check) (dir : Path) (best : Option Best) :
    Option Best :=
  let best1 :=
    if hasWorkspacePackageJson fs dir && accepts best 90 then some { dir := dir, weight := 90 }
    else best
  cs.foldl (fun b c =>
    if fs.pathExists (joinPath dir c.rel) && accepts b c.weight then
      some { dir := dir, weight := c.weight }
    else b) best1

/-- The `while` loop: the directory, then its parent, up to the root, which is
the last directory checked. -/
def walkUp (fs : FileSystem) (cs : List Check) : Option Best → Path → Option Best
  | best, [] => checkDir fs cs [] best
  | best, seg :: parent => walkUp fs cs (checkDir fs cs (seg :: parent) best) parent

/-- Models `findProjectRoot(startDir)` for a resolved `startDir`.  `cached` is the entry
of `_cache` for it, `none` when there is none; `vcsTop` is the result of
`_detectVcsTopLevel`.  The result is `none` for `null`. -/
def findProjectRoot (fs : FileSystem) (env : Option JsString) (cached : Option (Option Path))
    (vcsTop : Option Path) (startDir : Path) : Option Path :=
  match cached with
  | some out => out
  | none =>
    let best : Option Best := vcsTop.map (fun d => { dir := d, weight := 101 })
    (walkUp fs (checks env) best startDir).map (·.dir)

/-- The markers a directory holds, by weight: 90 for a `package.json` with
workspaces, and the weight of every check whose path exists. -/
def markerWeights (fs : FileSystem) (cs : List Check) (d : Path) : List Nat :=
  (if hasWorkspacePackageJson fs d then [90] else []) ++
    (cs.filter (fun c => fs.pathExists (joinPath d c.rel))).map (·.weight)

/-- The greatest of the weights, 0 when there is none. -/
def maxWeight (ws : List Nat) : Nat := ws.foldr max 0

/-- A file system that holds the given paths, and no `package.json` with
workspaces. -/
def fileSystemOf (paths : List Path) : FileSystem where
  pathExists := fun p => paths.contains p
  packageJsonWorkspaces := fun _ => false

/-- The checks of one directory, by the weights of the markers it holds. -/
def acceptWeights (dir : Path) (best : Option Best) (ws : List Nat) : Option Best :=
  ws.foldl (fun b w => if accepts b w then some { dir := dir, weight := w } else b) best

/-- The state of `best` after the directories of `S` have been checked: it is
`null` when none of them holds a marker, and otherwise the directory of `S` of
the greatest marker weight, the outermost of those that have it. -/
structure Chosen (fs : FileSystem) (cs : List Check) (S : Path → Prop)
    (best : Option Best) : Prop where
  nothing : best = none → ∀ d, S d → markerWeights fs cs d = []
  found : ∀ b, best = some b → S b.dir ∧ markerWeights fs cs b.dir ≠ [] ∧
    b.weight = maxWeight (markerWeights fs cs b.dir) ∧
    (∀ d, S d → ∀ x ∈ markerWeights fs cs d, x ≤ b.weight) ∧
    (∀ d, S d → d.length < b.dir.length → ∀ x ∈ markerWeights fs cs d, x < b.weight)

/-! ## `aggregateFileContents` -/

/-- Models `Number(cpuCount) || 4`, for the number `cpuCount` of CPUs reported. -/
def effectiveCpuCount (cpuCount : Nat) : Nat := if cpuCount = 0 then 4 else cpuCount

/-- The value of `concurrency` when the loop starts, for `files.length` and the
number of CPUs reported. -/
def concurrency (filesLength cpuCount : Nat) : Nat :=
  let c := min 64 (max 2 (effectiveCpuCount cpuCount * 2))
  if 0 < filesLength ∧ filesLength < c then max 1 (min c ((filesLength + 1) / 2)) else c

/-- The loop `for (let index = 0; index < files.length; index += step)` from `index` on:
the slices `files.slice(index, index + step)` it passes to `Promise.all`.  `fuel` bounds
the number of iterations; the result is `none` when it does not suffice. -/
def batches {α : Type} (files : List α) (step : Nat) : Nat → Nat → Option (List (List α))
  | 0, index => if index < files.length then none else some []
  | fuel + 1, index =>
    if index < files.length then
      (batches files step fuel (index + step)).map
        (fun rest => (files.drop index).take step :: rest)
    else some []

/-- Models `aggregateFileContents(files, rootDir, spinner)` as far as the calls of
`processOne` go: the files it is called with, in order. -/
def aggregateFileContents {α : Type} (files : List α) (cpuCount fuel : Nat) :
    Option (List α) :=
  (batches files (concurrency files.length cpuCount) fuel 0).map List.flatten

end Flattener

namespace WorkflowFormatter

open MdTree

/-! ## `WorkflowFormatter` -/

/-- The class `[a-zA-Z-]`. -/
def isTagNameChar (c : Char) : Bool :=
  let n := c.toNat
  (0x61 ≤ n && n ≤ 0x7A) || (0x41 ≤ n && n ≤ 0x5A) || c == '-'

/-- Models `s.endsWith(suffix)`. -/
def endsWith (suffix s : JsString) : Bool := suffix.reverse.isPrefixOf s.reverse

/-- Models `/^<[a-zA-Z-]+(\s|>|\/)/.test(line)`: after `<` comes the whole run of name
characters, not empty, and then whitespace, `>` or `/`. -/
def isOpeningTagLine (line : JsString) : Bool :=
  match line with
  | [] => false
  | c :: rest =>
    c == '<' && (rest.takeWhile isTagNameChar).length != 0 &&
      (match rest.dropWhile isTagNameChar with
       | [] => false
       | d :: _ => isJsWhitespace d || d == '>' || d == '/')

/-- Models `/^<\/[a-zA-Z-]+>/.test(line)`: after `</` comes the whole run of name
characters, not empty, and then `>`. -/
def isClosingTagLine (line : JsString) : Bool :=
  startsWith "</".toList line && ((line.drop 2).takeWhile isTagNameChar).length != 0 &&
    (match (line.drop 2).dropWhile isTagNameChar with
     | [] => false
     | d :: _ => d == '>')

/-- Models `isXMLLine(line)`. -/
def isXMLLine (line : JsString) : Bool := isOpeningTagLine line || isClosingTagLine line

/-- Models `tagName`, the capture of `trimmed.match(/^<\/?([a-zA-Z-]+)/)`, and the empty
string when there is no match: the run of name characters after `</`, or
after `<`. -/
def tagNameOf (trimmed : JsString) : JsString :=
  if startsWith "</".toList trimmed then (trimmed.drop 2).takeWhile isTagNameChar
  else if startsWith "<".toList trimmed then (trimmed.drop 1).takeWhile isTagNameChar
  else []

/-- The text after the `>` that ends the opening tag in
`/^<([a-zA-Z-]+)(\s[^>]*)?>.*<\/\1>$/`, given the text after the tag name: the name is
followed by `>`, or by whitespace and then the first `>`. -/
def afterOpeningTag (afterName : JsString) : Option JsString :=
  match afterName with
  | [] => none
  | d :: t =>
    if d == '>' then some t
    else if isJsWhitespace d then
      (match t.dropWhile (fun x => x != '>') with
       | [] => none
       | _ :: body => some body)
    else none

/-- Models `line.match(/^<([a-zA-Z-]+)(\s[^>]*)?>.*<\/\1>$/) !== null`: the line opens a tag
and ends with the closing tag of the same name, with no line terminator
between the two. -/
def opensAndCloses (line : JsString) : Bool :=
  match line with
  | [] => false
  | c :: rest =>
    c == '<' && (rest.takeWhile isTagNameChar).length != 0 &&
      (match afterOpeningTag (rest.dropWhile isTagNameChar) with
       | none => false
       | some body =>
         let closing := "</".toList ++ rest.takeWhile isTagNameChar ++ ">".toList
         endsWith closing body &&
           (body.take (body.length - closing.length)).all (fun x => !isLineTerminator x))

/-- Models `isSelfClosingTag(line)`. -/
def isSelfClosingTag (line : JsString) : Bool :=
  endsWith "/>".toList line || opensAndCloses line

/-- The object `formatXMLLine` returns. -/
structure XMLLineResult where
  line : JsString
  nextIndent : Nat
  nextCheckDepth : Nat
deriving DecidableEq, Repr

/-- Models `formatXMLLine(line, currentIndent, checkDepth, lineIndex, allLines)`, which does not
use its last two arguments; `indentSize` is `this.indentSize`. -/
def formatXMLLine (indentSize : Nat) (line : JsString) (currentIndent checkDepth : Nat) :
    XMLLineResult :=
  let trimmed := jsTrim line
  let tagName := tagNameOf trimmed
  let r : Nat × Nat × Nat :=
    if startsWith "</".toList trimmed then
      (currentIndent - 1, currentIndent - 1,
        if tagName = "step".toList ∨ tagName = "workflow".toList then 0 else checkDepth)
    else if isSelfClosingTag trimmed && tagName != "check".toList then
      (currentIndent, currentIndent, checkDepth)
    else if startsWith "<".toList trimmed then
      if tagName = "check".toList then (currentIndent, currentIndent + 1, checkDepth + 1)
      else if tagName = "action".toList ∧ checkDepth > 0 then
        (currentIndent, currentIndent, checkDepth)
      else if checkDepth > 0 then
        (currentIndent - checkDepth, currentIndent - checkDepth + 1, 0)
      else (currentIndent, currentIndent + 1, checkDepth)
    else (currentIndent, currentIndent, checkDepth)
  { line := List.replicate (r.1 * indentSize) ' ' ++ trimmed,
    nextIndent := r.2.1, nextCheckDepth := r.2.2 }

/-- The loop variables of `formatContent`. -/
structure FormatState where
  indentLevel : Nat
  inCodeBlock : Bool
  checkBlockDepth : Nat
deriving DecidableEq, Repr

/-- One iteration of the loop of `formatContent`: the line pushed to `formatted`, and
the loop variables after it. -/
def formatStep (indentSize : Nat) (st : FormatState) (line : JsString) :
    JsString × FormatState :=
  if startsWith "```".toList (jsTrim line) then
    (line, { st with inCodeBlock := !st.inCodeBlock })
  else if st.inCodeBlock then (line, st)
  else if isXMLLine (jsTrim line) then
    ((formatXMLLine indentSize (jsTrim line) st.indentLevel st.checkBlockDepth).line,
      { st with
        indentLevel :=
          (formatXMLLine indentSize (jsTrim line) st.indentLevel st.checkBlockDepth).nextIndent,
        checkBlockDepth :=
          (formatXMLLine indentSize (jsTrim line) st.indentLevel
            st.checkBlockDepth).nextCheckDepth })
  else if (jsTrim line).length = 0 then ([], st)
  else (line, st)

/-- The loop of `formatContent` over the lines that remain: the lines pushed to
`formatted`. -/
def formatLines (indentSize : Nat) : FormatState → List JsString → List JsString
  | _, [] => []
  | st, line :: ls =>
    (formatStep indentSize st line).1 :: formatLines indentSize (formatStep indentSize st line).2 ls

/-- Models `formatContent(content)`. -/
def formatContent (indentSize : Nat) (content : JsString) : JsString :=
  joinLines (formatLines indentSize { indentLevel := 0, inCodeBlock := false, checkBlockDepth := 0 }
    (splitLines content))

/-- Models `format(filePath)` on the content of the file: whether the file is
reported as changed, and its content after the call. -/
def format (indentSize : Nat) (content : JsString) : Bool × JsString :=
  if content = formatContent indentSize content then (false, content)
  else (true, formatContent indentSize content)

end WorkflowFormatter

namespace MdTree

/-! # Lemmas -/

/-! ## Lines -/

theorem joinLines_cons (l : JsString) (ls : List JsString) (h : ls ≠ []) :
    joinLines (l :: ls) = l ++ '\n' :: joinLines ls := by
  cases ls with
  | nil => exact absurd rfl h
  | cons a t => rfl

theorem splitLinesAux_cons_ne (cur : JsString) (c : Char) (cs : JsString) (h : c ≠ '\n') :
    splitLinesAux cur (c :: cs) = splitLinesAux (c :: cur) cs := by
  rw [splitLinesAux, if_neg h]

theorem splitLinesAux_cons_eq (cur : JsString) (cs : JsString) :
    splitLinesAux cur ('\n' :: cs) = cur.reverse :: splitLinesAux [] cs := by
  rw [splitLinesAux, if_pos rfl]

theorem splitLinesAux_ne_nil (cur s : JsString) : splitLinesAux cur s ≠ [] := by
  induction s generalizing cur with
  | nil => simp [splitLinesAux]
  | cons c cs ih =>
    unfold splitLinesAux
    split
    · simp
    · exact ih _

theorem splitLines_ne_nil (s : JsString) : splitLines s ≠ [] := splitLinesAux_ne_nil [] s

theorem joinLines_splitLinesAux (cur s : JsString) :
    joinLines (splitLinesAux cur s) = cur.reverse ++ s := by
  induction s generalizing cur with
  | nil => simp [splitLinesAux, joinLines]
  | cons c cs ih =>
    unfold splitLinesAux
    split
    · next h =>
      rw [joinLines_cons _ _ (splitLinesAux_ne_nil _ _), ih, h]; simp
    · rw [ih]; simp

theorem joinLines_splitLines (s : JsString) : joinLines (splitLines s) = s := by
  simp [splitLines, joinLines_splitLinesAux]

theorem splitLinesAux_noNewline (cur l : JsString) (h : '\n' ∉ l) :
    splitLinesAux cur l = [cur.reverse ++ l] := by
  induction l generalizing cur with
  | nil => simp [splitLinesAux]
  | cons c cs ih =>
    have hc : c ≠ '\n' := fun e => h (by simp [e])
    have hcs : '\n' ∉ cs := fun e => h (by simp [e])
    unfold splitLinesAux
    rw [if_neg hc, ih _ hcs]; simp

theorem splitLinesAux_line (cur l s : JsString) (h : '\n' ∉ l) :
    splitLinesAux cur (l ++ '\n' :: s) = (cur.reverse ++ l) :: splitLinesAux [] s := by
  induction l generalizing cur with
  | nil => simp [splitLinesAux_cons_eq]
  | cons c cs ih =>
    have hc : c ≠ '\n' := fun e => h (by simp [e])
    have hcs : '\n' ∉ cs := fun e => h (by simp [e])
    simp only [List.cons_append]
    rw [splitLinesAux_cons_ne _ _ _ hc, ih _ hcs]; simp

theorem splitLines_joinLines (ls : List JsString) (hne : ls ≠ [])
    (h : ∀ l ∈ ls, '\n' ∉ l) : splitLines (joinLines ls) = ls := by
  induction ls with
  | nil => exact absurd rfl hne
  | cons l t ih =>
    cases t with
    | nil =>
      simp only [joinLines, splitLines]
      rw [splitLinesAux_noNewline _ _ (h l (by simp))]; simp
    | cons a t =>
      rw [joinLines_cons _ _ (by simp)]
      simp only [splitLines]
      rw [splitLinesAux_line _ _ _ (h l (by simp))]
      have := ih (by simp) (fun x hx => h x (by simp [hx]))
      simp only [splitLines] at this
      rw [this]; simp

theorem splitLinesAux_mem_noNewline (cur s : JsString) (hcur : '\n' ∉ cur) :
    ∀ l ∈ splitLinesAux cur s, '\n' ∉ l := by
  induction s generalizing cur with
  | nil => simp [splitLinesAux]; simpa using hcur
  | cons c cs ih =>
    unfold splitLinesAux
    split
    · intro l hl
      rcases List.mem_cons.1 hl with rfl | hl
      · simpa using hcur
      · exact ih [] (by simp) l hl
    · next hc =>
      exact ih (c :: cur) (by
        intro hm
        rcases List.mem_cons.1 hm with e | e
        · exact hc e.symm
        · exact hcur e)

theorem splitLines_mem_noNewline (s : JsString) : ∀ l ∈ splitLines s, '\n' ∉ l :=
  splitLinesAux_mem_noNewline [] s (by simp)

/-! ## Fences and headings -/

theorem rdropWhile_cons_of_neg (p : Char → Bool) (c : Char) (t : JsString) (h : p c = false) :
    ∃ u, ((c :: t).reverse.dropWhile p).reverse = c :: u := by
  induction t using List.reverseRecOn with
  | nil => exact ⟨[], by simp [List.dropWhile, h]⟩
  | append_singleton t x ih =>
    obtain ⟨u, hu⟩ := ih
    by_cases hx : p x = true
    · refine ⟨u, ?_⟩
      have : (c :: (t ++ [x])).reverse = x :: (c :: t).reverse := by simp
      rw [this, List.dropWhile_cons_of_pos hx, hu]
    · refine ⟨t ++ [x], ?_⟩
      have : (c :: (t ++ [x])).reverse = x :: (c :: t).reverse := by simp
      rw [this, List.dropWhile_cons_of_neg hx]; simp

theorem jsTrim_cons_of_not_whitespace (c : Char) (t : JsString) (h : isJsWhitespace c = false) :
    ∃ u, jsTrim (c :: t) = c :: u := by
  unfold jsTrim
  rw [List.dropWhile_cons_of_neg (by simp [h])]
  exact rdropWhile_cons_of_neg _ c t h

theorem isFenceDelimiter_hash (t : JsString) : isFenceDelimiter ('#' :: t) = false := by
  obtain ⟨u, hu⟩ := jsTrim_cons_of_not_whitespace '#' t (by decide)
  simp [isFenceDelimiter, hu, startsWith, List.isPrefixOf]

theorem isFenceDelimiter_of_startsWith_h1 (l : JsString) (h : startsWith ['#', ' '] l = true) :
    isFenceDelimiter l = false := by
  cases l with
  | nil => simp [startsWith] at h
  | cons c t =>
    simp [startsWith] at h
    rw [← h.1]; exact isFenceDelimiter_hash t

theorem isFenceDelimiter_of_startsWith_h2 (l : JsString)
    (h : startsWith ['#', '#', ' '] l = true) : isFenceDelimiter l = false := by
  cases l with
  | nil => simp [startsWith] at h
  | cons c t =>
    simp [startsWith] at h
    rw [← h.1]; exact isFenceDelimiter_hash t

theorem not_h2_of_h1 (l : JsString) (h : startsWith ['#', ' '] l = true) :
    startsWith ['#', '#', ' '] l = false := by
  match l, h with
  | [], h => simp [startsWith] at h
  | [c], h => simp [startsWith, List.isPrefixOf] at h
  | c :: d :: t, h =>
    simp [startsWith, List.isPrefixOf] at h
    obtain ⟨rfl, rfl⟩ := h
    simp [startsWith, List.isPrefixOf]

theorem isJsWhitespace_hash : isJsWhitespace '#' = false := by decide

theorem ne_hash_of_whitespace (w : Char) (h : isJsWhitespace w = true) : (w == '#') = false := by
  by_contra hc
  simp at hc
  rw [hc] at h
  exact absurd h (by decide)

theorem takeWhile_hashes (L : Nat) (w : Char) (r : JsString) (hw : (w == '#') = false) :
    (hashes L ++ w :: r).takeWhile (· == '#') = hashes L := by
  induction L with
  | zero => simp [hashes, List.takeWhile, hw]
  | succ n ih =>
    simp only [hashes, List.replicate_succ, List.cons_append] at ih ⊢
    rw [List.takeWhile_cons_of_pos (by simp), ih]

theorem dropWhile_hashes (L : Nat) (w : Char) (r : JsString) (hw : (w == '#') = false) :
    (hashes L ++ w :: r).dropWhile (· == '#') = w :: r := by
  induction L with
  | zero => simp [hashes, List.dropWhile, hw]
  | succ n ih =>
    simp only [hashes, List.replicate_succ, List.cons_append] at ih ⊢
    rw [List.dropWhile_cons_of_pos (by simp), ih]

theorem takeWhile_eq_hashes (l : JsString) :
    l.takeWhile (· == '#') = hashes (l.takeWhile (· == '#')).length := by
  unfold hashes
  rw [List.eq_replicate_iff]
  refine ⟨rfl, fun b hb => ?_⟩
  have := List.mem_takeWhile_imp hb
  simpa using this

theorem leadingHashes_hashes (L : Nat) (w : Char) (r : JsString) (hw : isJsWhitespace w = true) :
    leadingHashes (hashes L ++ w :: r) = L := by
  unfold leadingHashes
  rw [takeWhile_hashes L w r (ne_hash_of_whitespace w hw)]
  simp [hashes]

/-- The lines `matchHeading lo hi` accepts, and what it captures. -/
theorem matchHeading_hashes (lo hi L : Nat) (w : Char) (r : JsString)
    (hw : isJsWhitespace w = true) :
    matchHeading lo hi (hashes L ++ w :: r) =
      if lo ≤ L ∧ L ≤ hi ∧ ((w :: r).dropWhile isJsWhitespace).all (fun c => !isLineTerminator c)
      then some (hashes L, w :: r) else none := by
  unfold matchHeading
  simp only [takeWhile_hashes L w r (ne_hash_of_whitespace w hw),
    dropWhile_hashes L w r (ne_hash_of_whitespace w hw)]
  simp [hashes, hw, and_assoc]

theorem matchHeading_eq_some (lo hi : Nat) (l hs rest : JsString)
    (h : matchHeading lo hi l = some (hs, rest)) :
    ∃ L w r, hs = hashes L ∧ rest = w :: r ∧ l = hashes L ++ w :: r ∧
      isJsWhitespace w = true ∧ lo ≤ L ∧ L ≤ hi ∧
      ((w :: r).dropWhile isJsWhitespace).all (fun c => !isLineTerminator c) = true := by
  unfold matchHeading at h
  simp only at h
  split at h
  · next hc =>
    simp only [Bool.and_eq_true, decide_eq_true_eq] at hc
    obtain ⟨⟨⟨h1, h2⟩, h3⟩, h4⟩ := hc
    simp only [Option.some.injEq, Prod.mk.injEq] at h
    obtain ⟨rfl, rfl⟩ := h
    cases hr : l.dropWhile (· == '#') with
    | nil => rw [hr] at h3; simp at h3
    | cons w r =>
      rw [hr] at h3 h4
      simp at h3
      refine ⟨(l.takeWhile (· == '#')).length, w, r, takeWhile_eq_hashes l, rfl, ?_, h3, h1, h2, h4⟩
      rw [← takeWhile_eq_hashes l, ← hr, List.takeWhile_append_dropWhile]
  · simp at h

theorem matchHeading_mono (lo hi lo2 hi2 : Nat) (l : JsString) (h1 : lo2 ≤ lo) (h2 : hi ≤ hi2)
    (h : matchHeading lo2 hi2 l = none) : matchHeading lo hi l = none := by
  cases hm : matchHeading lo hi l with
  | none => rfl
  | some p =>
    obtain ⟨hs, rest⟩ := p
    obtain ⟨L, w, r, rfl, rfl, rfl, hw, hlo, hhi, hlt⟩ := matchHeading_eq_some _ _ _ _ _ hm
    rw [matchHeading_hashes _ _ _ _ _ hw, if_pos ⟨by omega, by omega, hlt⟩] at h
    simp at h

/-! ## The fence state -/

theorem insideFence_zero (ls : List JsString) : insideFence ls 0 = false := by
  simp [insideFence]

theorem insideFence_cons_succ (l : JsString) (ls : List JsString) (i : Nat) :
    insideFence (l :: ls) (i + 1) = xor (isFenceDelimiter l) (insideFence ls i) := by
  unfold insideFence
  simp only [List.take_succ_cons, List.countP_cons]
  generalize List.countP isFenceDelimiter (List.take i ls) = n
  rcases Nat.mod_two_eq_zero_or_one n with h | h
  · have h2 : (n + 1) % 2 = 1 := by omega
    cases isFenceDelimiter l <;> simp [h, h2]
  · have h2 : (n + 1) % 2 = 0 := by omega
    cases isFenceDelimiter l <;> simp [h, h2]

theorem adjustLines_getElem? (δ : Int) (b : Bool) (ls : List JsString) (i : Nat) :
    (adjustLines δ b ls)[i]? = ls[i]?.map (fun l =>
      if isFenceDelimiter l || xor b (insideFence ls i) then l else adjustLine δ l) := by
  induction ls generalizing b i with
  | nil => simp [adjustLines]
  | cons l t ih =>
    cases i with
    | zero =>
      unfold adjustLines
      by_cases hf : isFenceDelimiter l = true
      · simp [hf]
      · simp only [hf, Bool.false_eq_true, if_false]
        cases b <;> simp [insideFence_zero, hf]
    | succ i =>
      unfold adjustLines
      by_cases hf : isFenceDelimiter l = true
      · simp only [hf, if_true, List.getElem?_cons_succ, ih, insideFence_cons_succ]
        cases b <;> simp
      · simp only [hf, Bool.false_eq_true, if_false]
        cases b <;> simp [ih, insideFence_cons_succ, hf]

theorem adjustLines_length (δ : Int) (b : Bool) (ls : List JsString) :
    (adjustLines δ b ls).length = ls.length := by
  induction ls generalizing b with
  | nil => simp [adjustLines]
  | cons l t ih =>
    unfold adjustLines
    split
    · simp [ih]
    · split <;> simp [ih]

/-! ## `adjustHeadingLevels`, line by line -/

theorem adjustLine_eq_or (δ : Int) (l : JsString) :
    adjustLine δ l = l ∨ ∃ L w r, l = hashes L ++ w :: r ∧ isJsWhitespace w = true ∧
      1 ≤ L ∧ L ≤ 5 ∧ 1 ≤ (L : Int) + δ ∧ (L : Int) + δ ≤ 6 ∧
      ((w :: r).dropWhile isJsWhitespace).all (fun c => !isLineTerminator c) = true ∧
      adjustLine δ l = hashes ((L : Int) + δ).toNat ++ w :: r := by
  unfold adjustLine
  cases hm : matchHeading 1 5 l with
  | none => exact Or.inl rfl
  | some p =>
    obtain ⟨hs, rest⟩ := p
    obtain ⟨L, w, r, rfl, rfl, rfl, hw, hlo, hhi, hlt⟩ := matchHeading_eq_some _ _ _ _ _ hm
    simp only [MIN_HEADING_LEVEL, MAX_HEADING_LEVEL]
    split
    · next hb =>
      right
      have hlen : ((hashes L).length : Int) = L := by simp [hashes]
      rw [hlen] at hb ⊢
      exact ⟨L, w, r, rfl, hw, hlo, hhi, hb.1, hb.2, hlt, rfl⟩
    · exact Or.inl rfl

theorem adjustLine_of_heading (δ : Int) (L : Nat) (w : Char) (r : JsString)
    (hw : isJsWhitespace w = true)
    (hlt : ((w :: r).dropWhile isJsWhitespace).all (fun c => !isLineTerminator c) = true)
    (hL : 1 ≤ L ∧ L ≤ 5) (hδ : 1 ≤ (L : Int) + δ ∧ (L : Int) + δ ≤ 6) :
    adjustLine δ (hashes L ++ w :: r) = hashes ((L : Int) + δ).toNat ++ w :: r := by
  unfold adjustLine
  rw [matchHeading_hashes _ _ _ _ _ hw, if_pos ⟨hL.1, hL.2, hlt⟩]
  have hlen : ((hashes L).length : Int) = L := by simp [hashes]
  simp only [MIN_HEADING_LEVEL, MAX_HEADING_LEVEL, hlen]
  rw [if_pos ⟨hδ.1, hδ.2⟩]

theorem adjustLine_of_not_match (δ : Int) (l : JsString) (h : matchHeading 1 5 l = none) :
    adjustLine δ l = l := by
  unfold adjustLine; rw [h]

theorem mem_hashes_append {c : Char} {n : Nat} {rest : JsString} (h : c ∈ hashes n ++ rest) :
    c = '#' ∨ c ∈ rest := by
  rcases List.mem_append.1 h with h | h
  · left; exact (List.mem_replicate.1 h).2
  · right; exact h

theorem adjustLine_noNewline (δ : Int) (l : JsString) (h : '\n' ∉ l) :
    '\n' ∉ adjustLine δ l := by
  rcases adjustLine_eq_or δ l with e | ⟨L, w, r, rfl, _, _, _, _, _, _, e⟩
  · rw [e]; exact h
  · rw [e]
    intro hm
    rcases mem_hashes_append hm with hc | hc
    · exact absurd hc (by decide)
    · exact h (List.mem_append_right _ hc)

theorem adjustLines_noNewline (δ : Int) (b : Bool) (ls : List JsString)
    (h : ∀ l ∈ ls, '\n' ∉ l) : ∀ l ∈ adjustLines δ b ls, '\n' ∉ l := by
  induction ls generalizing b with
  | nil => simp [adjustLines]
  | cons a t ih =>
    have ha := h a (by simp)
    have ht : ∀ l ∈ t, '\n' ∉ l := fun l hl => h l (by simp [hl])
    unfold adjustLines
    split
    · intro l hl
      rcases List.mem_cons.1 hl with rfl | hl
      · exact ha
      · exact ih _ ht l hl
    · split
      · intro l hl
        rcases List.mem_cons.1 hl with rfl | hl
        · exact ha
        · exact ih _ ht l hl
      · intro l hl
        rcases List.mem_cons.1 hl with rfl | hl
        · exact adjustLine_noNewline δ a ha
        · exact ih _ ht l hl

/-- The lines of the result of `adjustHeadingLevels` are the adjusted lines of
the content. -/
theorem splitLines_adjustHeadingLevels (content : JsString) (δ : Int) :
    splitLines (adjustHeadingLevels content δ) = adjustLines δ false (splitLines content) := by
  unfold adjustHeadingLevels
  apply splitLines_joinLines
  · intro h
    have := congrArg List.length h
    rw [adjustLines_length] at this
    exact splitLines_ne_nil content (List.length_eq_zero.1 this)
  · exact adjustLines_noNewline δ false _ (splitLines_mem_noNewline content)

/-- Line `i` of the result of `adjustHeadingLevels`. -/
theorem adjustHeadingLevels_line (content : JsString) (δ : Int) (i : Nat) :
    (splitLines (adjustHeadingLevels content δ))[i]? = (splitLines content)[i]?.map (fun l =>
      if isFenceDelimiter l || insideFence (splitLines content) i then l else adjustLine δ l) := by
  rw [splitLines_adjustHeadingLevels, adjustLines_getElem?]
  simp

theorem isFenceDelimiter_hashes_append (n : Nat) (rest : JsString) (h : 1 ≤ n) :
    isFenceDelimiter (hashes n ++ rest) = false := by
  obtain ⟨m, rfl⟩ : ∃ m, n = m + 1 := ⟨n - 1, by omega⟩
  simp only [hashes, List.replicate_succ, List.cons_append]
  exact isFenceDelimiter_hash _

theorem isFenceDelimiter_adjustLine (δ : Int) (l : JsString) :
    isFenceDelimiter (adjustLine δ l) = isFenceDelimiter l := by
  rcases adjustLine_eq_or δ l with e | ⟨L, w, r, rfl, _, h1, _, h3, _, _, e⟩
  · rw [e]
  · rw [e, isFenceDelimiter_hashes_append _ _ h1, isFenceDelimiter_hashes_append _ _ (by omega)]

theorem adjustLine_down_up (l : JsString) (h : isHeading l = true → leadingHashes l ≠ 5) :
    adjustLine (-1) (adjustLine 1 l) = l := by
  rcases adjustLine_eq_or 1 l with e | ⟨L, w, r, rfl, hw, h1, h5, _, _, hlt, e⟩
  · rw [e]
    rcases adjustLine_eq_or (-1) l with e2 | ⟨L, w, r, rfl, hw, h1, h5, h6, _, hlt, e2⟩
    · exact e2
    · -- the first call left a heading of level 1 to 5 unchanged: impossible
      have := adjustLine_of_heading 1 L w r hw hlt ⟨h1, h5⟩ ⟨by omega, by omega⟩
      rw [e] at this
      have hh := congrArg leadingHashes this
      rw [leadingHashes_hashes _ _ _ hw, leadingHashes_hashes _ _ _ hw] at hh
      omega
  · rw [e]
    have hL : L ≠ 5 := by
      have := h (by
        unfold isHeading
        rw [matchHeading_hashes _ _ _ _ _ hw, if_pos ⟨h1, by omega, hlt⟩]; rfl)
      rwa [leadingHashes_hashes _ _ _ hw] at this
    have e1 : ((L : Int) + 1).toNat = L + 1 := by omega
    rw [e1, adjustLine_of_heading (-1) (L + 1) w r hw hlt ⟨by omega, by omega⟩
      ⟨by push_cast; omega, by push_cast; omega⟩]
    congr 2
    push_cast; omega

theorem adjustLines_down_up (b : Bool) (ls : List JsString)
    (h : ∀ i line, ls[i]? = some line → xor b (insideFence ls i) = false →
      isHeading line = true → leadingHashes line ≠ 5) :
    adjustLines (-1) b (adjustLines 1 b ls) = ls := by
  induction ls generalizing b with
  | nil => simp [adjustLines]
  | cons a t ih =>
    have ht : ∀ b', b' = xor b (isFenceDelimiter a) → ∀ i line, t[i]? = some line →
        xor b' (insideFence t i) = false → isHeading line = true → leadingHashes line ≠ 5 := by
      intro b' hb' i line hl hx
      refine h (i + 1) line (by simpa using hl) ?_
      rw [insideFence_cons_succ]
      rw [hb'] at hx
      revert hx
      cases b <;> cases isFenceDelimiter a <;> cases insideFence t i <;> simp
    by_cases hf : isFenceDelimiter a = true
    · rw [adjustLines, if_pos hf, adjustLines, if_pos hf, ih _ (ht _ (by cases b <;> simp [hf]))]
    · by_cases hb : b = true
      · rw [adjustLines, if_neg hf, if_pos hb, adjustLines, if_neg hf, if_pos hb,
          ih _ (ht _ (by simp [hf]))]
      · have ha := h 0 a (by simp) (by simp [insideFence_zero, hb])
        rw [adjustLines, if_neg hf, if_neg hb, adjustLines,
          if_neg (by rw [isFenceDelimiter_adjustLine]; exact hf), if_neg hb,
          adjustLine_down_up a ha, ih _ (ht _ (by simp [hf]))]

/-! ## The scan -/

theorem scanLoop_append (k : Nat) (st : ScanState) (a b : List JsString) :
    scanLoop k st (a ++ b) = scanLoop (k + a.length) (scanLoop k st a) b := by
  induction a generalizing k st with
  | nil => simp [scanLoop]
  | cons x t ih =>
    rw [List.cons_append, scanLoop, scanLoop, ih, List.length_cons]
    congr 1; omega

theorem stateBefore_zero (lines : List JsString) : stateBefore lines 0 = initialScanState := by
  simp [stateBefore, scanLoop]

theorem stateBefore_succ (lines : List JsString) (i : Nat) (h : i < lines.length) :
    stateBefore lines (i + 1) = scanStep i (stateBefore lines i) (lines.getD i []) := by
  unfold stateBefore
  rw [List.take_succ, scanLoop_append]
  have hl : (List.take i lines).length = i := by simp; omega
  simp [hl, List.getElem?_eq_getElem h, scanLoop, List.getD_eq_getElem _ _ h]

theorem stateBefore_length (lines : List JsString) :
    stateBefore lines lines.length = scanLoop 0 initialScanState lines := by
  simp [stateBefore]

theorem insideFence_succ (lines : List JsString) (i : Nat) (h : i < lines.length) :
    insideFence lines (i + 1) = xor (insideFence lines i) (isFenceDelimiter (lines.getD i [])) := by
  unfold insideFence
  rw [List.take_succ, List.countP_append]
  simp only [List.getElem?_eq_getElem h, Option.toList_some, List.getD_eq_getElem _ _ h]
  generalize List.countP isFenceDelimiter (List.take i lines) = n
  rw [List.countP_singleton]
  rcases Nat.mod_two_eq_zero_or_one n with hn | hn
  · have h2 : (n + 1) % 2 = 1 := by omega
    cases isFenceDelimiter lines[i] <;> simp [hn, h2]
  · have h2 : (n + 1) % 2 = 0 := by omega
    cases isFenceDelimiter lines[i] <;> simp [hn, h2]

/-- The three ways an iteration of the scan goes. -/
theorem scanStep_cases (lines : List JsString) (i : Nat) (st : ScanState)
    (hcode : st.inCodeBlock = insideFence lines i) :
    (isBoundary lines i = false ∧
      scanStep i st (lines.getD i []) =
        { sections := st.sections
          currentSection := pushLine (lines.getD i []) st.currentSection
          inCodeBlock := xor st.inCodeBlock (isFenceDelimiter (lines.getD i [])) }) ∨
    (isBoundary lines i = true ∧ isSectionStart lines i = false ∧
      isFenceDelimiter (lines.getD i []) = false ∧
      scanStep i st (lines.getD i []) =
        { sections := closeSection ((i : Int) - 1) st.sections st.currentSection
          currentSection := none
          inCodeBlock := st.inCodeBlock }) ∨
    (isBoundary lines i = true ∧ isSectionStart lines i = true ∧
      isFenceDelimiter (lines.getD i []) = false ∧
      lines.getD i [] = ['#', '#', ' '] ++ (lines.getD i []).drop 3 ∧
      scanStep i st (lines.getD i []) =
        { sections := closeSection ((i : Int) - 1) st.sections st.currentSection
          currentSection := some
            { headingText := (lines.getD i []).drop 3, startLine := i, endLine := none,
              lines := [] }
          inCodeBlock := st.inCodeBlock }) := by
  generalize hl : lines.getD i [] = line
  unfold scanStep isBoundary isSectionStart
  rw [hl, ← hcode]
  by_cases hf : isFenceDelimiter line = true
  · left
    have h1 : startsWith ['#', ' '] line = false := by
      by_contra hc
      rw [isFenceDelimiter_of_startsWith_h1 line (by simpa using hc)] at hf
      exact absurd hf (by simp)
    have h2 : startsWith ['#', '#', ' '] line = false := by
      by_contra hc
      rw [isFenceDelimiter_of_startsWith_h2 line (by simpa using hc)] at hf
      exact absurd hf (by simp)
    simp [hf, h1, h2]
  · have hf' : isFenceDelimiter line = false := by simpa using hf
    by_cases hb : st.inCodeBlock = true
    · left
      simp [hf', hb]
    · have hb' : st.inCodeBlock = false := by simpa using hb
      by_cases h1 : startsWith ['#', ' '] line = true
      · right; left
        simp [hf', hb', h1, not_h2_of_h1 line h1]
      · have h1' : startsWith ['#', ' '] line = false := by simpa using h1
        by_cases h2 : startsWith ['#', '#', ' '] line = true
        · right; right
          simp only [hf', hb', h1', h2]
          refine ⟨by simp, by simp, trivial, ?_, by simp⟩
          have : ['#', '#', ' '] <+: line := by simpa [startsWith] using h2
          obtain ⟨t, rfl⟩ := this
          simp
        · left
          have h2' : startsWith ['#', '#', ' '] line = false := by simpa using h2
          simp [hf', hb', h1', h2']

theorem SpansUpTo.close {lines : List JsString} {c : Section} {j : Nat} (e : Option Int)
    (h : SpansUpTo lines c j) : SpansUpTo lines { c with endLine := e } j := h

theorem SpansUpTo.push {lines : List JsString} {c : Section} {i : Nat}
    (h : SpansUpTo lines c i) (hi : i < lines.length) (hb : isBoundary lines i = false) :
    SpansUpTo lines { c with lines := c.lines ++ [lines.getD i []] } (i + 1) := by
  obtain ⟨h1, h2, h3, h4, h5, h6⟩ := h
  refine ⟨by show c.startLine < i + 1; omega, hi, h3, h4, ?_, ?_⟩
  · show c.lines ++ [lines.getD i []] = _
    rw [List.take_succ, List.getElem?_eq_getElem hi, List.getD_eq_getElem _ _ hi, h5]
    simp only [Option.toList_some]
    rw [List.drop_append_of_le_length (by simp; omega)]
  · intro k hk1 hk2
    by_cases hk : k = i
    · rw [hk]; exact hb
    · exact h6 k hk1 (by omega)

theorem scanInv_zero (lines : List JsString) : ScanInv lines 0 initialScanState where
  code := by simp [initialScanState, insideFence_zero]
  closed := by simp [initialScanState]
  opened := by simp [initialScanState]
  starts := by simp [initialScanState]

theorem scanInv_step (lines : List JsString) (i : Nat) (st : ScanState) (hi : i < lines.length)
    (inv : ScanInv lines i st) : ScanInv lines (i + 1) (scanStep i st (lines.getD i [])) := by
  have hrange : (List.range (i + 1)).filter (isSectionStart lines) =
      (List.range i).filter (isSectionStart lines) ++
        (if isSectionStart lines i = true then [i] else []) := by
    rw [List.range_succ, List.filter_append]
    congr 1
    by_cases h : isSectionStart lines i = true <;> simp [h]
  have hclosedMono : ∀ s ∈ st.sections, ∃ j, SpansUpTo lines s j ∧ j < i + 1 ∧
      isBoundary lines j = true ∧ s.endLine = some ((j : Int) - 1) := by
    intro s hs
    obtain ⟨j, a, b, c⟩ := inv.closed s hs
    exact ⟨j, a, by omega, c⟩
  have hclose : isBoundary lines i = true →
      ∀ s ∈ closeSection ((i : Int) - 1) st.sections st.currentSection,
        ∃ j, SpansUpTo lines s j ∧ j < i + 1 ∧ isBoundary lines j = true ∧
          s.endLine = some ((j : Int) - 1) := by
    intro hb s hs
    cases hc : st.currentSection with
    | none =>
      rw [hc] at hs
      exact hclosedMono s hs
    | some c =>
      rw [hc] at hs
      simp only [closeSection, List.mem_append, List.mem_singleton] at hs
      rcases hs with hs | rfl
      · exact hclosedMono s hs
      · exact ⟨i, (inv.opened c hc).close _, by omega, hb, rfl⟩
  have hcloseStarts : (closeSection ((i : Int) - 1) st.sections st.currentSection).map
      (·.startLine) = (List.range i).filter (isSectionStart lines) := by
    rw [← inv.starts]
    cases hc : st.currentSection with
    | none => simp [closeSection]
    | some c => simp [closeSection]
  have hsecStart : isSectionStart lines i = true → isBoundary lines i = true := by
    unfold isSectionStart isBoundary
    intro h
    simp only [Bool.and_eq_true] at h ⊢
    exact ⟨h.1, by rw [h.2]; simp⟩
  rcases scanStep_cases lines i st inv.code with ⟨hb, e⟩ | ⟨hb, hs, hf, e⟩ | ⟨hb, hs, hf, hl, e⟩
  · rw [e]
    have hns : isSectionStart lines i = false := by
      by_contra hc
      rw [hsecStart (by simpa using hc)] at hb
      exact absurd hb (by simp)
    refine ⟨?_, hclosedMono, ?_, ?_⟩
    · show xor st.inCodeBlock _ = _
      rw [insideFence_succ lines i hi, inv.code]
    · intro c hc
      cases hcur : st.currentSection with
      | none => rw [hcur] at hc; simp [pushLine] at hc
      | some c0 =>
        rw [hcur] at hc
        simp only [pushLine, Option.some.injEq] at hc
        rw [← hc]
        exact (inv.opened c0 hcur).push hi hb
    · rw [hrange, hns, ← inv.starts]
      cases hcur : st.currentSection <;> simp [pushLine]
  · rw [e]
    refine ⟨?_, hclose hb, ?_, ?_⟩
    · show st.inCodeBlock = _
      rw [insideFence_succ lines i hi, inv.code, hf]; simp
    · intro c hc; simp at hc
    · rw [hrange, hs, hcloseStarts]; simp
  · rw [e]
    refine ⟨?_, hclose hb, ?_, ?_⟩
    · show st.inCodeBlock = _
      rw [insideFence_succ lines i hi, inv.code, hf]; simp
    · intro c hc
      simp only [Option.some.injEq] at hc
      rw [← hc]
      refine ⟨Nat.lt_succ_self i, hi, hs, ?_, ?_, ?_⟩
      · show lines[i]? = _
        rw [List.getElem?_eq_getElem hi, ← List.getD_eq_getElem _ [] hi]
        exact congrArg some hl
      · show [] = _
        simp
      · intro k hk1 hk2
        exact absurd hk1 (by show ¬ i < k; omega)
    · rw [hrange, hs, hcloseStarts]; simp

theorem scanInv_stateBefore (lines : List JsString) (i : Nat) (hi : i ≤ lines.length) :
    ScanInv lines i (stateBefore lines i) := by
  induction i with
  | zero => rw [stateBefore_zero]; exact scanInv_zero lines
  | succ n ih =>
    rw [stateBefore_succ lines n (by omega)]
    exact scanInv_step lines n _ (by omega) (ih (by omega))

/-- The start lines of the collected sections are the section starts of the
document, in increasing order. -/
theorem collectSections_startLines (lines : List JsString) :
    (collectSections lines).map (·.startLine) =
      (List.range lines.length).filter (isSectionStart lines) := by
  have inv := scanInv_stateBefore lines lines.length (le_refl _)
  rw [stateBefore_length] at inv
  unfold collectSections
  simp only
  rw [← inv.starts]
  cases hc : (scanLoop 0 initialScanState lines).currentSection <;> simp [closeSection]

/-- Every collected section spans the lines from its heading to the next
boundary, or to the end of the document. -/
theorem collectSections_spans (lines : List JsString) :
    ∀ s ∈ collectSections lines, ∃ j, SpansUpTo lines s j ∧
      (j < lines.length → isBoundary lines j = true) ∧ s.endLine = some ((j : Int) - 1) := by
  have inv := scanInv_stateBefore lines lines.length (le_refl _)
  rw [stateBefore_length] at inv
  intro s hs
  unfold collectSections at hs
  simp only at hs
  cases hc : (scanLoop 0 initialScanState lines).currentSection with
  | none =>
    rw [hc] at hs
    obtain ⟨j, a, b, c, d⟩ := inv.closed s hs
    exact ⟨j, a, fun _ => c, d⟩
  | some c =>
    rw [hc] at hs
    simp only [closeSection, List.mem_append, List.mem_singleton] at hs
    rcases hs with hs | rfl
    · obtain ⟨j, a, b, c, d⟩ := inv.closed s hs
      exact ⟨j, a, fun _ => c, d⟩
    · exact ⟨lines.length, (inv.opened c hc).close _, fun h => absurd h (lt_irrefl _), rfl⟩

/-! ## Files -/

theorem readFile_putFile_same (dir : Dir) (name content : JsString) :
    readFile (putFile dir name content) name = some content := by
  induction dir with
  | nil => simp [putFile, readFile, List.lookup]
  | cons e t ih =>
    obtain ⟨n, c⟩ := e
    unfold putFile
    by_cases h : n = name
    · simp [h, readFile, List.lookup]
    · have h' : (name == n) = false := by simpa using fun e => h e.symm
      simp only [h, if_false, readFile, List.lookup, h']
      exact ih

theorem readFile_putFile_other (dir : Dir) (name content other : JsString)
    (h : name ≠ other) :
    readFile (putFile dir name content) other = readFile dir other := by
  induction dir with
  | nil =>
    have h' : (other == name) = false := by simpa using fun e => h e.symm
    simp [putFile, readFile, List.lookup, h']
  | cons e t ih =>
    obtain ⟨n, c⟩ := e
    unfold putFile
    by_cases hn : n = name
    · have h' : (other == name) = false := by simpa using fun e => h e.symm
      simp [hn, readFile, List.lookup, h']
    · simp only [hn, if_false, readFile, List.lookup]
      cases other == n
      · exact ih
      · rfl

theorem putSections_append (dir : Dir) (a b : List Section) :
    putSections dir (a ++ b) = putSections (putSections dir a) b := by
  induction a generalizing dir with
  | nil => rfl
  | cons s t ih => rw [List.cons_append, putSections, putSections, ih]

theorem readFile_putSections_other (dir : Dir) (ss : List Section) (name : JsString)
    (h : ∀ t ∈ ss, sectionFilename t ≠ name) :
    readFile (putSections dir ss) name = readFile dir name := by
  induction ss generalizing dir with
  | nil => rfl
  | cons s t ih =>
    rw [putSections, ih _ (fun x hx => h x (by simp [hx])),
      readFile_putFile_other _ _ _ _ (h s (by simp))]

theorem writeFile_of_short (dir : Dir) (name content : JsString)
    (h : utf8Length name ≤ NAME_MAX) :
    writeFile dir name content = some (putFile dir name content) := if_pos h

theorem writeFile_of_long (dir : Dir) (name content : JsString)
    (h : NAME_MAX < utf8Length name) : writeFile dir name content = none :=
  if_neg (Nat.not_le.2 h)

/-- When every file name is short enough, every write of the loop succeeds. -/
theorem writeSections_of_short (dir : Dir) (ss : List Section)
    (h : ∀ s ∈ ss, utf8Length (sectionFilename s) ≤ NAME_MAX) :
    writeSections dir ss = (putSections dir ss, true) := by
  induction ss generalizing dir with
  | nil => rfl
  | cons s t ih =>
    rw [writeSections, writeFile_of_short _ _ _ (h s (List.mem_cons_self _ _)), putSections]
    exact ih _ (fun x hx => h x (List.mem_cons_of_mem _ hx))

/-- A file name that is too long makes a write of the loop fail. -/
theorem writeSections_of_long (dir : Dir) (ss : List Section)
    (h : ∃ s ∈ ss, NAME_MAX < utf8Length (sectionFilename s)) :
    (writeSections dir ss).2 = false := by
  induction ss generalizing dir with
  | nil => obtain ⟨s, hs, _⟩ := h; simp at hs
  | cons s t ih =>
    by_cases hl : utf8Length (sectionFilename s) ≤ NAME_MAX
    · rw [writeSections, writeFile_of_short _ _ _ hl]
      obtain ⟨x, hx, hlong⟩ := h
      rcases List.mem_cons.1 hx with rfl | hx
      · omega
      · exact ih _ ⟨x, hx, hlong⟩
    · rw [writeSections, writeFile_of_long _ _ _ (Nat.not_le.1 hl)]

/-- The files the loop has written before a write fails are files of sections
written as when every write succeeds. -/
theorem writeSections_fst (dir : Dir) (ss : List Section) :
    ∃ k, (writeSections dir ss).1 = putSections dir (ss.take k) := by
  induction ss generalizing dir with
  | nil => exact ⟨0, rfl⟩
  | cons s t ih =>
    by_cases hl : utf8Length (sectionFilename s) ≤ NAME_MAX
    · obtain ⟨k, hk⟩ := ih (putFile dir (sectionFilename s) (sectionContent s))
      refine ⟨k + 1, ?_⟩
      rw [writeSections, writeFile_of_short _ _ _ hl, hk, List.take_succ_cons, putSections]
    · refine ⟨0, ?_⟩
      rw [writeSections, writeFile_of_long _ _ _ (Nat.not_le.1 hl)]
      rfl

/-- With sections whose file names are all short enough, explode returns and
leaves the section files and the index. -/
theorem explodeDocumentTextBased_of_short (P : MarkdownTreeParser) (D : JsString)
    (outputDir : Option Dir) (hne : (collectSections (splitLines D)).length ≠ 0)
    (hshort : ∀ s ∈ collectSections (splitLines D),
      utf8Length (sectionFilename s) ≤ NAME_MAX) :
    explodeDocumentTextBased P (some D) outputDir =
      (Outcome.returned,
        some (putFile (putSections (outputDir.getD []) (collectSections (splitLines D)))
          "index.md".toList (explodeIndexContent P D))) := by
  unfold explodeDocumentTextBased
  simp only [hne, if_false]
  rw [writeSections_of_short _ _ hshort]
  simp only
  rw [writeFile_of_short _ _ _ (by decide)]

/-- With a section whose file name is too long, explode exits with code 1. -/
theorem explodeDocumentTextBased_of_long (P : MarkdownTreeParser) (D : JsString)
    (outputDir : Option Dir)
    (hlong : ∃ s ∈ collectSections (splitLines D),
      NAME_MAX < utf8Length (sectionFilename s)) :
    (explodeDocumentTextBased P (some D) outputDir).1 = Outcome.exited 1 := by
  have hne : (collectSections (splitLines D)).length ≠ 0 := by
    obtain ⟨s, hs, _⟩ := hlong
    intro h0
    rw [List.length_eq_zero.1 h0] at hs
    simp at hs
  have h2 := writeSections_of_long (outputDir.getD []) _ hlong
  unfold explodeDocumentTextBased
  simp only [hne, if_false]
  cases hw : writeSections (outputDir.getD []) (collectSections (splitLines D)) with
  | mk written ok =>
    rw [hw] at h2
    simp only at h2
    subst h2
    rfl


/-! ## Trailing newlines -/

theorem splitLinesAux_snoc_newline (cur s : JsString) :
    splitLinesAux cur (s ++ ['\n']) = splitLinesAux cur s ++ [[]] := by
  induction s generalizing cur with
  | nil => simp [splitLinesAux]
  | cons c cs ih =>
    by_cases hc : c = '\n'
    · subst hc
      rw [List.cons_append, splitLinesAux_cons_eq, splitLinesAux_cons_eq, ih]; rfl
    · rw [List.cons_append, splitLinesAux_cons_ne _ _ _ hc, splitLinesAux_cons_ne _ _ _ hc, ih]

theorem adjustLines_snoc_empty (δ : Int) (b : Bool) (ls : List JsString) :
    adjustLines δ b (ls ++ [[]]) = adjustLines δ b ls ++ [[]] := by
  induction ls generalizing b with
  | nil => cases b <;> rfl
  | cons l t ih =>
    rw [List.cons_append, adjustLines, adjustLines]
    split
    · rw [ih]; rfl
    · split
      · rw [ih]; rfl
      · rw [ih]; rfl

theorem joinLines_snoc_empty (ls : List JsString) (h : ls ≠ []) :
    joinLines (ls ++ [[]]) = joinLines ls ++ ['\n'] := by
  induction ls with
  | nil => exact absurd rfl h
  | cons l t ih =>
    cases t with
    | nil => simp [joinLines]
    | cons a t =>
      rw [show (l :: a :: t) ++ [[]] = l :: ((a :: t) ++ [[]]) from rfl,
        joinLines_cons _ _ (List.append_ne_nil_of_left_ne_nil (List.cons_ne_nil a t) _),
        ih (List.cons_ne_nil a t), joinLines_cons _ _ (List.cons_ne_nil a t)]
      simp

theorem adjustHeadingLevels_endsWithNewline (c : JsString) (δ : Int)
    (h : c.getLast? = some '\n') : (adjustHeadingLevels c δ).getLast? = some '\n' := by
  obtain ⟨c0, rfl⟩ := List.getLast?_eq_some_iff.1 h
  unfold adjustHeadingLevels splitLines
  rw [splitLinesAux_snoc_newline, adjustLines_snoc_empty, joinLines_snoc_empty]
  · exact List.getLast?_concat _
  · intro e
    have := congrArg List.length e
    rw [adjustLines_length] at this
    exact splitLinesAux_ne_nil _ _ (List.length_eq_zero.1 this)

theorem getLast?_append_newline_cons (a b : JsString) (h : b = [] ∨ b.getLast? = some '\n') :
    (a ++ '\n' :: b).getLast? = some '\n' := by
  rcases h with rfl | h
  · exact List.getLast?_concat _
  · obtain ⟨b0, rfl⟩ := List.getLast?_eq_some_iff.1 h
    have : a ++ '\n' :: (b0 ++ ['\n']) = (a ++ '\n' :: b0) ++ ['\n'] := by simp
    rw [this]; exact List.getLast?_concat _

theorem getLast?_append_of_or (a b : JsString) (ha : a.getLast? = some '\n')
    (hb : b = [] ∨ b.getLast? = some '\n') : (a ++ b).getLast? = some '\n' := by
  rcases hb with rfl | hb
  · simpa using ha
  · rw [List.getLast?_append, hb]; rfl

theorem tocStep_endsWithNewline (sectionFiles : List SectionFile) (cur : Option JsString)
    (h : Heading) :
    (tocStep toLowerCase sectionFiles cur h).1 = [] ∨ (tocStep toLowerCase sectionFiles cur h).1.getLast? = some '\n' := by
  unfold tocStep
  split
  · left; rfl
  · split
    · split
      · right; exact List.getLast?_concat _
      · right; exact List.getLast?_concat _
    · split
      · split
        · right; exact List.getLast?_concat _
        · left; rfl
      · left; rfl

theorem tocEntries_endsWithNewline (sectionFiles : List SectionFile) (cur : Option JsString)
    (hs : List Heading) :
    tocEntries toLowerCase sectionFiles cur hs = [] ∨
      (tocEntries toLowerCase sectionFiles cur hs).getLast? = some '\n' := by
  induction hs generalizing cur with
  | nil => left; rfl
  | cons h t ih =>
    rw [tocEntries]
    rcases tocStep_endsWithNewline sectionFiles cur h with e | e
    · rw [e]; exact ih _
    · right; exact getLast?_append_of_or _ _ e (ih _)

theorem tocHeader_endsWithNewline (title : JsString) :
    (tocHeader title).getLast? = some '\n' := by
  unfold tocHeader
  exact List.getLast?_concat _

theorem flatten_endsWithNewline (ps : List JsString) (h : ∀ p ∈ ps, p.getLast? = some '\n') :
    ps.flatten = [] ∨ ps.flatten.getLast? = some '\n' := by
  induction ps with
  | nil => left; rfl
  | cons p t ih =>
    right
    rw [List.flatten_cons]
    rcases ih (fun x hx => h x (by simp [hx])) with e | e
    · rw [e]; simpa using h p (by simp)
    · rw [List.getLast?_append, e]; rfl

/-- Every index ends with a newline. -/
theorem generateIndexContent_endsWithNewline (P : MarkdownTreeParser) (tree : P.Tree)
    (sectionFiles : List SectionFile) :
    (generateIndexContentWithSubsections toLowerCase P tree sectionFiles).getLast? = some '\n' := by
  unfold generateIndexContentWithSubsections
  simp only
  split
  · unfold generateIndexContentTextBased
    simp only
    apply getLast?_append_of_or _ _ (tocHeader_endsWithNewline _)
    apply flatten_endsWithNewline
    intro p hp
    obtain ⟨f, _, rfl⟩ := List.mem_map.1 hp
    exact List.getLast?_concat _
  · exact getLast?_append_of_or _ _ (tocHeader_endsWithNewline _) (tocEntries_endsWithNewline _ _ _)

/-! ## The sections give the lines back -/

theorem sourceLines_close (c : Section) (e : Option Int) :
    sourceLines { c with endLine := e } = sourceLines c := rfl

theorem sourceLines_push (c : Section) (line : JsString) :
    sourceLines { c with lines := c.lines ++ [line] } = sourceLines c ++ [line] := by
  simp [sourceLines]

theorem scanState_sourceLines_push (st : ScanState) (line : JsString) (b : Bool)
    (h : st.currentSection ≠ none) :
    ScanState.sourceLines (ScanState.mk st.sections (pushLine line st.currentSection) b) =
      st.sourceLines ++ [line] ∧ pushLine line st.currentSection ≠ none := by
  cases hc : st.currentSection with
  | none => exact absurd hc h
  | some c =>
    simp only [ScanState.sourceLines, pushLine, hc]
    rw [sourceLines_push]
    simp

theorem scanStep_sourceLines (i : Nat) (st : ScanState) (line : JsString)
    (hcur : st.currentSection ≠ none ∨
      (isFenceDelimiter line = false ∧ st.inCodeBlock = false ∧
        startsWith ['#', '#', ' '] line = true))
    (hno : isFenceDelimiter line = false → st.inCodeBlock = false →
      startsWith ['#', ' '] line = false) :
    (scanStep i st line).sourceLines = st.sourceLines ++ [line] ∧
    (scanStep i st line).currentSection ≠ none := by
  unfold scanStep
  by_cases hf : isFenceDelimiter line = true
  · rw [if_pos hf]
    rcases hcur with h | h
    · exact scanState_sourceLines_push st line _ h
    · rw [h.1] at hf; exact absurd hf (by simp)
  · rw [if_neg hf]
    have hf' : isFenceDelimiter line = false := by simpa using hf
    by_cases hb : st.inCodeBlock = true
    · rw [if_pos hb]
      rcases hcur with h | h
      · exact scanState_sourceLines_push st line _ h
      · rw [h.2.1] at hb; exact absurd hb (by simp)
    · rw [if_neg hb]
      have hb' : st.inCodeBlock = false := by simpa using hb
      rw [if_neg (by rw [hno hf' hb']; simp)]
      by_cases h2 : startsWith ['#', '#', ' '] line = true
      · rw [if_pos h2]
        have hl : line = ['#', '#', ' '] ++ line.drop 3 := by
          have : ['#', '#', ' '] <+: line := by simpa [startsWith] using h2
          obtain ⟨t, rfl⟩ := this
          simp
        refine ⟨?_, by simp⟩
        cases hc : st.currentSection with
        | none =>
          simp only [ScanState.sourceLines, closeSection, hc, sourceLines]
          rw [← hl, List.append_nil]
        | some c =>
          simp only [ScanState.sourceLines, closeSection, hc, sourceLines, List.map_append,
            List.flatten_append, List.map_cons, List.map_nil, List.flatten_cons,
            List.flatten_nil, List.append_nil]
          rw [← hl]
      · rw [if_neg h2]
        rcases hcur with h | h
        · exact scanState_sourceLines_push st line _ h
        · exact absurd h.2.2 h2

theorem scanLoop_sourceLines (ls : List JsString) (i : Nat) (st : ScanState)
    (hcur : st.currentSection ≠ none) (hno : noTitleLine st.inCodeBlock ls = true) :
    (scanLoop i st ls).sourceLines = st.sourceLines ++ ls := by
  induction ls generalizing i st with
  | nil => simp [scanLoop]
  | cons l t ih =>
    rw [scanLoop]
    have hstep := scanStep_sourceLines i st l (Or.inl hcur) (by
      intro hf hb
      rw [noTitleLine, if_neg (by rw [hf]; simp), if_neg (by rw [hb]; simp)] at hno
      simp only [Bool.and_eq_true, Bool.not_eq_true'] at hno
      exact hno.1)
    have hcode : noTitleLine (scanStep i st l).inCodeBlock t = true := by
      unfold scanStep
      rw [noTitleLine] at hno
      by_cases hf : isFenceDelimiter l = true
      · rw [if_pos hf] at hno ⊢; exact hno
      · rw [if_neg hf] at hno ⊢
        by_cases hb : st.inCodeBlock = true
        · rw [if_pos hb] at hno ⊢; exact hno
        · rw [if_neg hb] at hno ⊢
          simp only [Bool.and_eq_true] at hno
          split
          · exact hno.2
          · split
            · exact hno.2
            · exact hno.2
    rw [ih _ _ hstep.2 hcode, hstep.1]
    simp

/-- The sections of a document made of a title line, an empty line and, with
no further title line, sections of which the first starts right away, give
back the lines after the empty line. -/
theorem collectSections_sourceLines (T first : JsString) (rest : List JsString)
    (hfirst : startsWith ['#', '#', ' '] first = true)
    (hno : noTitleLine false rest = true) :
    ((collectSections ((['#', ' '] ++ T) :: [] :: first :: rest)).map sourceLines).flatten =
      first :: rest := by
  unfold collectSections
  simp only
  have h0 : scanStep 0 initialScanState (['#', ' '] ++ T) = initialScanState := by
    unfold scanStep
    rw [if_neg (by rw [isFenceDelimiter_of_startsWith_h1 _ (by simp [startsWith])]; simp)]
    simp [initialScanState, startsWith, closeSection]
  have h1 : scanStep 1 initialScanState [] = initialScanState := by decide
  have hf : isFenceDelimiter first = false := isFenceDelimiter_of_startsWith_h2 _ hfirst
  have hh1 : startsWith ['#', ' '] first = false := by
    by_contra hc
    rw [not_h2_of_h1 _ (by simpa using hc)] at hfirst
    exact absurd hfirst (by simp)
  have h2 := scanStep_sourceLines 2 initialScanState first
    (Or.inr ⟨hf, rfl, hfirst⟩) (fun _ _ => hh1)
  have hcode : (scanStep 2 initialScanState first).inCodeBlock = false := by
    unfold scanStep
    rw [if_neg (by rw [hf]; simp)]
    simp [initialScanState, hh1, hfirst]
  rw [scanLoop, h0, scanLoop, h1, scanLoop]
  have h3 := scanLoop_sourceLines rest 3 _ h2.2 (by rw [hcode]; exact hno)
  rw [h2.1] at h3
  generalize scanLoop 3 (scanStep 2 initialScanState first) rest = st at h3
  simp only [ScanState.sourceLines, initialScanState, List.map_nil, List.flatten_nil,
    List.nil_append] at h3
  have h3 : ((List.map sourceLines st.sections).flatten ++
      match st.currentSection with
      | some c => sourceLines c
      | none => []) = first :: rest := by simpa using h3
  rw [← h3]
  cases hc : st.currentSection with
  | none => simp [closeSection, ScanState.sourceLines, hc]
  | some c =>
    simp [closeSection, ScanState.sourceLines, hc, sourceLines]

/-! ## A section file, raised again -/

theorem matchHeading_none_of_fence (lo hi : Nat) (l : JsString) (hlo : 1 ≤ lo)
    (hf : isFenceDelimiter l = true) : matchHeading lo hi l = none := by
  cases hm : matchHeading lo hi l with
  | none => rfl
  | some p =>
    obtain ⟨hs, rest⟩ := p
    obtain ⟨L, w, r, rfl, rfl, rfl, hw, h1, h2, hlt⟩ := matchHeading_eq_some _ _ _ _ _ hm
    rw [isFenceDelimiter_hashes_append _ _ (by omega)] at hf
    exact absurd hf (by simp)

theorem decrementLine_of_none (l : JsString) (h : matchHeading 2 6 l = none) :
    decrementLine l = l := by
  unfold decrementLine; rw [h]

theorem decrementLine_of_heading (L : Nat) (w : Char) (r : JsString) (h2 : 2 ≤ L) (h6 : L ≤ 6)
    (hw : isJsWhitespace w = true)
    (hlt : ((w :: r).dropWhile isJsWhitespace).all (fun c => !isLineTerminator c) = true) :
    decrementLine (hashes L ++ w :: r) = hashes (L - 1) ++ w :: r := by
  unfold decrementLine
  rw [matchHeading_hashes _ _ _ _ _ hw, if_pos ⟨h2, h6, hlt⟩]
  obtain ⟨m, rfl⟩ : ∃ m, L = m + 1 := ⟨L - 1, by omega⟩
  simp [hashes, List.replicate_succ]

theorem adjustLine_decrementLine (l : JsString) (h1 : matchHeading 1 1 l = none) :
    adjustLine 1 (decrementLine l) = l ∧
      isFenceDelimiter (decrementLine l) = isFenceDelimiter l := by
  cases hm : matchHeading 2 6 l with
  | none =>
    rw [decrementLine_of_none l hm]
    refine ⟨?_, rfl⟩
    apply adjustLine_of_not_match
    cases hm5 : matchHeading 1 5 l with
    | none => rfl
    | some p =>
      obtain ⟨hs, rest⟩ := p
      obtain ⟨L, w, r, rfl, rfl, rfl, hw, hlo, hhi, hlt⟩ := matchHeading_eq_some _ _ _ _ _ hm5
      by_cases hL : L = 1
      · rw [matchHeading_hashes _ _ _ _ _ hw, if_pos ⟨by omega, by omega, hlt⟩] at h1
        simp at h1
      · rw [matchHeading_hashes _ _ _ _ _ hw, if_pos ⟨by omega, by omega, hlt⟩] at hm
        simp at hm
  | some p =>
    obtain ⟨hs, rest⟩ := p
    obtain ⟨L, w, r, rfl, rfl, rfl, hw, hlo, hhi, hlt⟩ := matchHeading_eq_some _ _ _ _ _ hm
    rw [decrementLine_of_heading L w r hlo hhi hw hlt,
      adjustLine_of_heading 1 (L - 1) w r hw hlt ⟨by omega, by omega⟩ ⟨by omega, by omega⟩,
      isFenceDelimiter_hashes_append _ _ (by omega), isFenceDelimiter_hashes_append _ _ (by omega)]
    refine ⟨?_, rfl⟩
    congr 2
    omega

theorem adjustLines_decrementLines (b : Bool) (ls : List JsString) (h : bodyOk b ls = true) :
    adjustLines 1 b (ls.map decrementLine) = ls := by
  induction ls generalizing b with
  | nil => rfl
  | cons l t ih =>
    rw [bodyOk] at h
    rw [List.map_cons, adjustLines]
    by_cases hf : isFenceDelimiter l = true
    · rw [if_pos hf] at h
      rw [decrementLine_of_none l (matchHeading_none_of_fence _ _ _ (by omega) hf), if_pos hf,
        ih _ h]
    · rw [if_neg hf] at h
      by_cases hb : b = true
      · rw [if_pos hb] at h
        simp only [Bool.and_eq_true, Option.isNone_iff_eq_none] at h
        rw [decrementLine_of_none l h.1, if_neg hf, if_pos hb, ih _ h.2]
      · rw [if_neg hb] at h
        simp only [Bool.and_eq_true, Option.isNone_iff_eq_none] at h
        obtain ⟨e1, e2⟩ := adjustLine_decrementLine l h.1
        rw [if_neg (by rw [e2]; exact hf), if_neg hb, e1, ih _ h.2]

theorem decrementLine_noNewline (l : JsString) (h : '\n' ∉ l) : '\n' ∉ decrementLine l := by
  cases hm : matchHeading 2 6 l with
  | none => rw [decrementLine_of_none l hm]; exact h
  | some p =>
    obtain ⟨hs, rest⟩ := p
    obtain ⟨L, w, r, rfl, rfl, rfl, hw, hlo, hhi, hlt⟩ := matchHeading_eq_some _ _ _ _ _ hm
    rw [decrementLine_of_heading L w r hlo hhi hw hlt]
    intro hm
    rcases mem_hashes_append hm with hc | hc
    · exact absurd hc (by decide)
    · exact h (List.mem_append_right _ hc)

/-- Raising the content written for a section gives its source lines back. -/
theorem adjustHeadingLevels_sectionContent (s : Section)
    (hlt : (s.headingText.dropWhile isJsWhitespace).all (fun c => !isLineTerminator c) = true)
    (hbody : bodyOk false s.lines = true)
    (hnl : ∀ l ∈ sourceLines s, '\n' ∉ l) :
    adjustHeadingLevels (sectionContent s) 1 = joinLines (sourceLines s) := by
  have hh : '\n' ∉ s.headingText := by
    intro hm
    exact hnl (['#', '#', ' '] ++ s.headingText) (List.mem_cons_self _ _)
      (List.mem_append_right _ hm)
  unfold adjustHeadingLevels sectionContent
  rw [splitLines_joinLines _ (by simp)]
  · rw [adjustLines]
    have hfence : isFenceDelimiter ("# ".toList ++ s.headingText) = false :=
      isFenceDelimiter_hash _
    rw [if_neg (by rw [hfence]; simp), if_neg (by simp)]
    have hadj := adjustLine_of_heading 1 1 ' ' s.headingText (by decide)
      (by
        rw [List.dropWhile_cons_of_pos (by decide)]
        exact hlt)
      ⟨le_refl _, by omega⟩ ⟨by omega, by omega⟩
    have e1 : "# ".toList ++ s.headingText = hashes 1 ++ ' ' :: s.headingText := rfl
    rw [e1, hadj, adjustLines_decrementLines _ _ hbody]
    rfl
  · intro l hl
    rcases List.mem_cons.1 hl with rfl | hl
    · intro hm
      rcases List.mem_append.1 hm with hc | hc
      · exact absurd hc (by decide)
      · exact hh hc
    · obtain ⟨l0, hl0, rfl⟩ := List.mem_map.1 hl
      exact decrementLine_noNewline l0 (hnl l0 (by simp [sourceLines, hl0]))

/-! ## Joining lines -/

theorem joinLines_cons_eq (l : JsString) (ls : List JsString) :
    joinLines (l :: ls) = l ++ newlineBefore ls := by
  induction ls generalizing l with
  | nil => simp [joinLines, newlineBefore]
  | cons a t ih =>
    rw [joinLines_cons _ _ (by simp), ih]
    simp [newlineBefore]

theorem newlineBefore_append (a b : List JsString) :
    newlineBefore (a ++ b) = newlineBefore a ++ newlineBefore b := by
  simp [newlineBefore]

theorem newlineBefore_flatten (ls : List (List JsString)) :
    newlineBefore ls.flatten = (ls.map newlineBefore).flatten := by
  induction ls with
  | nil => rfl
  | cons a t ih =>
    rw [List.flatten_cons, newlineBefore_append, ih]
    simp

theorem newlineBefore_sourceLines (s : Section) :
    newlineBefore (sourceLines s) = '\n' :: joinLines (sourceLines s) := by
  unfold sourceLines
  rw [joinLines_cons_eq]
  simp [newlineBefore]

/-! ## The files of the sections -/

theorem readFile_putSections (dir : Dir) (ss : List Section)
    (hnodup : (ss.map sectionFilename).Nodup) :
    ∀ s ∈ ss, readFile (putSections dir ss) (sectionFilename s) = some (sectionContent s) := by
  induction ss generalizing dir with
  | nil => intro s hs; simp at hs
  | cons a t ih =>
    rw [List.map_cons, List.nodup_cons] at hnodup
    intro s hs
    rw [putSections]
    rcases List.mem_cons.1 hs with rfl | hs
    · rw [readFile_putSections_other _ _ _ (fun x hx e => hnodup.1 (by
        rw [← e]; exact List.mem_map_of_mem _ hx)), readFile_putFile_same]
    · exact ih _ hnodup.2 s hs

/-! ## The characters of a slug -/

theorem mem_replaceRuns (p : Char → Bool) (b : Bool) (s : JsString) (c : Char)
    (h : c ∈ replaceRuns p b s) : c = '-' ∨ (c ∈ s ∧ p c = false) := by
  induction s generalizing b with
  | nil => simp [replaceRuns] at h
  | cons x t ih =>
    rw [replaceRuns] at h
    by_cases hp : p x = true
    · rw [if_pos hp] at h
      by_cases hb : b = true
      · rw [if_pos hb] at h
        rcases ih _ h with e | ⟨e1, e2⟩
        · exact Or.inl e
        · exact Or.inr ⟨List.mem_cons_of_mem _ e1, e2⟩
      · rw [if_neg hb] at h
        rcases List.mem_cons.1 h with e | h
        · exact Or.inl e
        · rcases ih _ h with e | ⟨e1, e2⟩
          · exact Or.inl e
          · exact Or.inr ⟨List.mem_cons_of_mem _ e1, e2⟩
    · rw [if_neg hp] at h
      rcases List.mem_cons.1 h with e | h
      · right; rw [e]; exact ⟨List.mem_cons_self _ _, by simpa using hp⟩
      · rcases ih _ h with e | ⟨e1, e2⟩
        · exact Or.inl e
        · exact Or.inr ⟨List.mem_cons_of_mem _ e1, e2⟩

theorem mem_stripEdgeHyphens (s : JsString) (c : Char) (h : c ∈ stripEdgeHyphens s) : c ∈ s := by
  unfold stripEdgeHyphens stripTrailingHyphen at h
  have h1 : c ∈ stripLeadingHyphen s := by
    split at h
    · next r hr =>
      have : c ∈ (stripLeadingHyphen s).reverse := by
        rw [hr]; exact List.mem_cons_of_mem _ (List.mem_reverse.1 h)
      exact List.mem_reverse.1 this
    · exact h
  unfold stripLeadingHyphen at h1
  split at h1
  · exact List.mem_cons_of_mem _ h1
  · exact h1

/-- The characters of a slug: slug characters, none of them whitespace. -/
theorem mem_sanitizeText (x : JsString) (c : Char) (h : c ∈ sanitizeText x) :
    isSlugChar c = true ∧ isJsWhitespace c = false := by
  unfold sanitizeText at h
  have h1 := mem_stripEdgeHyphens _ _ h
  rcases mem_replaceRuns _ _ _ _ h1 with e | ⟨h2, _⟩
  · rw [e]; decide
  · rcases mem_replaceRuns _ _ _ _ h2 with e | ⟨h3, hw⟩
    · rw [e]; decide
    · exact ⟨(List.mem_filter.1 h3).2, hw⟩

theorem mem_sectionFilename (s : Section) (c : Char) (h : c ∈ sectionFilename s) :
    c ≠ '#' ∧ c ≠ ')' ∧ c ≠ '\n' := by
  unfold sectionFilename sanitizeFilename at h
  rcases List.mem_append.1 h with h | h
  · obtain ⟨h1, h2⟩ := mem_sanitizeText _ _ h
    refine ⟨?_, ?_, ?_⟩
    · rintro rfl; exact absurd h1 (by decide)
    · rintro rfl; exact absurd h1 (by decide)
    · rintro rfl; exact absurd h2 (by decide)
  · have : c = '.' ∨ c = 'm' ∨ c = 'd' := by simpa using h
    rcases this with rfl | rfl | rfl <;> decide

theorem truthy_of_ne_nil (f : JsString) (h : f ≠ []) : truthy (some f) = some f := by
  cases f with
  | nil => exact absurd rfl h
  | cons c cs => rfl

theorem sectionFilename_ne_nil (s : Section) : sectionFilename s ≠ [] := by
  unfold sectionFilename
  intro h
  have := congrArg List.length h
  simp at this

theorem sanitizeText_congr (a b : JsString) (h : toLowerCase a = toLowerCase b) :
    sanitizeText a = sanitizeText b := by
  unfold sanitizeText; rw [h]

/-! ## The lines of the index -/

theorem takeWhile_append_cons_of_all (p : Char → Bool) (a : JsString) (x : Char) (b : JsString)
    (ha : ∀ c ∈ a, p c = true) (hx : p x = false) :
    (a ++ x :: b).takeWhile p = a ∧ (a ++ x :: b).dropWhile p = x :: b := by
  induction a with
  | nil => simp [List.takeWhile, List.dropWhile, hx]
  | cons y t ih =>
    have hy := ha y (List.mem_cons_self _ _)
    have := ih (fun c hc => ha c (List.mem_cons_of_mem _ hc))
    simp only [List.cons_append]
    rw [List.takeWhile_cons_of_pos hy, List.dropWhile_cons_of_pos hy, this.1, this.2]
    exact ⟨rfl, rfl⟩

/-- The link pattern reads the text and the file name of a link to a file. -/
theorem matchTocLinkAt_link (text file rest : JsString) (ht : text ≠ [])
    (ht2 : ']' ∉ text) (hf : file ≠ []) (hf2 : ∀ c ∈ file, c ≠ '#' ∧ c ≠ ')') :
    matchTocLinkAt ('[' :: text ++ ']' :: '(' :: '.' :: '/' :: file ++ ')' :: rest) =
      some (text, file) := by
  have h1 := takeWhile_append_cons_of_all (· != ']') text ']'
    ('(' :: '.' :: '/' :: file ++ ')' :: rest)
    (fun c hc => by
      have : c ≠ ']' := fun e => ht2 (e ▸ hc)
      simpa using this) (by simp)
  have h2 := takeWhile_append_cons_of_all (fun x => x != '#' && x != ')') file ')' rest
    (fun c hc => by
      have := hf2 c hc
      simp [this.1, this.2]) (by simp)
  have hlen1 : text.length ≠ 0 := fun e => ht (List.length_eq_zero.1 e)
  have hlen2 : file.length ≠ 0 := fun e => hf (List.length_eq_zero.1 e)
  have e0 : ('[' :: text ++ ']' :: '(' :: '.' :: '/' :: file ++ ')' :: rest) =
      '[' :: (text ++ ']' :: ('(' :: '.' :: '/' :: file ++ ')' :: rest)) := by simp
  rw [e0]
  unfold matchTocLinkAt
  simp only [if_true, h1.1, h1.2, hlen1, if_false]
  have e1 : startsWith "](./".toList (']' :: ('(' :: '.' :: '/' :: file ++ ')' :: rest)) = true := by
    simp [startsWith, List.isPrefixOf]
  rw [if_pos e1]
  have e2 : List.drop 4 (']' :: ('(' :: '.' :: '/' :: file ++ ')' :: rest)) = file ++ ')' :: rest := by
    simp
  simp only [e2, h2.1, h2.2, hlen2, if_false, if_true]

theorem matchTocLink_level2 (text file : JsString) (ht : text ≠ [])
    (ht2 : ']' ∉ text) (hf : file ≠ []) (hf2 : ∀ c ∈ file, c ≠ '#' ∧ c ≠ ')') :
    matchTocLink ("  - ".toList ++ mdLink text ("./".toList ++ file)) = some (text, file) ∧
    isLevel2TocItem ("  - ".toList ++ mdLink text ("./".toList ++ file)) = true := by
  have e : "  - ".toList ++ mdLink text ("./".toList ++ file) =
      ' ' :: ' ' :: '-' :: ' ' ::
        ('[' :: text ++ ']' :: '(' :: '.' :: '/' :: file ++ ')' :: []) := by
    simp [mdLink]
  rw [e]
  constructor
  · have hat := matchTocLinkAt_link text file [] ht ht2 hf hf2
    rw [matchTocLink, matchTocLinkAt, if_neg (by decide)]
    simp only
    rw [matchTocLink, matchTocLinkAt, if_neg (by decide)]
    simp only
    rw [matchTocLink, matchTocLinkAt, if_neg (by decide)]
    simp only
    rw [matchTocLink, matchTocLinkAt, if_neg (by decide)]
    simp only
    have e3 : '[' :: text ++ ']' :: '(' :: '.' :: '/' :: file ++ [')'] =
        '[' :: (text ++ ']' :: '(' :: '.' :: '/' :: file ++ [')']) := by simp
    rw [e3] at hat ⊢
    rw [matchTocLink, hat]
  · simp [isLevel2TocItem, startsWith, List.isPrefixOf]

theorem extractLoop_skip (acc : List TocEntry) (seen : List JsString) (line : JsString)
    (ls : List JsString) (h : isLevel2TocItem line = false) :
    extractLoop acc seen (line :: ls) = extractLoop acc seen ls := by
  rw [extractLoop]
  split
  · rw [h]; simp
  · rfl

theorem splitLines_line (l rest : JsString) (h : '\n' ∉ l) :
    splitLines (l ++ '\n' :: rest) = l :: splitLines rest := by
  unfold splitLines
  rw [splitLinesAux_line _ _ _ h]; rfl

theorem isLevel2TocItem_deep (n : Nat) (rest : JsString) :
    isLevel2TocItem ((List.replicate (n + 2) "  ".toList).flatten ++ rest) = false := by
  simp [isLevel2TocItem, startsWith, List.replicate_succ, List.isPrefixOf]

theorem sectionMapGet_section (ss : List Section) (s : Section) (hs : s ∈ ss) :
    sectionMapGet toLowerCase
      (ss.map (fun s => { filename := sectionFilename s, headingText := s.headingText : SectionFile }))
      (toLowerCase s.headingText) = some (sectionFilename s) := by
  unfold sectionMapGet
  cases hfind : List.find? (fun f => toLowerCase f.headingText == toLowerCase s.headingText)
      (ss.map (fun s =>
        { filename := sectionFilename s, headingText := s.headingText : SectionFile })).reverse with
  | none =>
    rw [List.find?_eq_none] at hfind
    have := hfind ⟨sectionFilename s, s.headingText⟩
      (List.mem_reverse.2 (List.mem_map_of_mem _ hs))
    simp at this
  | some f =>
    have hp := List.find?_some hfind
    have hm := List.mem_reverse.1 (List.mem_of_find?_eq_some hfind)
    obtain ⟨t, _, rfl⟩ := List.mem_map.1 hm
    simp only [Option.map_some', Option.some.injEq]
    unfold sectionFilename sanitizeFilename
    rw [sanitizeText_congr _ _ (by simpa using hp)]

theorem headingOk_iff (h : JsString) (hok : headingOk h = true) :
    h ≠ [] ∧ ']' ∉ h ∧
      (h.dropWhile isJsWhitespace).all (fun c => !isLineTerminator c) = true := by
  unfold headingOk at hok
  simp only [Bool.and_eq_true, bne_iff_ne, ne_eq, Bool.not_eq_true'] at hok
  refine ⟨fun e => hok.1.1 (by rw [e]; rfl), ?_, hok.2⟩
  intro hm
  have : h.contains ']' = true := by simpa using hm
  rw [this] at hok
  exact absurd hok.1.2 (by simp)

theorem mem_mdLink (text target : JsString) (c : Char) (h : c ∈ mdLink text target) :
    c ∈ text ∨ c ∈ target ∨ c = '[' ∨ c = ']' ∨ c = '(' ∨ c = ')' := by
  unfold mdLink at h
  simp only [List.mem_cons, List.mem_append, List.mem_singleton, List.not_mem_nil, or_false] at h
  tauto

/-- The section references read from the entries of the index. -/
theorem extractLoop_tocEntries (sf : List SectionFile) (hs : List Heading) (ss : List Section)
    (cur : Option JsString) (acc : List TocEntry) (seen : List JsString)
    (hmatch : (hs.filter (fun h => h.level == 2)).map (·.text) = ss.map (·.headingText))
    (hlookup : ∀ s ∈ ss, sectionMapGet toLowerCase sf (toLowerCase s.headingText) = some (sectionFilename s))
    (hok : ∀ s ∈ ss, headingOk s.headingText = true)
    (hnodup : (ss.map sectionFilename).Nodup)
    (hseen : ∀ s ∈ ss, sectionFilename s ∉ seen)
    (hnl : ∀ h ∈ hs, '\n' ∉ h.text)
    (hcur : ∀ f, cur = some f → '\n' ∉ f) :
    extractLoop acc seen (splitLines (tocEntries toLowerCase sf cur hs)) = acc ++ ss.map tocEntryOf := by
  induction hs generalizing ss cur acc seen with
  | nil =>
    have : ss = [] := by simpa using hmatch.symm
    subst this
    simp [tocEntries, splitLines, splitLinesAux, extractLoop, matchTocLink]
  | cons h t ih =>
    have hnlt : ∀ x ∈ t, '\n' ∉ x.text := fun x hx => hnl x (List.mem_cons_of_mem _ hx)
    have hnlh : '\n' ∉ h.text := hnl h (List.mem_cons_self _ _)
    rw [tocEntries]
    unfold tocStep
    by_cases h1 : h.level = 1
    · rw [if_pos h1]
      rw [List.filter_cons_of_neg (by simp [h1])] at hmatch
      simpa using ih ss cur acc seen hmatch hlookup hok hnodup hseen hnlt hcur
    · rw [if_neg h1]
      by_cases h2 : h.level = 2
      · rw [if_pos h2]
        rw [List.filter_cons_of_pos (by simp [h2])] at hmatch
        cases ss with
        | nil => simp at hmatch
        | cons s ss' =>
          simp only [List.map_cons, List.cons.injEq] at hmatch
          obtain ⟨htext, hrest⟩ := hmatch
          have hl := hlookup s (List.mem_cons_self _ _)
          rw [htext, hl, truthy_of_ne_nil _ (sectionFilename_ne_nil s)]
          simp only
          obtain ⟨hne, hbr, _⟩ := headingOk_iff _ (hok s (List.mem_cons_self _ _))
          have hfile : ∀ c ∈ sectionFilename s, c ≠ '#' ∧ c ≠ ')' := fun c hc =>
            ⟨(mem_sectionFilename s c hc).1, (mem_sectionFilename s c hc).2.1⟩
          obtain ⟨hm1, hm2⟩ := matchTocLink_level2 s.headingText (sectionFilename s) hne hbr
            (sectionFilename_ne_nil s) hfile
          have hline : '\n' ∉ "  - ".toList ++ mdLink s.headingText ("./".toList ++ sectionFilename s) := by
            intro hm
            rcases List.mem_append.1 hm with hm | hm
            · exact absurd hm (by decide)
            · rcases mem_mdLink _ _ _ hm with e | e | e | e | e | e
              · exact hnlh (htext ▸ e)
              · rcases List.mem_append.1 e with e | e
                · exact absurd e (by decide)
                · exact (mem_sectionFilename s _ e).2.2 rfl
              all_goals exact absurd e (by decide)
          have e0 : ("  - ".toList ++ mdLink s.headingText ("./".toList ++ sectionFilename s) ++ ['\n']) ++
              tocEntries toLowerCase sf (some (sectionFilename s)) t =
              ("  - ".toList ++ mdLink s.headingText ("./".toList ++ sectionFilename s)) ++
                '\n' :: tocEntries toLowerCase sf (some (sectionFilename s)) t := by simp
          rw [e0, splitLines_line _ _ hline, extractLoop, hm1]
          simp only [hm2, Bool.true_and]
          have hns : seen.contains (sectionFilename s) = false := by
            have := hseen s (List.mem_cons_self _ _)
            simpa using this
          rw [hns]
          simp only [Bool.not_false, if_true]
          rw [List.map_cons, List.nodup_cons] at hnodup
          rw [ih ss' (some (sectionFilename s)) _ _ hrest
            (fun x hx => hlookup x (List.mem_cons_of_mem _ hx))
            (fun x hx => hok x (List.mem_cons_of_mem _ hx)) hnodup.2 ?_ hnlt ?_]
          · simp [tocEntryOf]
          · intro x hx hmem
            rcases List.mem_append.1 hmem with hmem | hmem
            · exact hseen x (List.mem_cons_of_mem _ hx) hmem
            · rw [List.mem_singleton] at hmem
              exact hnodup.1 (hmem ▸ List.mem_map_of_mem _ hx)
          · intro f hf
            rw [← Option.some.inj hf]
            exact fun hm => (mem_sectionFilename s _ hm).2.2 rfl
      · rw [if_neg h2]
        rw [List.filter_cons_of_neg (by simp [h2])] at hmatch
        by_cases h3 : h.level > 2
        · rw [if_pos h3]
          cases hc : cur with
          | none =>
            simp only
            have := ih ss none acc seen hmatch hlookup hok hnodup hseen hnlt (by simp)
            simpa using this
          | some f =>
            simp only
            obtain ⟨n, hn⟩ : ∃ n, h.level - 1 = n + 2 := ⟨h.level - 3, by omega⟩
            rw [hn]
            have hfnl : '\n' ∉ f := hcur f hc
            have e0 : ((List.replicate (n + 2) "  ".toList).flatten ++ "- ".toList ++
                mdLink h.text ("./".toList ++ f ++ '#' :: createAnchor h.text) ++ ['\n']) ++
                tocEntries toLowerCase sf (some f) t =
                ((List.replicate (n + 2) "  ".toList).flatten ++ ("- ".toList ++
                mdLink h.text ("./".toList ++ f ++ '#' :: createAnchor h.text))) ++
                '\n' :: tocEntries toLowerCase sf (some f) t := by simp
            have hline : '\n' ∉ (List.replicate (n + 2) "  ".toList).flatten ++ ("- ".toList ++
                mdLink h.text ("./".toList ++ f ++ '#' :: createAnchor h.text)) := by
              intro hm
              rcases List.mem_append.1 hm with hm | hm
              · rw [List.mem_flatten] at hm
                obtain ⟨l, hl, hcl⟩ := hm
                rw [(List.mem_replicate.1 hl).2] at hcl
                exact absurd hcl (by decide)
              · rcases List.mem_append.1 hm with hm | hm
                · exact absurd hm (by decide)
                · rcases mem_mdLink _ _ _ hm with e | e | e | e | e | e
                  · exact hnlh e
                  · rcases List.mem_append.1 e with e | e
                    · rcases List.mem_append.1 e with e | e
                      · exact absurd e (by decide)
                      · exact hfnl e
                    · rcases List.mem_cons.1 e with e | e
                      · exact absurd e (by decide)
                      · exact absurd (mem_sanitizeText _ _ e).2 (by decide)
                  all_goals exact absurd e (by decide)
            rw [e0, splitLines_line _ _ hline, extractLoop_skip _ _ _ _ (isLevel2TocItem_deep n _)]
            exact ih ss (some f) acc seen hmatch hlookup hok hnodup hseen hnlt
              (fun g hg => by rw [← Option.some.inj hg]; exact hfnl)
        · rw [if_neg h3]
          simpa using ih ss cur acc seen hmatch hlookup hok hnodup hseen hnlt hcur

/-- The head of the index holds no section reference. -/
theorem extractLoop_tocHeader (T rest : JsString) (hT : '\n' ∉ T) :
    extractLoop [] [] (splitLines (tocHeader T ++ rest)) = extractLoop [] [] (splitLines rest) := by
  have e : tocHeader T ++ rest =
      ("# ".toList ++ T) ++ '\n' :: ([] ++ '\n' :: ("## Table of Contents".toList ++ '\n' ::
        ([] ++ '\n' :: (("- ".toList ++ mdLink T "#table-of-contents".toList) ++ '\n' :: rest)))) := by
    simp [tocHeader, mdLink]
  have h1 : '\n' ∉ "# ".toList ++ T := by
    intro hm
    rcases List.mem_append.1 hm with hm | hm
    · exact absurd hm (by decide)
    · exact hT hm
  have h5 : '\n' ∉ "- ".toList ++ mdLink T "#table-of-contents".toList := by
    intro hm
    rcases List.mem_append.1 hm with hm | hm
    · exact absurd hm (by decide)
    · rcases mem_mdLink _ _ _ hm with e | e | e | e | e | e
      · exact hT e
      all_goals exact absurd e (by decide)
  rw [e, splitLines_line _ _ h1, extractLoop_skip _ _ _ _ (by simp [isLevel2TocItem, startsWith, List.isPrefixOf]),
    splitLines_line _ _ (by simp), extractLoop_skip _ _ _ _ (by decide),
    splitLines_line _ _ (by decide), extractLoop_skip _ _ _ _ (by decide),
    splitLines_line _ _ (by simp), extractLoop_skip _ _ _ _ (by decide),
    splitLines_line _ _ h5, extractLoop_skip _ _ _ _ (by simp [isLevel2TocItem, startsWith, List.isPrefixOf])]

theorem assembleLoop_sections (dir : Dir) (ss : List Section) (acc : JsString)
    (hread : ∀ s ∈ ss, readFile dir (sectionFilename s) = some (sectionContent s))
    (hadj : ∀ s ∈ ss, adjustHeadingLevels (sectionContent s) 1 = joinLines (sourceLines s)) :
    assembleLoop dir acc (ss.map tocEntryOf) =
      some (acc ++ newlineBefore (ss.map sourceLines).flatten) := by
  induction ss generalizing acc with
  | nil => simp [assembleLoop, newlineBefore]
  | cons s t ih =>
    rw [List.map_cons, assembleLoop]
    have hr : readFile dir (tocEntryOf s).filename = some (sectionContent s) :=
      hread s (List.mem_cons_self _ _)
    rw [hr]
    simp only
    rw [ih _ (fun x hx => hread x (List.mem_cons_of_mem _ hx))
      (fun x hx => hadj x (List.mem_cons_of_mem _ hx))]
    unfold incrementHeadingLevelsInText
    rw [hadj s (List.mem_cons_self _ _), List.map_cons, List.flatten_cons, newlineBefore_append,
      newlineBefore_sourceLines]
    simp

/-- What `assembleLoop` appends: one piece for every section file, each the
raised content of a file of the directory after a newline. -/
theorem assembleLoop_pieces (dir : Dir) (A : JsString)
    (hdir : ∀ name c, readFile dir name = some c → c = A ∨ c.getLast? = some '\n')
    (fs : List TocEntry) (acc out : JsString)
    (h : assembleLoop dir acc fs = some out) :
    ∃ ps : List JsString, out = acc ++ ps.flatten ∧ ps.length = fs.length ∧
      ∀ p ∈ ps, p = '\n' :: incrementHeadingLevelsInText A ∨ p.getLast? = some '\n' := by
  induction fs generalizing acc with
  | nil =>
    rw [assembleLoop] at h
    exact ⟨[], by simpa using (Option.some.inj h).symm, rfl, by simp⟩
  | cons f rest ih =>
    rw [assembleLoop] at h
    cases hr : readFile dir f.filename with
    | none => rw [hr] at h; simp at h
    | some c =>
      rw [hr] at h
      simp only at h
      obtain ⟨ps, hout, hlen, hps⟩ := ih _ h
      refine ⟨('\n' :: incrementHeadingLevelsInText c) :: ps, by simp [hout], by simp [hlen], ?_⟩
      intro p hp
      rcases List.mem_cons.1 hp with rfl | hp
      · rcases hdir _ _ hr with rfl | hc
        · exact Or.inl rfl
        · right
          have := adjustHeadingLevels_endsWithNewline c 1 hc
          unfold incrementHeadingLevelsInText
          exact getLast?_append_newline_cons [] _ (Or.inr this)
      · exact hps p hp

/-! ## Slugs -/

theorem replaceRuns_fuse (s : JsString) (bi bo : Bool) (h : bi = true → bo = true) :
    replaceRuns (· == '-') bo (replaceRuns isJsWhitespace bi s) = replaceRuns isSeparator bo s := by
  induction s generalizing bi bo with
  | nil => rfl
  | cons c cs ih =>
    by_cases hw : isJsWhitespace c = true
    · have hq : isSeparator c = true := by simp [isSeparator, hw]
      by_cases hbi : bi = true
      · have hbo := h hbi
        subst hbi; subst hbo
        rw [replaceRuns, if_pos hw, if_pos rfl, replaceRuns.eq_def isSeparator]
        simp only [hq, if_true]
        exact ih true true (fun _ => rfl)
      · have hbi' : bi = false := by simpa using hbi
        subst hbi'
        rw [replaceRuns, if_pos hw, if_neg (by simp), replaceRuns, if_pos (by simp),
          replaceRuns.eq_def isSeparator]
        simp only [hq, if_true]
        rw [ih true true (fun _ => rfl)]
    · have hw' : isJsWhitespace c = false := by simpa using hw
      rw [replaceRuns, if_neg hw]
      by_cases hh : c = '-'
      · have hq : isSeparator c = true := by simp [isSeparator, hh]
        rw [replaceRuns, if_pos (by simp [hh]), replaceRuns.eq_def isSeparator]
        simp only [hq, if_true]
        rw [ih false true (by simp)]
      · have hq : isSeparator c = false := by simp [isSeparator, hw', hh]
        rw [replaceRuns, if_neg (by simp [hh]), replaceRuns.eq_def isSeparator]
        simp only [hq, Bool.false_eq_true, if_false]
        rw [ih false false (by simp)]

theorem replaceRuns_cons_pos (p : Char → Bool) (b : Bool) (c : Char) (cs : JsString)
    (h : p c = true) :
    replaceRuns p b (c :: cs) =
      if b then replaceRuns p true cs else '-' :: replaceRuns p true cs := by
  rw [replaceRuns, if_pos h]

theorem replaceRuns_cons_neg (p : Char → Bool) (b : Bool) (c : Char) (cs : JsString)
    (h : p c = false) : replaceRuns p b (c :: cs) = c :: replaceRuns p false cs := by
  rw [replaceRuns, if_neg (by simp [h])]

theorem isSeparator_hyphen : isSeparator '-' = true := by decide

theorem ne_hyphen_of_not_separator (c : Char) (h : isSeparator c = false) : c ≠ '-' := by
  rintro rfl
  exact absurd h (by decide)

theorem stripLeadingHyphen_cons_ne (c : Char) (t : JsString) (h : c ≠ '-') :
    stripLeadingHyphen (c :: t) = c :: t := by
  unfold stripLeadingHyphen
  split
  · next cs heq =>
    exact absurd (List.cons.inj heq).1 h
  · rfl

theorem stripLeadingHyphen_hyphen (t : JsString) : stripLeadingHyphen ('-' :: t) = t := rfl

theorem stripLeadingHyphen_replaceRuns (s : JsString) :
    stripLeadingHyphen (replaceRuns isSeparator false s) = replaceRuns isSeparator true s := by
  cases s with
  | nil => rfl
  | cons c cs =>
    by_cases hq : isSeparator c = true
    · rw [replaceRuns_cons_pos _ _ _ _ hq, replaceRuns_cons_pos _ _ _ _ hq]
      rfl
    · have hq' : isSeparator c = false := by simpa using hq
      rw [replaceRuns_cons_neg _ _ _ _ hq', replaceRuns_cons_neg _ _ _ _ hq',
        stripLeadingHyphen_cons_ne _ _ (ne_hyphen_of_not_separator c hq')]

/-- The slug of a text: the lower-cased slug characters, the runs of
whitespace and hyphens between them replaced by one hyphen each. -/
theorem sanitizeText_eq (x : JsString) :
    sanitizeText x =
      stripTrailingHyphen (replaceRuns isSeparator true ((toLowerCase x).filter isSlugChar)) := by
  unfold sanitizeText stripEdgeHyphens
  rw [replaceRuns_fuse _ false false (by simp), stripLeadingHyphen_replaceRuns]

theorem stripTrailingHyphen_concat (w : JsString) (c : Char) :
    stripTrailingHyphen (w ++ [c]) = if c = '-' then w else w ++ [c] := by
  unfold stripTrailingHyphen
  rw [List.reverse_append, List.reverse_singleton, List.singleton_append]
  split
  · next r heq =>
    obtain ⟨h1, h2⟩ := List.cons.inj heq
    rw [if_pos h1, ← h2, List.reverse_reverse]
  · next hne =>
    rw [if_neg]
    rintro rfl
    exact hne _ rfl

theorem stripTrailingHyphen_nil : stripTrailingHyphen [] = [] := rfl

/-! ### Runs -/

theorem replaceRuns_append (p : Char → Bool) (b : Bool) (a c : JsString) :
    replaceRuns p b (a ++ c) = replaceRuns p b a ++ replaceRuns p (runStateAfter p b a) c := by
  induction a generalizing b with
  | nil => rfl
  | cons x t ih =>
    by_cases hp : p x = true
    · rw [List.cons_append, replaceRuns_cons_pos _ _ _ _ hp, replaceRuns_cons_pos _ _ _ _ hp,
        runStateAfter, hp, ih]
      cases b <;> rfl
    · have hp' : p x = false := by simpa using hp
      rw [List.cons_append, replaceRuns_cons_neg _ _ _ _ hp', replaceRuns_cons_neg _ _ _ _ hp',
        runStateAfter, hp', ih]
      rfl

theorem replaceRuns_all (p : Char → Bool) (b : Bool) (v : JsString)
    (h : ∀ c ∈ v, p c = true) :
    replaceRuns p b v = if b = true ∨ v = [] then [] else ['-'] := by
  induction v generalizing b with
  | nil => simp [replaceRuns]
  | cons x t ih =>
    rw [replaceRuns_cons_pos _ _ _ _ (h x (List.mem_cons_self _ _)),
      ih true (fun c hc => h c (List.mem_cons_of_mem _ hc))]
    cases b <;> simp

theorem replaceRuns_true_append_all (p : Char → Bool) (u w : JsString)
    (h : ∀ c ∈ u, p c = true) : replaceRuns p true (u ++ w) = replaceRuns p true w := by
  induction u with
  | nil => rfl
  | cons x t ih =>
    rw [List.cons_append, replaceRuns_cons_pos _ _ _ _ (h x (List.mem_cons_self _ _)), if_pos rfl,
      ih (fun c hc => h c (List.mem_cons_of_mem _ hc))]

theorem replaceRuns_of_state_false (p : Char → Bool) (b : Bool) (z : JsString)
    (h : runStateAfter p b z = false) :
    (z = [] ∧ b = false) ∨ ∃ W c, replaceRuns p b z = W ++ [c] ∧ p c = false := by
  induction z generalizing b with
  | nil => exact Or.inl ⟨rfl, h⟩
  | cons x t ih =>
    right
    rw [runStateAfter] at h
    rcases ih _ h with ⟨rfl, hx⟩ | ⟨W, c, hW, hc⟩
    · exact ⟨[], x, by rw [replaceRuns_cons_neg _ _ _ _ hx]; rfl, hx⟩
    · by_cases hp : p x = true
      · rw [hp] at hW
        rw [replaceRuns_cons_pos _ _ _ _ hp, hW]
        cases b
        · exact ⟨'-' :: W, c, rfl, hc⟩
        · exact ⟨W, c, rfl, hc⟩
      · have hp' : p x = false := by simpa using hp
        rw [hp'] at hW
        rw [replaceRuns_cons_neg _ _ _ _ hp', hW]
        exact ⟨x :: W, c, rfl, hc⟩

/-- Whitespace or hyphens after a text do not change its slug. -/
theorem stripTrailingHyphen_replaceRuns_append (z v : JsString)
    (hv : ∀ c ∈ v, isSeparator c = true) :
    stripTrailingHyphen (replaceRuns isSeparator true (z ++ v)) =
      stripTrailingHyphen (replaceRuns isSeparator true z) := by
  rw [replaceRuns_append, replaceRuns_all _ _ v hv]
  by_cases hst : runStateAfter isSeparator true z = true
  · simp [hst]
  · have hst' : runStateAfter isSeparator true z = false := by simpa using hst
    by_cases hv0 : v = []
    · simp [hv0]
    · rw [if_neg (by simp [hst', hv0])]
      rcases replaceRuns_of_state_false _ _ _ hst' with ⟨_, hb⟩ | ⟨W, c, hW, hc⟩
      · simp at hb
      · rw [hW, stripTrailingHyphen_concat, if_pos rfl, stripTrailingHyphen_concat,
          if_neg (ne_hyphen_of_not_separator c hc)]

theorem toLowerCaseChar_of_whitespace (c : Char) (h : isJsWhitespace c = true) :
    toLowerCaseChar c = [c] := by
  have hA : 'A'.toNat = 65 := rfl
  have hZ : 'Z'.toNat = 90 := rfl
  unfold isJsWhitespace at h
  unfold toLowerCaseChar
  simp only [Bool.or_eq_true, Bool.and_eq_true, beq_iff_eq, decide_eq_true_eq] at h
  rw [hA, hZ]
  rw [if_neg (by omega), if_neg (by omega), if_neg (by omega)]

theorem isSlugChar_of_whitespace (c : Char) (h : isJsWhitespace c = true) :
    isSlugChar c = true := by
  unfold isSlugChar
  simp [h]

theorem toLowerCase_append (a b : JsString) :
    toLowerCase (a ++ b) = toLowerCase a ++ toLowerCase b := by
  simp [toLowerCase]

theorem toLowerCase_of_fixed (s : JsString) (h : ∀ c ∈ s, toLowerCaseChar c = [c]) :
    toLowerCase s = s := by
  induction s with
  | nil => rfl
  | cons c cs ih =>
    have h1 : toLowerCase (c :: cs) = toLowerCaseChar c ++ toLowerCase cs := by
      simp [toLowerCase]
    rw [h1, h c (List.mem_cons_self _ _), ih (fun d hd => h d (List.mem_cons_of_mem _ hd))]
    rfl

theorem slugChars_of_whitespace (u : JsString) (h : ∀ c ∈ u, isJsWhitespace c = true) :
    (toLowerCase u).filter isSlugChar = u := by
  rw [toLowerCase_of_fixed u (fun c hc => toLowerCaseChar_of_whitespace c (h c hc))]
  exact List.filter_eq_self.mpr (fun c hc => isSlugChar_of_whitespace c (h c hc))

theorem isSeparator_of_whitespace (c : Char) (h : isJsWhitespace c = true) :
    isSeparator c = true := by
  simp [isSeparator, h]

/-- Whitespace around a text does not change its slug. -/
theorem sanitizeText_whitespace_around (u x v : JsString)
    (hu : ∀ c ∈ u, isJsWhitespace c = true) (hv : ∀ c ∈ v, isJsWhitespace c = true) :
    sanitizeText (u ++ x ++ v) = sanitizeText x := by
  rw [sanitizeText_eq, sanitizeText_eq, toLowerCase_append, toLowerCase_append,
    List.filter_append, List.filter_append, slugChars_of_whitespace u hu,
    slugChars_of_whitespace v hv, List.append_assoc,
    replaceRuns_true_append_all _ _ _ (fun c hc => isSeparator_of_whitespace c (hu c hc)),
    stripTrailingHyphen_replaceRuns_append _ _
      (fun c hc => isSeparator_of_whitespace c (hv c hc))]

/-! ### The shape of a slug -/

theorem replaceRuns_chain (s : JsString) (b : Bool) :
    List.Chain' notBothHyphens (replaceRuns isSeparator b s) ∧
      (b = true → (replaceRuns isSeparator b s).head? ≠ some '-') := by
  induction s generalizing b with
  | nil => exact ⟨List.chain'_nil, fun _ => by simp [replaceRuns]⟩
  | cons c cs ih =>
    by_cases hq : isSeparator c = true
    · rw [replaceRuns_cons_pos _ _ _ _ hq]
      cases b
      · refine ⟨?_, fun h => absurd h (by simp)⟩
        simp only [Bool.false_eq_true, if_false]
        rw [List.chain'_cons']
        refine ⟨fun y hy hb => ?_, (ih true).1⟩
        apply (ih true).2 rfl
        rw [Option.mem_def] at hy
        rw [hy, hb.2]
      · simp only [if_true]
        exact ⟨(ih true).1, fun _ => (ih true).2 rfl⟩
    · have hq' : isSeparator c = false := by simpa using hq
      have hc := ne_hyphen_of_not_separator c hq'
      rw [replaceRuns_cons_neg _ _ _ _ hq']
      refine ⟨?_, fun _ => by simpa using hc⟩
      rw [List.chain'_cons']
      exact ⟨fun y _ hb => hc hb.1, (ih false).1⟩

theorem stripTrailingHyphen_initial (s : JsString) : stripTrailingHyphen s <+: s := by
  rcases List.eq_nil_or_concat s with rfl | ⟨w, c, rfl⟩
  · exact List.prefix_refl _
  · simp only [List.concat_eq_append]
    rw [stripTrailingHyphen_concat]
    split
    · exact List.prefix_append _ _
    · exact List.prefix_refl _

theorem getLast?_stripTrailingHyphen (s : JsString) (h : List.Chain' notBothHyphens s) :
    (stripTrailingHyphen s).getLast? ≠ some '-' := by
  rcases List.eq_nil_or_concat s with rfl | ⟨w, c, rfl⟩
  · simp [stripTrailingHyphen]
  · simp only [List.concat_eq_append] at h ⊢
    rw [stripTrailingHyphen_concat]
    split
    · next hc =>
      subst hc
      rcases List.eq_nil_or_concat w with rfl | ⟨w2, d, rfl⟩
      · simp
      · simp only [List.concat_eq_append] at h ⊢
        rw [List.getLast?_append, List.getLast?_singleton]
        intro hd
        have hd' : d = '-' := by simpa using hd
        subst hd'
        have h2 : List.Chain' notBothHyphens ['-', '-'] := by
          rw [List.append_assoc] at h
          exact List.Chain'.right_of_append h
        rw [List.chain'_cons] at h2
        exact h2.1 ⟨rfl, rfl⟩
    · next hc =>
      rw [List.getLast?_append, List.getLast?_singleton]
      simpa using hc

theorem head?_of_initial (a b : JsString) (h : a <+: b) (c : Char) (hb : b.head? ≠ some c) :
    a.head? ≠ some c := by
  obtain ⟨t, rfl⟩ := h
  cases a with
  | nil => simp
  | cons x xs => simpa using hb

/-- The slug has no two hyphens in a row and no hyphen at either end. -/
theorem sanitizeText_hyphens (x : JsString) :
    List.Chain' notBothHyphens (sanitizeText x) ∧ (sanitizeText x).head? ≠ some '-' ∧
      (sanitizeText x).getLast? ≠ some '-' := by
  rw [sanitizeText_eq]
  have h := replaceRuns_chain ((toLowerCase x).filter isSlugChar) true
  obtain ⟨t, ht⟩ := stripTrailingHyphen_initial
    (replaceRuns isSeparator true ((toLowerCase x).filter isSlugChar))
  have hc := h.1
  rw [← ht] at hc
  exact ⟨List.Chain'.left_of_append hc,
    head?_of_initial _ _ (stripTrailingHyphen_initial _) _ (h.2 rfl),
    getLast?_stripTrailingHyphen _ h.1⟩

theorem not_infix_of_chain (s : JsString) (h : List.Chain' notBothHyphens s) :
    ¬ (['-', '-'] <:+: s) := by
  rintro ⟨a, b, rfl⟩
  have h2 := List.Chain'.right_of_append (List.Chain'.left_of_append h)
  rw [List.chain'_cons] at h2
  exact h2.1 ⟨rfl, rfl⟩

/-! ### A slug is its own slug -/

theorem replaceRuns_of_none (p : Char → Bool) (b : Bool) (s : JsString)
    (h : ∀ c ∈ s, p c = false) : replaceRuns p b s = s := by
  induction s generalizing b with
  | nil => rfl
  | cons c cs ih =>
    rw [replaceRuns_cons_neg _ _ _ _ (h c (List.mem_cons_self _ _)),
      ih false (fun d hd => h d (List.mem_cons_of_mem _ hd))]

theorem replaceRuns_hyphen_of_chain (s : JsString) (b : Bool)
    (h : List.Chain' notBothHyphens s) (hb : b = true → s.head? ≠ some '-') :
    replaceRuns (· == '-') b s = s := by
  induction s generalizing b with
  | nil => rfl
  | cons c cs ih =>
    rw [List.chain'_cons'] at h
    by_cases hc : c = '-'
    · subst hc
      have hb' : b = false := by
        cases b
        · rfl
        · exact absurd rfl (hb rfl)
      subst hb'
      rw [replaceRuns_cons_pos _ _ _ _ (by simp)]
      simp only [Bool.false_eq_true, if_false]
      rw [ih true h.2 (fun _ hh => h.1 '-' (by rw [Option.mem_def, hh]) ⟨rfl, rfl⟩)]
    · rw [replaceRuns_cons_neg _ _ _ _ (by simp [hc]), ih false h.2 (by simp)]

theorem slugChar_cases (c : Char) (h : isSlugChar c = true) (hw : isJsWhitespace c = false) :
    (0x61 ≤ c.toNat ∧ c.toNat ≤ 0x7A) ∨ (0x30 ≤ c.toNat ∧ c.toNat ≤ 0x39) ∨ c = '-' ∨
      (0x4E00 ≤ c.toNat ∧ c.toNat ≤ 0x9FFF) ∨ (0x3040 ≤ c.toNat ∧ c.toNat ≤ 0x309F) ∨
      (0x30A0 ≤ c.toNat ∧ c.toNat ≤ 0x30FF) ∨ (0xAC00 ≤ c.toNat ∧ c.toNat ≤ 0xD7AF) := by
  unfold isSlugChar at h
  simp only [Bool.or_eq_true, Bool.and_eq_true, beq_iff_eq, decide_eq_true_eq, hw,
    Bool.false_eq_true, or_false] at h
  tauto

theorem toLowerCaseChar_of_slugChar (c : Char) (h : isSlugChar c = true) :
    toLowerCaseChar c = [c] := by
  by_cases hw : isJsWhitespace c = true
  · exact toLowerCaseChar_of_whitespace c hw
  · have hw2 : isJsWhitespace c = false := by simpa using hw
    have hA : 'A'.toNat = 65 := rfl
    have hZ : 'Z'.toNat = 90 := rfl
    have hy : c = '-' → c.toNat = 45 := fun e => by rw [e]; rfl
    have hn : ¬ (65 ≤ c.toNat ∧ c.toNat ≤ 90) ∧ c.toNat ≠ 0x130 ∧ c.toNat ≠ 0x212A := by
      rcases slugChar_cases c h hw2 with h3 | h3 | h3 | h3 | h3 | h3 | h3
      · omega
      · omega
      · have h45 := hy h3
        omega
      · omega
      · omega
      · omega
      · omega
    unfold toLowerCaseChar
    rw [hA, hZ, if_neg hn.1, if_neg hn.2.1, if_neg hn.2.2]

theorem stripLeadingHyphen_of_head (s : JsString) (h : s.head? ≠ some '-') :
    stripLeadingHyphen s = s := by
  cases s with
  | nil => rfl
  | cons c cs => exact stripLeadingHyphen_cons_ne c cs (by simpa using h)

theorem stripTrailingHyphen_of_getLast (s : JsString) (h : s.getLast? ≠ some '-') :
    stripTrailingHyphen s = s := by
  rcases List.eq_nil_or_concat s with rfl | ⟨w, c, rfl⟩
  · rfl
  · simp only [List.concat_eq_append] at h ⊢
    rw [stripTrailingHyphen_concat, if_neg]
    rintro rfl
    simp at h

theorem sanitizeText_of_slug (y : JsString)
    (h1 : ∀ c ∈ y, isSlugChar c = true ∧ isJsWhitespace c = false)
    (h2 : List.Chain' notBothHyphens y) (h3 : y.head? ≠ some '-')
    (h4 : y.getLast? ≠ some '-') : sanitizeText y = y := by
  unfold sanitizeText stripEdgeHyphens
  rw [toLowerCase_of_fixed y (fun c hc => toLowerCaseChar_of_slugChar c (h1 c hc).1),
    List.filter_eq_self.mpr (fun c hc => (h1 c hc).1),
    replaceRuns_of_none _ _ _ (fun c hc => (h1 c hc).2),
    replaceRuns_hyphen_of_chain _ _ h2 (fun _ => h3),
    stripLeadingHyphen_of_head _ h3, stripTrailingHyphen_of_getLast _ h4]

/-! ## The loop of `assembleDocument` -/

theorem assembleLoop_contents (dir : Dir) (fs : List TocEntry) (contents : List JsString)
    (acc : JsString)
    (hread : fs.map (fun f => readFile dir f.filename) = contents.map some) :
    assembleLoop dir acc fs =
      some (acc ++ (contents.map (fun c => '\n' :: adjustHeadingLevels c 1)).flatten) := by
  induction fs generalizing contents acc with
  | nil =>
    have : contents = [] := by simpa using hread.symm
    subst this
    simp [assembleLoop]
  | cons f rest ih =>
    cases contents with
    | nil => simp at hread
    | cons c cs =>
      rw [List.map_cons, List.map_cons, List.cons.injEq] at hread
      rw [assembleLoop, hread.1]
      simp only
      rw [ih cs _ hread.2]
      simp [incrementHeadingLevelsInText]

/-! ## The lines of the index, heading by heading -/

theorem parentFile_snoc (lower : JsString → JsString) (sf : List SectionFile) (before : List Heading) (h : Heading) :
    parentFile lower sf (before ++ [h]) =
      if h.level = 2 then fileOf lower sf h else parentFile lower sf before := by
  unfold parentFile
  rw [List.reverse_append, List.reverse_singleton, List.singleton_append, List.find?_cons]
  by_cases h2 : h.level = 2
  · simp [h2]
  · have hb : (h.level == 2) = false := by simpa using h2
    simp [h2, hb]

theorem replicate_two_spaces (n : Nat) :
    (List.replicate n "  ".toList).flatten = List.replicate (2 * n) ' ' := by
  induction n with
  | zero => rfl
  | succ k ih =>
    rw [List.replicate_succ, List.flatten_cons, ih, Nat.mul_succ, List.replicate_add]
    rw [← List.replicate_add, Nat.add_comm, List.replicate_add]
    rfl

theorem tocStep_spec (lower : JsString → JsString) (sf : List SectionFile)
    (before : List Heading) (h : Heading) :
    tocStep lower sf (parentFile lower sf before) h =
      (newlineAfter (specTocLine lower sf before h).toList,
        parentFile lower sf (before ++ [h])) := by
  rw [parentFile_snoc]
  unfold tocStep specTocLine newlineAfter
  by_cases h1 : h.level = 1
  · simp [h1]
  · by_cases h2 : h.level = 2
    · simp only [h1, h2, if_false, if_true]
      unfold fileOf
      cases truthy (sectionMapGet lower sf (lower h.text)) with
      | none => simp [createAnchor]
      | some f => simp
    · by_cases h3 : h.level > 2
      · have h3' : 2 < h.level := h3
        simp only [h1, h2, h3, h3', if_false, if_true]
        cases parentFile lower sf before with
        | none => simp
        | some f =>
          have := replicate_two_spaces (h.level - 1)
          simp only [String.toList] at this
          simp [createAnchor, this]
      · have h3' : ¬ 2 < h.level := h3
        simp [h1, h2, h3, h3']

theorem tocEntries_spec (lower : JsString → JsString) (sf : List SectionFile)
    (before hs : List Heading) :
    tocEntries lower sf (parentFile lower sf before) hs =
      newlineAfter (specTocLines lower sf before hs) := by
  induction hs generalizing before with
  | nil => rfl
  | cons h t ih =>
    rw [tocEntries, tocStep_spec, specTocLines]
    simp only
    rw [ih]
    simp [newlineAfter]

/-! ## The link pattern -/

theorem startsWith_eq_append (p s : JsString) (h : startsWith p s = true) :
    s = p ++ s.drop p.length := by
  unfold startsWith at h
  obtain ⟨t, rfl⟩ := List.isPrefixOf_iff_prefix.1 h
  simp

theorem dropWhile_head_not (p : Char → Bool) (l : JsString) (d : Char) (r : JsString)
    (h : l.dropWhile p = d :: r) : p d = false := by
  induction l with
  | nil => simp at h
  | cons x t ih =>
    by_cases hx : p x = true
    · rw [List.dropWhile_cons_of_pos hx] at h
      exact ih h
    · rw [List.dropWhile_cons_of_neg hx] at h
      obtain ⟨rfl, _⟩ := List.cons.inj h
      simpa using hx

theorem mem_split_first (c : Char) (l : JsString) (h : c ∈ l) :
    ∃ a b, l = a ++ c :: b ∧ c ∉ a := by
  induction l with
  | nil => simp at h
  | cons x t ih =>
    by_cases hx : x = c
    · exact ⟨[], t, by rw [hx]; rfl, by simp⟩
    · rcases List.mem_cons.1 h with e | ht
      · exact absurd e.symm hx
      · obtain ⟨a, b, e, hn⟩ := ih ht
        refine ⟨x :: a, b, by rw [e]; rfl, ?_⟩
        intro hm
        rcases List.mem_cons.1 hm with e2 | hm2
        · exact hx e2.symm
        · exact hn hm2

theorem matchTocLinkAt_sound (s text file : JsString)
    (h : matchTocLinkAt s = some (text, file)) : LinkAt s text file := by
  unfold matchTocLinkAt at h
  cases s with
  | nil => simp at h
  | cons c t =>
    simp only at h
    split at h
    · next hc =>
      subst hc
      split at h
      · simp at h
      · next hlen =>
        split at h
        · next hsw =>
          split at h
          · simp at h
          · next hlen2 =>
            split at h
            · simp at h
            · next d r2 hdrop =>
              have htext : text = t.takeWhile (· != ']') ∧
                  file = ((t.dropWhile (· != ']')).drop 4).takeWhile
                    (fun x => x != '#' && x != ')') := by
                split at h
                · simp only [Option.some.injEq, Prod.mk.injEq] at h
                  exact ⟨h.1.symm, h.2.symm⟩
                · split at h
                  · simp only [Option.some.injEq, Prod.mk.injEq] at h
                    exact ⟨h.1.symm, h.2.symm⟩
                  · simp at h
              have hd : d = ')' ∨ (d = '#' ∧ ')' ∈ r2) := by
                have hnot := dropWhile_head_not _ _ _ _ hdrop
                split at h
                · next hd => exact Or.inl hd
                · next hd =>
                  right
                  have hd' : d = '#' := by
                    simp only [Bool.and_eq_false_imp, bne_iff_ne, ne_eq, bne_eq_false_iff_eq] at hnot
                    by_contra hne
                    exact hd (hnot hne)
                  split at h
                  · next hc => exact ⟨hd', by simpa using hc⟩
                  · simp at h
              have e1 : t = t.takeWhile (· != ']') ++ t.dropWhile (· != ']') :=
                (List.takeWhile_append_dropWhile _ _).symm
              have e2 := startsWith_eq_append _ _ hsw
              have e3 : (t.dropWhile (· != ']')).drop 4 =
                  ((t.dropWhile (· != ']')).drop 4).takeWhile (fun x => x != '#' && x != ')') ++
                    ((t.dropWhile (· != ']')).drop 4).dropWhile (fun x => x != '#' && x != ')') :=
                (List.takeWhile_append_dropWhile _ _).symm
              rw [hdrop, ← htext.2] at e3
              have e4 : "](./".toList.length = 4 := rfl
              rw [e4, e3] at e2
              rw [e2, ← htext.1] at e1
              refine ⟨?_, ?_, ?_, ?_, ?_, ?_⟩
              · intro e
                rw [htext.1] at e
                exact hlen (by rw [e]; rfl)
              · intro hm
                rw [htext.1] at hm
                have := List.mem_takeWhile_imp hm
                simp at this
              · intro e
                rw [htext.2] at e
                exact hlen2 (by rw [e]; rfl)
              · intro hm
                rw [htext.2] at hm
                have := List.mem_takeWhile_imp hm
                simp at this
              · intro hm
                rw [htext.2] at hm
                have := List.mem_takeWhile_imp hm
                simp at this
              · rcases hd with hd | ⟨hd, hmem⟩
                · exact ⟨r2, Or.inl (by rw [e1, hd]; simp [mdLink])⟩
                · obtain ⟨a, b, hab, hna⟩ := mem_split_first _ _ hmem
                  exact ⟨b, Or.inr ⟨a, hna, by rw [e1, hd, hab]; simp [mdLink]⟩⟩
        · simp at h
    · simp at h

theorem matchTocLinkAt_tail (text file tail : JsString) (d : Char) (ht : text ≠ [])
    (ht2 : ']' ∉ text) (hf : file ≠ []) (hf2 : '#' ∉ file) (hf3 : ')' ∉ file)
    (hd : d = ')' ∨ (d = '#' ∧ ')' ∈ tail)) :
    matchTocLinkAt ('[' :: (text ++ ']' :: ('(' :: '.' :: '/' :: (file ++ d :: tail)))) =
      some (text, file) := by
  have h1 := takeWhile_append_cons_of_all (· != ']') text ']'
    ('(' :: '.' :: '/' :: (file ++ d :: tail))
    (fun c hc => by
      have : c ≠ ']' := fun e => ht2 (e ▸ hc)
      simpa using this) (by simp)
  have h2 := takeWhile_append_cons_of_all (fun x => x != '#' && x != ')') file d tail
    (fun c hc => by
      have a1 : c ≠ '#' := fun e => hf2 (e ▸ hc)
      have a2 : c ≠ ')' := fun e => hf3 (e ▸ hc)
      simp [a1, a2]) (by rcases hd with e | ⟨e, _⟩ <;> simp [e])
  have hlen1 : text.length ≠ 0 := fun e => ht (List.length_eq_zero.1 e)
  have hlen2 : file.length ≠ 0 := fun e => hf (List.length_eq_zero.1 e)
  unfold matchTocLinkAt
  simp only [if_true, h1.1, h1.2, hlen1, if_false]
  have e1 : startsWith "](./".toList (']' :: ('(' :: '.' :: '/' :: (file ++ d :: tail))) = true := by
    simp [startsWith, List.isPrefixOf]
  rw [if_pos e1]
  have e2 : List.drop 4 (']' :: ('(' :: '.' :: '/' :: (file ++ d :: tail))) = file ++ d :: tail := by
    simp
  simp only [e2, h2.1, h2.2, hlen2, if_false]
  rcases hd with e | ⟨e, hm⟩
  · simp [e]
  · simp [e, hm]

theorem matchTocLinkAt_complete (s text file : JsString) (h : LinkAt s text file) :
    matchTocLinkAt s = some (text, file) := by
  obtain ⟨ht, ht2, hf, hf2, hf3, rest, e | ⟨anchor, ha, e⟩⟩ := h
  · have e' : s = '[' :: (text ++ ']' :: ('(' :: '.' :: '/' :: (file ++ ')' :: rest))) := by
      rw [e]; simp [mdLink]
    rw [e']
    exact matchTocLinkAt_tail text file rest ')' ht ht2 hf hf2 hf3 (Or.inl rfl)
  · have e' : s = '[' :: (text ++ ']' :: ('(' :: '.' :: '/' ::
        (file ++ '#' :: (anchor ++ ')' :: rest)))) := by
      rw [e]; simp [mdLink]
    rw [e']
    exact matchTocLinkAt_tail text file _ '#' ht ht2 hf hf2 hf3 (Or.inr ⟨rfl, by simp⟩)

theorem matchTocLinkAt_iff (s text file : JsString) :
    matchTocLinkAt s = some (text, file) ↔ LinkAt s text file :=
  ⟨matchTocLinkAt_sound s text file, matchTocLinkAt_complete s text file⟩

theorem matchTocLinkAt_nil : matchTocLinkAt [] = none := rfl

theorem not_linkAt_nil (t f : JsString) : ¬ LinkAt [] t f := by
  intro h
  have := matchTocLinkAt_complete _ _ _ h
  rw [matchTocLinkAt_nil] at this
  exact absurd this (by simp)

/-- The leftmost match of the link pattern is the first link to a file in the
line. -/
theorem matchTocLink_iff (line text file : JsString) :
    matchTocLink line = some (text, file) ↔ LeftmostLink line text file := by
  induction line with
  | nil =>
    constructor
    · intro h; simp [matchTocLink] at h
    · rintro ⟨before, s, e, hl, _⟩
      have hs : s = [] := (List.append_eq_nil.1 e.symm).2
      rw [hs] at hl
      exact absurd hl (not_linkAt_nil _ _)
  | cons c cs ih =>
    rw [matchTocLink]
    cases hat : matchTocLinkAt (c :: cs) with
    | some m =>
      obtain ⟨t0, f0⟩ := m
      have hl0 := matchTocLinkAt_sound _ _ _ hat
      simp only [Option.some.injEq, Prod.mk.injEq]
      constructor
      · rintro ⟨rfl, rfl⟩
        exact ⟨[], c :: cs, rfl, hl0, fun b2 s2 _ hlt => absurd hlt (by simp)⟩
      · rintro ⟨before, s, e, hl, hmin⟩
        cases before with
        | nil =>
          have hs : s = c :: cs := e.symm
          rw [hs] at hl
          have := matchTocLinkAt_complete _ _ _ hl
          rw [hat] at this
          simpa using this
        | cons b bs =>
          exact absurd hl0 (hmin [] (c :: cs) rfl (by simp) t0 f0)
    | none =>
      simp only
      rw [ih]
      constructor
      · rintro ⟨before, s, e, hl, hmin⟩
        refine ⟨c :: before, s, by rw [e]; rfl, hl, ?_⟩
        intro b2 s2 e2 hlt t f hl2
        cases b2 with
        | nil =>
          have hs : s2 = c :: cs := e2.symm
          rw [hs] at hl2
          have := matchTocLinkAt_complete _ _ _ hl2
          rw [hat] at this
          exact absurd this (by simp)
        | cons x xs =>
          have e3 : cs = xs ++ s2 := (List.cons.inj e2).2
          exact hmin xs s2 e3 (by simpa using hlt) t f hl2
      · rintro ⟨before, s, e, hl, hmin⟩
        cases before with
        | nil =>
          have hs : s = c :: cs := e.symm
          rw [hs] at hl
          have := matchTocLinkAt_complete _ _ _ hl
          rw [hat] at this
          exact absurd this (by simp)
        | cons b bs =>
          have e3 : cs = bs ++ s := (List.cons.inj e).2
          refine ⟨bs, s, e3, hl, ?_⟩
          intro b2 s2 e2 hlt t f hl2
          exact hmin (c :: b2) s2 (by rw [e2]; rfl) (by simpa using hlt) t f hl2

theorem isLevel2TocItem_iff (line : JsString) :
    isLevel2TocItem line = true ↔ BeginsLevel2Item line := by
  unfold isLevel2TocItem BeginsLevel2Item
  rw [Bool.or_eq_true]
  constructor
  · rintro (h | h)
    · have := startsWith_eq_append _ _ h
      exact ⟨'-', line.drop 5, Or.inl rfl, this⟩
    · have := startsWith_eq_append _ _ h
      exact ⟨'*', line.drop 5, Or.inr rfl, this⟩
  · rintro ⟨m, rest, rfl | rfl, rfl⟩
    · left; simp [startsWith, List.isPrefixOf]
    · right; simp [startsWith, List.isPrefixOf]

theorem sectionReference_iff (line file : JsString) :
    sectionReference line = some file ↔
      BeginsLevel2Item line ∧ ∃ text, LeftmostLink line text file := by
  unfold sectionReference
  rw [← isLevel2TocItem_iff]
  cases hm : matchTocLink line with
  | none =>
    simp only
    constructor
    · intro h; simp at h
    · rintro ⟨_, text, hl⟩
      rw [← matchTocLink_iff, hm] at hl
      simp at hl
  | some m =>
    obtain ⟨t0, f0⟩ := m
    simp only
    constructor
    · intro h
      split at h
      · next h2 =>
        simp only [Option.some.injEq] at h
        subst h
        exact ⟨h2, t0, (matchTocLink_iff _ _ _).1 hm⟩
      · simp at h
    · rintro ⟨h2, text, hl⟩
      rw [← matchTocLink_iff, hm] at hl
      simp only [Option.some.injEq, Prod.mk.injEq] at hl
      rw [if_pos h2, hl.2]

theorem sectionReference_of_not_level2 (line : JsString) (h : isLevel2TocItem line = false) :
    sectionReference line = none := by
  unfold sectionReference
  cases matchTocLink line with
  | none => rfl
  | some m => simp [h]

theorem isLevel2TocItem_of_indent (line : JsString)
    (h : startsWith " ".toList line = false ∨ startsWith "    ".toList line = true) :
    isLevel2TocItem line = false := by
  cases hl : isLevel2TocItem line with
  | false => rfl
  | true =>
    obtain ⟨m, rest, hm, rfl⟩ := (isLevel2TocItem_iff line).1 hl
    rcases h with h | h
    · simp [startsWith, List.isPrefixOf] at h
    · rcases hm with rfl | rfl <;> simp [startsWith, List.isPrefixOf] at h

/-! ## The loop of `extractSectionFilesFromTOC` -/

theorem extractLoop_filenames (acc : List TocEntry) (seen lines : List JsString) :
    (extractLoop acc seen lines).map (·.filename) =
      acc.map (·.filename) ++
        (firstOccurrences (lines.filterMap sectionReference)).filter
          (fun f => !seen.contains f) := by
  induction lines generalizing acc seen with
  | nil => simp [extractLoop, firstOccurrences]
  | cons line ls ih =>
    rw [extractLoop]
    cases hm : matchTocLink line with
    | none =>
      have hr : sectionReference line = none := by simp [sectionReference, hm]
      simp only
      rw [ih, List.filterMap_cons_none hr]
    | some m =>
      obtain ⟨t0, f0⟩ := m
      simp only
      by_cases h2 : isLevel2TocItem line = true
      · have hr : sectionReference line = some f0 := by simp [sectionReference, hm, h2]
        rw [List.filterMap_cons_some hr, firstOccurrences]
        by_cases hs : f0 ∈ seen
        · rw [if_neg (by simp [h2, hs]), ih]
          congr 1
          rw [List.filter_cons_of_neg (by simp [hs]), List.filter_filter]
          apply List.filter_congr
          intro g _
          by_cases hg : g ∈ seen
          · simp [hg]
          · have hne : g ≠ f0 := by
              rintro rfl
              exact hg hs
            simp [hg, hne]
        · rw [if_pos (by simp [h2, hs]), ih]
          rw [List.filter_cons_of_pos (by simp [hs]), List.filter_filter]
          simp only [List.map_append, List.map_cons, List.map_nil, List.append_assoc,
            List.singleton_append]
          congr 2
          apply List.filter_congr
          intro g _
          by_cases hne : g = f0
          · simp [hne]
          · simp [hne]
      · have h2' : isLevel2TocItem line = false := by simpa using h2
        have hr : sectionReference line = none := by simp [sectionReference, hm, h2']
        rw [if_neg (by simp [h2']), ih, List.filterMap_cons_none hr]

theorem firstOccurrences_nodup (l : List JsString) : (firstOccurrences l).Nodup := by
  induction l with
  | nil => exact List.nodup_nil
  | cons f fs ih =>
    rw [firstOccurrences, List.nodup_cons]
    exact ⟨fun hm => by simpa using (List.mem_filter.1 hm).2, ih.filter _⟩

theorem mem_firstOccurrences (l : List JsString) (g : JsString) :
    g ∈ firstOccurrences l ↔ g ∈ l := by
  induction l with
  | nil => simp [firstOccurrences]
  | cons f fs ih =>
    rw [firstOccurrences, List.mem_cons, List.mem_cons, List.mem_filter, ih]
    by_cases hg : g = f
    · simp [hg]
    · simp [hg]

theorem firstOccurrences_of_nodup (l : List JsString) (h : l.Nodup) : firstOccurrences l = l := by
  induction l with
  | nil => rfl
  | cons f fs ih =>
    rw [List.nodup_cons] at h
    rw [firstOccurrences, ih h.2, List.filter_eq_self.mpr]
    intro g hg
    have : g ≠ f := by
      rintro rfl
      exact h.1 hg
    simpa using this

/-! ## The index, line by line -/

theorem newlineAfter_cons (l : JsString) (ls : List JsString) :
    newlineAfter (l :: ls) = l ++ '\n' :: newlineAfter ls := by
  simp [newlineAfter]

theorem newlineAfter_append (a b : List JsString) :
    newlineAfter (a ++ b) = newlineAfter a ++ newlineAfter b := by
  simp [newlineAfter]

theorem splitLines_newlineAfter (ls : List JsString) (h : ∀ l ∈ ls, '\n' ∉ l) :
    splitLines (newlineAfter ls) = ls ++ [[]] := by
  induction ls with
  | nil => rfl
  | cons l t ih =>
    rw [newlineAfter_cons, splitLines_line _ _ (h l (List.mem_cons_self _ _)),
      ih (fun x hx => h x (List.mem_cons_of_mem _ hx))]
    rfl

theorem tocHeader_eq (T : JsString) : tocHeader T = newlineAfter (headerLines T) := by
  simp [tocHeader, headerLines, newlineAfter, mdLink]

theorem generateIndexContentTextBased_eq (content : JsString) (sf : List SectionFile) :
    ∃ T, '\n' ∉ T ∧ generateIndexContentTextBased content sf =
      newlineAfter (headerLines T ++ sf.map (fun f => level2Line f.headingText f.filename)) := by
  unfold generateIndexContentTextBased
  simp only
  cases hf : (splitLines content).find? (startsWith ['#', ' ']) with
  | none =>
    refine ⟨"Table of Contents".toList, by decide, ?_⟩
    rw [newlineAfter_append, ← tocHeader_eq]
    simp [newlineAfter, level2Line, Function.comp_def]
  | some line =>
    refine ⟨line.drop 2, ?_, ?_⟩
    · intro hm
      exact splitLines_mem_noNewline content line (List.mem_of_find?_eq_some hf)
        (List.mem_of_mem_drop hm)
    · rw [newlineAfter_append, ← tocHeader_eq]
      simp [newlineAfter, level2Line, Function.comp_def]

theorem isLevel2TocItem_headerLines (T : JsString) :
    (headerLines T).filter isLevel2TocItem = [] := by
  simp [headerLines, List.filter, isLevel2TocItem, startsWith, List.isPrefixOf]

theorem isLevel2TocItem_level2Line (text file : JsString) :
    isLevel2TocItem (level2Line text file) = true := by
  simp [level2Line, mdLink, isLevel2TocItem, startsWith, List.isPrefixOf]

theorem isLevel2TocItem_anchorLine (text target : JsString) :
    isLevel2TocItem ("  - ".toList ++ mdLink text target) = true := by
  simp [mdLink, isLevel2TocItem, startsWith, List.isPrefixOf]

theorem isLevel2TocItem_indented (k : Nat) (rest : JsString) (hk : 2 < k) :
    isLevel2TocItem (List.replicate (2 * (k - 1)) ' ' ++ rest) = false := by
  obtain ⟨m, rfl⟩ : ∃ m, k = m + 3 := ⟨k - 3, by omega⟩
  have e : 2 * (m + 3 - 1) = (2 * m + 1) + 3 := by omega
  rw [e]
  simp [isLevel2TocItem, startsWith, List.isPrefixOf, List.replicate_succ]

theorem filter_level2_specTocLines (sf : List SectionFile) (before hs : List Heading) :
    (specTocLines toLowerCase sf before hs).filter isLevel2TocItem =
      (hs.filter (fun h => h.level == 2)).map (level2LineOf sf) := by
  induction hs generalizing before with
  | nil => rfl
  | cons h t ih =>
    rw [specTocLines, List.filter_append, ih]
    unfold specTocLine
    by_cases h2 : h.level = 2
    · have hb : (h.level == 2) = true := by simpa using h2
      have e : List.filter (fun x : Heading => x.level == 2) (h :: t) =
          h :: List.filter (fun x : Heading => x.level == 2) t := List.filter_cons_of_pos hb
      rw [if_pos h2, e, List.map_cons]
      unfold level2LineOf
      cases fileOf toLowerCase sf h with
      | none =>
        simp only [Option.toList_some]
        rw [List.filter_cons_of_pos (isLevel2TocItem_anchorLine _ _)]
        rfl
      | some f =>
        simp only [Option.toList_some]
        rw [List.filter_cons_of_pos (isLevel2TocItem_anchorLine _ _)]
        rfl
    · have hb : ¬ ((h.level == 2) = true) := by simpa using h2
      have e : List.filter (fun x : Heading => x.level == 2) (h :: t) =
          List.filter (fun x : Heading => x.level == 2) t := List.filter_cons_of_neg hb
      rw [if_neg h2, e]
      by_cases h3 : 2 < h.level
      · rw [if_pos h3]
        cases parentFile toLowerCase sf before with
        | none => simp
        | some f =>
          simp only [Option.map_some', Option.toList_some, List.append_assoc]
          rw [List.filter_cons_of_neg (by
            rw [isLevel2TocItem_indented _ _ h3]; simp)]
          simp
      · rw [if_neg h3]; simp

theorem fileOf_mem (sf : List SectionFile) (h : Heading) (f : JsString)
    (hf : fileOf toLowerCase sf h = some f) : ∃ e ∈ sf, e.filename = f := by
  unfold fileOf at hf
  cases hg : sectionMapGet toLowerCase sf (toLowerCase h.text) with
  | none => rw [hg] at hf; simp [truthy] at hf
  | some g =>
    rw [hg] at hf
    have hfg : f = g := by
      cases g with
      | nil => simp [truthy] at hf
      | cons c cs => simpa [truthy] using hf.symm
    unfold sectionMapGet at hg
    cases hfind : List.find? (fun e => toLowerCase e.headingText == toLowerCase h.text)
        sf.reverse with
    | none => rw [hfind] at hg; simp at hg
    | some e =>
      rw [hfind] at hg
      simp only [Option.map_some', Option.some.injEq] at hg
      exact ⟨e, List.mem_reverse.1 (List.mem_of_find?_eq_some hfind), by rw [hfg, hg]⟩

theorem parentFile_mem (sf : List SectionFile) (before : List Heading) (f : JsString)
    (hf : parentFile toLowerCase sf before = some f) : ∃ e ∈ sf, e.filename = f := by
  unfold parentFile at hf
  split at hf
  · exact fileOf_mem sf _ f hf
  · simp at hf

theorem newline_not_mem_sanitizeText (x : JsString) : '\n' ∉ sanitizeText x := by
  intro hm
  exact absurd (mem_sanitizeText x _ hm).2 (by decide)

theorem specTocLines_noNewline (sf : List SectionFile) (before hs : List Heading)
    (hT : ∀ h ∈ hs, '\n' ∉ h.text) (hF : ∀ e ∈ sf, '\n' ∉ e.filename) :
    ∀ l ∈ specTocLines toLowerCase sf before hs, '\n' ∉ l := by
  induction hs generalizing before with
  | nil => intro l hl; simp [specTocLines] at hl
  | cons h t ih =>
    intro l hl
    rw [specTocLines, List.mem_append] at hl
    rcases hl with hl | hl
    · have hh := hT h (List.mem_cons_self _ _)
      have hs := newline_not_mem_sanitizeText h.text
      unfold specTocLine at hl
      split at hl
      · cases hfo : fileOf toLowerCase sf h with
        | none =>
          rw [hfo] at hl
          simp only [Option.toList_some, List.mem_singleton] at hl
          rw [hl]
          intro hm
          rcases List.mem_append.1 hm with hm | hm
          · exact absurd hm (by decide)
          · rcases mem_mdLink _ _ _ hm with h1 | h1 | h1 | h1 | h1 | h1
            · exact hh h1
            · rcases List.mem_cons.1 h1 with h2 | h2
              · exact absurd h2 (by decide)
              · exact hs h2
            all_goals exact absurd h1 (by decide)
        | some f =>
          rw [hfo] at hl
          simp only [Option.toList_some, List.mem_singleton] at hl
          obtain ⟨e, he, hef⟩ := fileOf_mem sf h f hfo
          have hfn : '\n' ∉ f := hef ▸ hF e he
          rw [hl]
          intro hm
          rcases List.mem_append.1 hm with hm | hm
          · exact absurd hm (by decide)
          · rcases mem_mdLink _ _ _ hm with h1 | h1 | h1 | h1 | h1 | h1
            · exact hh h1
            · rcases List.mem_append.1 h1 with h2 | h2
              · exact absurd h2 (by decide)
              · exact hfn h2
            all_goals exact absurd h1 (by decide)
      · split at hl
        · cases hpf : parentFile toLowerCase sf before with
          | none => rw [hpf] at hl; simp at hl
          | some f =>
            rw [hpf] at hl
            simp only [Option.map_some', Option.toList_some, List.mem_singleton] at hl
            obtain ⟨e, he, hef⟩ := parentFile_mem sf before f hpf
            have hfn : '\n' ∉ f := hef ▸ hF e he
            rw [hl]
            intro hm
            rcases List.mem_append.1 hm with hm | hm
            · rcases List.mem_append.1 hm with hm | hm
              · exact absurd (List.eq_of_mem_replicate hm) (by decide)
              · exact absurd hm (by decide)
            · rcases mem_mdLink _ _ _ hm with h1 | h1 | h1 | h1 | h1 | h1
              · exact hh h1
              · rcases List.mem_append.1 h1 with h2 | h2
                · rcases List.mem_append.1 h2 with h3 | h3
                  · exact absurd h3 (by decide)
                  · exact hfn h3
                · rcases List.mem_cons.1 h2 with h3 | h3
                  · exact absurd h3 (by decide)
                  · exact hs h3
              all_goals exact absurd h1 (by decide)
        · simp at hl
    · exact ih _ (fun x hx => hT x (List.mem_cons_of_mem _ hx)) l hl

theorem headerLines_noNewline (T : JsString) (hT : '\n' ∉ T) :
    ∀ l ∈ headerLines T, '\n' ∉ l := by
  intro l hl
  simp only [headerLines, List.mem_cons, List.mem_singleton, List.not_mem_nil, or_false] at hl
  rcases hl with rfl | rfl | rfl | rfl | rfl
  · intro hm
    rcases List.mem_append.1 hm with hm | hm
    · exact absurd hm (by decide)
    · exact hT hm
  · simp
  · decide
  · simp
  · intro hm
    rcases List.mem_append.1 hm with hm | hm
    · exact absurd hm (by decide)
    · rcases mem_mdLink _ _ _ hm with h1 | h1 | h1 | h1 | h1 | h1
      · exact hT h1
      all_goals exact absurd h1 (by decide)

theorem level2Line_noNewline (text file : JsString) (h1 : '\n' ∉ text) (h2 : '\n' ∉ file) :
    '\n' ∉ level2Line text file := by
  intro hm
  unfold level2Line at hm
  rcases List.mem_append.1 hm with hm | hm
  · exact absurd hm (by decide)
  · rcases mem_mdLink _ _ _ hm with h | h | h | h | h | h
    · exact h1 h
    · rcases List.mem_append.1 h with h | h
      · exact absurd h (by decide)
      · exact h2 h
    all_goals exact absurd h (by decide)

theorem filterMap_sectionReference_filter (lines : List JsString) :
    lines.filterMap sectionReference =
      (lines.filter isLevel2TocItem).filterMap sectionReference := by
  induction lines with
  | nil => rfl
  | cons l t ih =>
    by_cases h : isLevel2TocItem l = true
    · rw [List.filter_cons_of_pos h]
      cases hr : sectionReference l with
      | none => rw [List.filterMap_cons_none hr, List.filterMap_cons_none hr, ih]
      | some f => rw [List.filterMap_cons_some hr, List.filterMap_cons_some hr, ih]
    · have h' : isLevel2TocItem l = false := by simpa using h
      rw [List.filter_cons_of_neg h, List.filterMap_cons_none
        (sectionReference_of_not_level2 l h'), ih]

theorem sectionReference_level2Line (text file : JsString) (ht : text ≠ [])
    (ht2 : ']' ∉ text) (hf : file ≠ []) (hf2 : ∀ c ∈ file, c ≠ '#' ∧ c ≠ ')') :
    sectionReference (level2Line text file) = some file := by
  obtain ⟨h1, h2⟩ := matchTocLink_level2 text file ht ht2 hf hf2
  unfold sectionReference level2Line
  rw [h1]
  simp only
  rw [if_pos h2]

/-! ## The directory after explode -/

theorem putFile_new (dir : Dir) (name content : JsString) (h : name ∉ dir.map Prod.fst) :
    putFile dir name content = dir ++ [(name, content)] := by
  induction dir with
  | nil => rfl
  | cons e rest ih =>
    obtain ⟨n, c⟩ := e
    rw [List.map_cons, List.mem_cons, not_or] at h
    rw [putFile, if_neg (fun e => h.1 e.symm), ih h.2]
    rfl

theorem putSections_new (dir : Dir) (ss : List Section)
    (hnodup : (ss.map sectionFilename).Nodup)
    (hnew : ∀ s ∈ ss, sectionFilename s ∉ dir.map Prod.fst) :
    putSections dir ss = dir ++ ss.map (fun s => (sectionFilename s, sectionContent s)) := by
  induction ss generalizing dir with
  | nil => simp [putSections]
  | cons s t ih =>
    rw [List.map_cons, List.nodup_cons] at hnodup
    rw [putSections, putFile_new _ _ _ (hnew s (List.mem_cons_self _ _)), ih _ hnodup.2]
    · simp
    · intro x hx hm
      rw [List.map_append, List.mem_append] at hm
      rcases hm with hm | hm
      · exact hnew x (List.mem_cons_of_mem _ hx) hm
      · simp only [List.map_cons, List.map_nil, List.mem_singleton] at hm
        exact hnodup.1 (hm ▸ List.mem_map_of_mem _ hx)

theorem headingText_noNewline (lines : List JsString) (hl : ∀ l ∈ lines, '\n' ∉ l) :
    ∀ s ∈ collectSections lines, '\n' ∉ s.headingText := by
  intro s hs hm
  obtain ⟨j, hspan, _, _⟩ := collectSections_spans lines s hs
  have h4 := hspan.2.2.2.1
  have hmem : (['#', '#', ' '] ++ s.headingText) ∈ lines := by
    obtain ⟨hlt, hget⟩ := List.getElem?_eq_some_iff.1 h4
    rw [← hget]
    exact List.getElem_mem _
  exact hl _ hmem (List.mem_append_right _ hm)

theorem filterMap_map_of_some {α β γ : Type} (f : β → Option γ) (g : α → β) (k : α → γ)
    (l : List α) (h : ∀ x ∈ l, f (g x) = some (k x)) : (l.map g).filterMap f = l.map k := by
  induction l with
  | nil => rfl
  | cons a t ih =>
    rw [List.map_cons, List.filterMap_cons_some (h a (List.mem_cons_self _ _)),
      ih (fun x hx => h x (List.mem_cons_of_mem _ hx))]
    rfl

theorem fileOf_section (ss : List Section) (h : Heading)
    (hh : h.text ∈ ss.map (·.headingText)) :
    fileOf toLowerCase
      (ss.map (fun s => { filename := sectionFilename s, headingText := s.headingText : SectionFile }))
      h = some (sanitizeText h.text ++ ".md".toList) := by
  obtain ⟨s, hs, hst⟩ := List.mem_map.1 hh
  unfold fileOf
  rw [← hst, sectionMapGet_section ss s hs, truthy_of_ne_nil _ (sectionFilename_ne_nil s)]
  rfl

/-- The lines of the index of a document: the header, then the entries, of
which the two-space-indented ones are the lines of the sections, in order. -/
theorem explodeIndexContent_lines (P : MarkdownTreeParser) (D : JsString)
    (hP2 : ((P.getHeadingsList (P.parse D)).filter (fun h => h.level == 2)).map (·.text) =
      (collectSections (splitLines D)).map (·.headingText))
    (hP3 : ∀ h ∈ P.getHeadingsList (P.parse D), '\n' ∉ h.text) :
    (splitLines (explodeIndexContent P D)).filter isLevel2TocItem =
      (collectSections (splitLines D)).map
        (fun s => level2Line s.headingText (sectionFilename s)) := by
  have hhead := headingText_noNewline _ (splitLines_mem_noNewline D)
  have hF : ∀ e ∈ explodeSectionFiles D, '\n' ∉ e.filename := by
    intro e he hm
    unfold explodeSectionFiles at he
    obtain ⟨s, _, rfl⟩ := List.mem_map.1 he
    exact (mem_sectionFilename s _ hm).2.2 rfl
  have key : ∃ T entries, explodeIndexContent P D = newlineAfter (headerLines T ++ entries) ∧
      '\n' ∉ T ∧ (∀ l ∈ entries, '\n' ∉ l) ∧
      entries.filter isLevel2TocItem = (collectSections (splitLines D)).map
        (fun s => level2Line s.headingText (sectionFilename s)) := by
    unfold explodeIndexContent generateIndexContentWithSubsections
    simp only
    cases hf : List.find? (fun h => h.level == 1) (P.getHeadingsList (P.parse D)) with
    | none =>
      simp only
      obtain ⟨T, hT, e⟩ := generateIndexContentTextBased_eq (P.stringify (P.parse D))
        (explodeSectionFiles D)
      refine ⟨T, _, e, hT, ?_, ?_⟩
      · intro l hl
        obtain ⟨f, hf, rfl⟩ := List.mem_map.1 hl
        have hf0 := hf
        unfold explodeSectionFiles at hf
        obtain ⟨s, hs, rfl⟩ := List.mem_map.1 hf
        exact level2Line_noNewline _ _ (hhead s hs) (hF _ hf0)
      · rw [List.filter_eq_self.mpr]
        · unfold explodeSectionFiles
          rw [List.map_map]
          rfl
        · intro l hl
          obtain ⟨f, _, rfl⟩ := List.mem_map.1 hl
          exact isLevel2TocItem_level2Line _ _
    | some mt =>
      simp only
      have hmt : mt ∈ P.getHeadingsList (P.parse D) := List.mem_of_find?_eq_some hf
      have h := tocEntries_spec toLowerCase (explodeSectionFiles D) [] (P.getHeadingsList (P.parse D))
      have hp : parentFile toLowerCase (explodeSectionFiles D) [] = none := rfl
      rw [hp] at h
      refine ⟨mt.text, specTocLines toLowerCase (explodeSectionFiles D) [] (P.getHeadingsList (P.parse D)),
        by rw [h, tocHeader_eq, newlineAfter_append], hP3 mt hmt,
        specTocLines_noNewline _ _ _ hP3 hF, ?_⟩
      rw [filter_level2_specTocLines]
      have hcongr : ∀ x ∈ (P.getHeadingsList (P.parse D)).filter (fun h => h.level == 2),
          level2LineOf (explodeSectionFiles D) x =
            level2Line x.text (sanitizeText x.text ++ ".md".toList) := by
        intro x hx
        have hx2 : x.text ∈ (collectSections (splitLines D)).map (·.headingText) := by
          rw [← hP2]; exact List.mem_map_of_mem _ hx
        unfold level2LineOf explodeSectionFiles
        rw [fileOf_section _ x hx2]
      rw [List.map_congr_left hcongr]
      have e2 : List.map (fun x : Heading => level2Line x.text (sanitizeText x.text ++ ".md".toList))
          ((P.getHeadingsList (P.parse D)).filter (fun h => h.level == 2)) =
          List.map (fun t => level2Line t (sanitizeText t ++ ".md".toList))
            (((P.getHeadingsList (P.parse D)).filter (fun h => h.level == 2)).map (·.text)) := by
        rw [List.map_map]; rfl
      rw [e2, hP2, List.map_map]
      rfl
  obtain ⟨T, entries, e, hT, hent, hfil⟩ := key
  rw [e, splitLines_newlineAfter _ (by
    intro l hl
    rcases List.mem_append.1 hl with hl | hl
    · exact headerLines_noNewline T hT l hl
    · exact hent l hl)]
  rw [List.filter_append, List.filter_append, isLevel2TocItem_headerLines, hfil]
  simp [isLevel2TocItem, startsWith, List.isPrefixOf]

/-! ## The headings of a section file -/

theorem insideFence_add (lines : List JsString) (a k : Nat) :
    insideFence lines (a + k) = xor (insideFence lines a) (insideFence (lines.drop a) k) := by
  unfold insideFence
  rw [List.take_add, List.countP_append]
  generalize List.countP isFenceDelimiter (List.take a lines) = n
  generalize List.countP isFenceDelimiter (List.take k (List.drop a lines)) = m
  rcases Nat.mod_two_eq_zero_or_one n with hn | hn <;>
    rcases Nat.mod_two_eq_zero_or_one m with hm | hm <;>
    simp [Nat.add_mod, hn, hm]

theorem isFenceDelimiter_decrementLine (l : JsString) :
    isFenceDelimiter (decrementLine l) = isFenceDelimiter l := by
  cases hm : matchHeading 2 6 l with
  | none => rw [decrementLine_of_none l hm]
  | some p =>
    obtain ⟨hs, rest⟩ := p
    obtain ⟨L, w, r, rfl, rfl, rfl, hw, hlo, hhi, hlt⟩ := matchHeading_eq_some _ _ _ _ _ hm
    rw [decrementLine_of_heading L w r hlo hhi hw hlt,
      isFenceDelimiter_hashes_append _ _ (by omega), isFenceDelimiter_hashes_append _ _ (by omega)]

theorem insideFence_map_decrementLine (ls : List JsString) (k : Nat) :
    insideFence (ls.map decrementLine) k = insideFence ls k := by
  unfold insideFence
  rw [← List.map_take, List.countP_map]
  have : (isFenceDelimiter ∘ decrementLine) = isFenceDelimiter := by
    funext l
    exact isFenceDelimiter_decrementLine l
  rw [this]

/-- A body line of a section, in the document: it lies before the end of the
section, and its fence state in the document is its fence state in the body. -/
theorem section_body_line (lines : List JsString) (s : Section) (j : Nat)
    (hspan : SpansUpTo lines s j) (k : Nat) (hk : k < s.lines.length) :
    s.startLine + 1 + k < j ∧
      s.lines.getD k [] = lines.getD (s.startLine + 1 + k) [] ∧
      insideFence lines (s.startLine + 1 + k) = insideFence s.lines k := by
  obtain ⟨h1, h2, h3, h4, h5, h6⟩ := hspan
  have hlen : s.lines.length = j - (s.startLine + 1) := by
    rw [h5, List.length_drop, List.length_take, Nat.min_eq_left h2]
  have hkj : s.startLine + 1 + k < j := by omega
  refine ⟨hkj, ?_, ?_⟩
  · rw [List.getD_eq_getElem?_getD, List.getD_eq_getElem?_getD, h5, List.getElem?_drop,
      List.getElem?_take_of_lt hkj]
  · rw [insideFence_add]
    have hstart : insideFence lines s.startLine = false := by
      unfold isSectionStart at h3
      simp only [Bool.and_eq_true, Bool.not_eq_true'] at h3
      exact h3.1
    have hline : lines.getD s.startLine [] = ['#', '#', ' '] ++ s.headingText := by
      rw [List.getD_eq_getElem?_getD, h4]; rfl
    have hs1 : insideFence lines (s.startLine + 1) = false := by
      rw [insideFence_succ lines _ (by omega), hstart, hline]
      have : isFenceDelimiter (['#', '#', ' '] ++ s.headingText) = false :=
        isFenceDelimiter_hash _
      rw [this]; rfl
    rw [hs1, Bool.false_xor]
    unfold insideFence
    rw [h5, List.drop_take, List.take_take, Nat.min_eq_left (by omega)]

theorem startsWith_h1_hashes (L : Nat) (w : Char) (r : JsString) (hw : isJsWhitespace w = true) :
    startsWith ['#', ' '] (hashes L ++ w :: r) = true ↔ L = 1 ∧ w = ' ' := by
  have hwh : w ≠ '#' := by
    have := ne_hash_of_whitespace w hw
    simpa using this
  have hwh2 : '#' ≠ w := fun e => hwh e.symm
  rcases L with _ | _ | n
  · simp [hashes, startsWith, List.isPrefixOf, hwh2]
  · simp only [hashes, startsWith, List.replicate_succ, List.replicate_zero, List.cons_append,
      List.nil_append, List.isPrefixOf, beq_self_eq_true, Bool.true_and, Bool.and_true,
      beq_iff_eq, true_and]
    exact eq_comm
  · simp [hashes, startsWith, List.isPrefixOf, List.replicate_succ]

theorem startsWith_h2_hashes (L : Nat) (w : Char) (r : JsString) (hw : isJsWhitespace w = true) :
    startsWith ['#', '#', ' '] (hashes L ++ w :: r) = true ↔ L = 2 ∧ w = ' ' := by
  have hwh : w ≠ '#' := by
    have := ne_hash_of_whitespace w hw
    simpa using this
  have hwh2 : '#' ≠ w := fun e => hwh e.symm
  rcases L with _ | _ | _ | n
  · simp [hashes, startsWith, List.isPrefixOf, hwh2]
  · simp [hashes, startsWith, List.isPrefixOf, hwh2]
  · simp only [hashes, startsWith, List.replicate_succ, List.replicate_zero, List.cons_append,
      List.nil_append, List.isPrefixOf, beq_self_eq_true, Bool.true_and, Bool.and_true,
      beq_iff_eq, true_and]
    exact eq_comm
  · simp [hashes, startsWith, List.isPrefixOf, List.replicate_succ]

/-- A lowered line that starts with `# ` comes from a line that starts with
`# ` or `## `. -/
theorem startsWith_h1_decrementLine (l : JsString)
    (h : startsWith ['#', ' '] (decrementLine l) = true) :
    startsWith ['#', ' '] l = true ∨ startsWith ['#', '#', ' '] l = true := by
  cases hm : matchHeading 2 6 l with
  | none =>
    rw [decrementLine_of_none l hm] at h
    exact Or.inl h
  | some p =>
    obtain ⟨hs, rest⟩ := p
    obtain ⟨L, w, r, rfl, rfl, rfl, hw, hlo, hhi, hlt⟩ := matchHeading_eq_some _ _ _ _ _ hm
    rw [decrementLine_of_heading L w r hlo hhi hw hlt, startsWith_h1_hashes _ _ _ hw] at h
    right
    rw [startsWith_h2_hashes _ _ _ hw]
    exact ⟨by omega, h.2⟩

/-- A lowered line that is a level-1 heading comes from a line of one or two
hashes followed by whitespace. -/
theorem isLevel1Heading_decrementLine (l : JsString)
    (h : isLevel1Heading (decrementLine l) = true) :
    ∃ L w r, l = hashes L ++ w :: r ∧ (L = 1 ∨ L = 2) ∧ isJsWhitespace w = true := by
  unfold isLevel1Heading at h
  cases hm : matchHeading 2 6 l with
  | none =>
    rw [decrementLine_of_none l hm] at h
    cases h1 : matchHeading 1 1 l with
    | none => rw [h1] at h; simp at h
    | some p =>
      obtain ⟨hs, rest⟩ := p
      obtain ⟨L, w, r, _, _, e, hw, hlo, hhi, _⟩ := matchHeading_eq_some _ _ _ _ _ h1
      exact ⟨L, w, r, e, Or.inl (by omega), hw⟩
  | some p =>
    obtain ⟨hs, rest⟩ := p
    obtain ⟨L, w, r, rfl, rfl, rfl, hw, hlo, hhi, hlt⟩ := matchHeading_eq_some _ _ _ _ _ hm
    rw [decrementLine_of_heading L w r hlo hhi hw hlt, matchHeading_hashes _ _ _ _ _ hw] at h
    split at h
    · next hc => exact ⟨L, w, r, rfl, Or.inr (by omega), hw⟩
    · simp at h

theorem leadingHashes_decrementLine (l : JsString) :
    leadingHashes (decrementLine l) ≤ leadingHashes l := by
  cases hm : matchHeading 2 6 l with
  | none => rw [decrementLine_of_none l hm]
  | some p =>
    obtain ⟨hs, rest⟩ := p
    obtain ⟨L, w, r, rfl, rfl, rfl, hw, hlo, hhi, hlt⟩ := matchHeading_eq_some _ _ _ _ _ hm
    rw [decrementLine_of_heading L w r hlo hhi hw hlt, leadingHashes_hashes _ _ _ hw,
      leadingHashes_hashes _ _ _ hw]
    omega

theorem leadingHashes_of_isHeading (l : JsString) (h : isHeading l = true) :
    1 ≤ leadingHashes l ∧ leadingHashes l ≤ 6 := by
  unfold isHeading at h
  cases hm : matchHeading 1 6 l with
  | none => rw [hm] at h; simp at h
  | some p =>
    obtain ⟨hs, rest⟩ := p
    obtain ⟨L, w, r, _, _, rfl, hw, hlo, hhi, _⟩ := matchHeading_eq_some _ _ _ _ _ hm
    rw [leadingHashes_hashes _ _ _ hw]
    exact ⟨hlo, hhi⟩

theorem splitLines_sectionContent (lines : List JsString) (hl : ∀ l ∈ lines, '\n' ∉ l)
    (s : Section) (hs : s ∈ collectSections lines) :
    splitLines (sectionContent s) =
      (['#', ' '] ++ s.headingText) :: s.lines.map decrementLine := by
  obtain ⟨j, hspan, _, _⟩ := collectSections_spans lines s hs
  unfold sectionContent
  apply splitLines_joinLines _ (by simp)
  intro l hmem
  rcases List.mem_cons.1 hmem with e | hmem
  · rw [e]
    intro hm
    have h4 := hspan.2.2.2.1
    have hmem2 : (['#', '#', ' '] ++ s.headingText) ∈ lines := by
      obtain ⟨hlt, hget⟩ := List.getElem?_eq_some_iff.1 h4
      rw [← hget]
      exact List.getElem_mem _
    rcases List.mem_append.1 hm with hm | hm
    · exact absurd hm (by decide)
    · exact hl _ hmem2 (List.mem_append_right _ hm)
  · obtain ⟨l0, hl0, rfl⟩ := List.mem_map.1 hmem
    apply decrementLine_noNewline
    apply hl
    rw [hspan.2.2.2.2.1] at hl0
    exact List.mem_of_mem_take (List.mem_of_mem_drop hl0)

/-! ## The fence state of the two scans -/

theorem adjustLines_eq_zipWith (δ : Int) (b : Bool) (ls : List JsString) :
    adjustLines δ b ls =
      List.zipWith
        (fun st l => if isFenceDelimiter l then l else if st then l else adjustLine δ l)
        (adjustCodeBlockStates b ls) ls := by
  induction ls generalizing b with
  | nil => rfl
  | cons l t ih =>
    rw [adjustLines, adjustCodeBlockStates, List.zipWith_cons_cons]
    by_cases hf : isFenceDelimiter l = true
    · simp only [hf, if_true]
      rw [ih]
    · simp only [hf, Bool.false_eq_true, if_false]
      cases b
      · simp only [Bool.false_eq_true, if_false]
        rw [ih]
      · simp only [if_true]
        rw [ih]

theorem adjustCodeBlockStates_getElem? (b : Bool) (ls : List JsString) (i : Nat)
    (hi : i < ls.length) :
    (adjustCodeBlockStates b ls)[i]? = some (xor b (insideFence ls i)) := by
  induction ls generalizing b i with
  | nil => simp at hi
  | cons l t ih =>
    cases i with
    | zero => simp [adjustCodeBlockStates, insideFence_zero]
    | succ n =>
      rw [adjustCodeBlockStates, List.getElem?_cons_succ,
        ih _ n (by simpa using hi), insideFence_cons_succ]
      by_cases hf : isFenceDelimiter l = true
      · simp only [hf, if_true]
        cases b <;> cases insideFence t n <;> rfl
      · have hf2 : isFenceDelimiter l = false := by simpa using hf
        simp only [hf2, Bool.false_eq_true, if_false]
        cases b <;> cases insideFence t n <;> rfl

/-! ## The end of the two commands -/

theorem collectSections_eq_nil (lines : List JsString)
    (h : ∀ i, i < lines.length → isSectionStart lines i = false) :
    collectSections lines = [] := by
  have hs := collectSections_startLines lines
  have hf : (List.range lines.length).filter (isSectionStart lines) = [] := by
    rw [List.filter_eq_nil_iff]
    intro i hi
    rw [h i (List.mem_range.1 hi)]
    simp
  rw [hf] at hs
  exact List.map_eq_nil_iff.1 hs

theorem assembleLoop_missing (dir : Dir) (fs : List TocEntry) (acc : JsString) (f : TocEntry)
    (hf : f ∈ fs) (hmiss : readFile dir f.filename = none) :
    assembleLoop dir acc fs = none := by
  induction fs generalizing acc with
  | nil => simp at hf
  | cons g rest ih =>
    rw [assembleLoop]
    cases hg : readFile dir g.filename with
    | none => rfl
    | some c =>
      simp only
      rcases List.mem_cons.1 hf with e | hm
      · rw [← e, hmiss] at hg
        exact absurd hg (by simp)
      · exact ih _ hm

theorem matchHeading_one_of_deeper (L : Nat) (w : Char) (r : JsString) (hL : 2 ≤ L)
    (hw : isJsWhitespace w = true) : matchHeading 1 1 (hashes L ++ w :: r) = none := by
  rw [matchHeading_hashes _ _ _ _ _ hw, if_neg]
  intro h
  omega

/-- A line of six hashes and whitespace is returned at its place by
`adjustHeadingLevels`, whatever the adjustment. -/
theorem adjustHeadingLevels_level6_line (content : JsString) (δ : Int) (i : Nat) (w : Char)
    (r : JsString) (hline : (splitLines content)[i]? = some (hashes 6 ++ w :: r))
    (hw : isJsWhitespace w = true) :
    (splitLines (adjustHeadingLevels content δ))[i]? = some (hashes 6 ++ w :: r) := by
  rw [adjustHeadingLevels_line, hline]
  simp only [Option.map_some', Option.some.injEq]
  split
  · rfl
  · apply adjustLine_of_not_match
    rw [matchHeading_hashes _ _ _ _ _ hw, if_neg (by omega)]

theorem hashes_append_ne (m n : Nat) (w : Char) (r : JsString) (hw : isJsWhitespace w = true)
    (h : m ≠ n) : hashes m ++ w :: r ≠ hashes n ++ w :: r := by
  intro e
  have := congrArg leadingHashes e
  rw [leadingHashes_hashes _ _ _ hw, leadingHashes_hashes _ _ _ hw] at this
  exact h this

/-! ## The claims -/

/-- C1, refuted by the code: `twinDocument` has the shape the claim asks for,
and its two sections, of the same heading, are written to the same file, the
second over the first; with the parser modelled from the specification
assemble returns the title and the second section only, and with no parser
does it return the document. -/
theorem explode_assemble_loses_twin_section :
    isRoundTripShape twinDocument = true ∧
    assembleDocument specParser (explodeDocumentTextBased specParser (some twinDocument) none).2 =
      (Outcome.returned, some "# T\n\n## A\ny".toList) ∧
    (∀ P : MarkdownTreeParser,
      (assembleDocument P (explodeDocumentTextBased P (some twinDocument) none).2).2 ≠
        some twinDocument) := by
  refine ⟨by decide, by decide, ?_⟩
  intro P
  have hexp : (explodeDocumentTextBased P (some twinDocument) none).2 =
      some [("a.md".toList, "# A\ny".toList),
        ("index.md".toList, explodeIndexContent P twinDocument)] := rfl
  rw [hexp]
  have hdir : ∀ name c,
      readFile [("a.md".toList, "# A\ny".toList),
        ("index.md".toList, explodeIndexContent P twinDocument)] name = some c →
      c = "# A\ny".toList ∨ c.getLast? = some '\n' := by
    intro name c hc
    simp only [readFile, List.lookup] at hc
    split at hc
    · left; exact (Option.some.inj hc).symm
    · split at hc
      · right
        rw [← Option.some.inj hc]
        exact generateIndexContent_endsWithNewline _ _ _
      · simp at hc
  intro heq
  unfold assembleDocument at heq
  simp only at heq
  split at heq
  · simp at heq
  · split at heq
    · simp at heq
    · next mt _ =>
      split at heq
      · simp at heq
      · next hne =>
        split at heq
        · simp at heq
        · next out hout =>
          have heq : out = twinDocument := Option.some.inj heq
          obtain ⟨ps, hps, hlen, hall⟩ := assembleLoop_pieces _ _ hdir _ _ _ hout
          -- the last piece is the file of the second section
          rcases List.eq_nil_or_concat ps with rfl | ⟨qs, p, rfl⟩
          · exact hne (by rw [← hlen]; rfl)
          · simp only [List.concat_eq_append] at hps hall hlen
            have hp := hall p (by simp)
            rw [List.flatten_append, List.flatten_singleton, ← List.append_assoc, heq] at hps
            rcases hp with rfl | hp
            · have hcut : "# T\n\n## A\nx".toList =
                  "# ".toList ++ mt.text ++ ['\n'] ++ qs.flatten := by
                have e : twinDocument = "# T\n\n## A\nx".toList ++
                    '\n' :: incrementHeadingLevelsInText "# A\ny".toList := by decide
                rw [e] at hps
                exact List.append_cancel_right hps
              -- what precedes ends with a newline or with the letter y
              rcases List.eq_nil_or_concat qs with rfl | ⟨rs, q, rfl⟩
              · have := congrArg List.getLast? hcut
                rw [List.flatten_nil, List.append_nil, List.getLast?_concat] at this
                exact absurd this (by decide)
              · simp only [List.concat_eq_append] at hcut hall
                have hq := hall q (by simp)
                have := congrArg List.getLast? hcut
                rw [List.flatten_append, List.flatten_singleton, ← List.append_assoc] at this
                rcases hq with rfl | hq
                · rw [List.getLast?_append, show (('\n' :: incrementHeadingLevelsInText
                    "# A\ny".toList).getLast?) = some 'y' from by decide] at this
                  have h2 : "# T\n\n## A\nx".toList.getLast? = some 'y' := this
                  exact absurd h2 (by decide)
                · rw [List.getLast?_append, hq] at this
                  have h2 : "# T\n\n## A\nx".toList.getLast? = some '\n' := this
                  exact absurd h2 (by decide)
            · have := congrArg List.getLast? hps
              rw [List.getLast?_append, hp] at this
              have h2 : twinDocument.getLast? = some '\n' := this
              exact absurd h2 (by decide)

/-- Where the round trip holds: let `D` be made of a title line `# T`, an empty
line, and sections of which the first starts right after the empty line, with
no other line outside code fences that starts with `# `; let every section
heading be non-empty, hold no `]` and, after its leading whitespace, no line
terminator; let no body line outside code fences be a level-1 heading and no
body line inside a code fence have the form of a heading of level 2 to 6; let
the file names of the sections be pairwise different, different from
`index.md` and at most `NAME_MAX` bytes long; and let the parser list `T` as the
title of `D` and of the index, the section headings as the level-2 headings of
`D`, no heading text with a newline, and re-serialise the index so that the
section references read from it are those of its lines.  Then explode returns,
and assemble on the directory it leaves returns `D`. -/
theorem explode_assemble_roundtrip (P : MarkdownTreeParser) (D T first : JsString)
    (rest : List JsString) (outputDir : Option Dir)
    (hlines : splitLines D = (['#', ' '] ++ T) :: [] :: first :: rest)
    (hfirst : startsWith ['#', '#', ' '] first = true)
    (hnoTitle : noTitleLine false rest = true)
    (hsections : ∀ s ∈ collectSections (splitLines D),
      headingOk s.headingText = true ∧ bodyOk false s.lines = true)
    (hnames : ((collectSections (splitLines D)).map sectionFilename).Nodup)
    (hindex : "index.md".toList ∉ (collectSections (splitLines D)).map sectionFilename)
    (hshort : ∀ s ∈ collectSections (splitLines D), utf8Length (sectionFilename s) ≤ NAME_MAX)
    (hP1 : ((P.getHeadingsList (P.parse D)).find? (fun h => h.level == 1)).map (·.text) = some T)
    (hP2 : ((P.getHeadingsList (P.parse D)).filter (fun h => h.level == 2)).map (·.text) =
      (collectSections (splitLines D)).map (·.headingText))
    (hP3 : ∀ h ∈ P.getHeadingsList (P.parse D), '\n' ∉ h.text)
    (hP4 : ((P.getHeadingsList (P.parse (explodeIndexContent P D))).find?
      (fun h => h.level == 1)).map (·.text) = some T)
    (hP5 : extractSectionFilesFromTOC P (P.parse (explodeIndexContent P D)) =
      extractLoop [] [] (splitLines (explodeIndexContent P D))) :
    explodeDocumentTextBased P (some D) outputDir =
      (Outcome.returned, (explodeDocumentTextBased P (some D) outputDir).2) ∧
    assembleDocument P (explodeDocumentTextBased P (some D) outputDir).2 =
      (Outcome.returned, some D) := by
  have hsrc : ((collectSections (splitLines D)).map sourceLines).flatten = first :: rest := by
    rw [hlines]; exact collectSections_sourceLines T first rest hfirst hnoTitle
  have hne : (collectSections (splitLines D)).length ≠ 0 := by
    intro h0
    rw [List.length_eq_zero.1 h0] at hsrc
    simp at hsrc
  have hTnl : '\n' ∉ T := by
    intro hm
    exact splitLines_mem_noNewline D (['#', ' '] ++ T) (by rw [hlines]; simp)
      (List.mem_append_right _ hm)
  have hnl : ∀ s ∈ collectSections (splitLines D), ∀ l ∈ sourceLines s, '\n' ∉ l := by
    intro s hs l hl
    apply splitLines_mem_noNewline D l
    have : l ∈ ((collectSections (splitLines D)).map sourceLines).flatten :=
      List.mem_flatten.2 ⟨_, List.mem_map_of_mem _ hs, hl⟩
    rw [hsrc] at this
    rw [hlines]
    exact List.mem_cons_of_mem _ (List.mem_cons_of_mem _ this)
  -- the output directory after explode
  have hexp : (explodeDocumentTextBased P (some D) outputDir).2 =
      some (putFile (putSections (outputDir.getD []) (collectSections (splitLines D)))
        "index.md".toList (explodeIndexContent P D)) := by
    rw [explodeDocumentTextBased_of_short P D outputDir hne hshort]
  refine ⟨by rw [explodeDocumentTextBased_of_short P D outputDir hne hshort], ?_⟩
  have hreadIndex := readFile_putFile_same
    (putSections (outputDir.getD []) (collectSections (splitLines D)))
    "index.md".toList (explodeIndexContent P D)
  have hread : ∀ s ∈ collectSections (splitLines D),
      readFile (putFile (putSections (outputDir.getD []) (collectSections (splitLines D)))
        "index.md".toList (explodeIndexContent P D)) (sectionFilename s) =
        some (sectionContent s) := by
    intro s hs
    rw [readFile_putFile_other _ _ _ _ (fun e => hindex (by
      rw [e]; exact List.mem_map_of_mem _ hs))]
    exact readFile_putSections _ _ hnames s hs
  -- the index
  have hidx : explodeIndexContent P D =
      tocHeader T ++ tocEntries toLowerCase (explodeSectionFiles D) none (P.getHeadingsList (P.parse D)) := by
    unfold explodeIndexContent generateIndexContentWithSubsections
    simp only
    cases hf : List.find? (fun h => h.level == 1) (P.getHeadingsList (P.parse D)) with
    | none => rw [hf] at hP1; simp at hP1
    | some mt =>
      rw [hf] at hP1
      simp only [Option.map_some', Option.some.injEq] at hP1
      simp only [hP1]
  have htoc : extractSectionFilesFromTOC P (P.parse (explodeIndexContent P D)) =
      (collectSections (splitLines D)).map tocEntryOf := by
    rw [hP5, hidx, extractLoop_tocHeader _ _ hTnl]
    unfold explodeSectionFiles
    rw [extractLoop_tocEntries _ _ (collectSections (splitLines D)) none [] [] hP2
        (fun s hs => sectionMapGet_section _ s hs) (fun s hs => (hsections s hs).1) hnames
        (fun s _ => by simp) hP3 (by simp)]
    simp
  have hadj : ∀ s ∈ collectSections (splitLines D),
      adjustHeadingLevels (sectionContent s) 1 = joinLines (sourceLines s) := by
    intro s hs
    exact adjustHeadingLevels_sectionContent s (headingOk_iff _ (hsections s hs).1).2.2
      (hsections s hs).2 (hnl s hs)
  have hloop := assembleLoop_sections _ _ ("# ".toList ++ T ++ ['\n']) hread hadj
  rw [hsrc] at hloop
  have hD : "# ".toList ++ T ++ ['\n'] ++ newlineBefore (first :: rest) = D := by
    conv_rhs => rw [← joinLines_splitLines D, hlines, joinLines_cons_eq]
    simp [newlineBefore]
  rw [hD] at hloop
  rw [hexp]
  unfold assembleDocument
  simp only [hreadIndex]
  cases hf : List.find? (fun h => h.level == 1)
      (P.getHeadingsList (P.parse (explodeIndexContent P D))) with
  | none => rw [hf] at hP4; simp at hP4
  | some mt =>
    rw [hf] at hP4
    simp only [Option.map_some', Option.some.injEq] at hP4
    simp only [htoc, hP4, List.length_map, hne, if_false, hloop]

/-- The round trip on the document of scenario A, with the parser modelled from
the specification. -/
theorem explode_assemble_roundtrip_witness :
    assembleDocument specParser (explodeDocumentTextBased specParser (some scenarioA) none).2 =
      (Outcome.returned, some scenarioA) :=
  (explode_assemble_roundtrip specParser scenarioA "Title".toList "## Alpha".toList
    ["Body A".toList, [], "### Sub".toList, "Nested".toList, [], "## Beta".toList,
      "Body B".toList, []] none
    (by decide) (by decide) (by decide) (by decide) (by decide) (by decide) (by decide)
    (by decide) (by decide) (by decide) (by decide) (by decide)).2

/-- C2: in the scan of `explodeDocumentTextBased`, a line inside a fenced code
block (an odd number of earlier fence delimiters) leaves `sections` as it is
and only appends itself to the current section, if there is one; and the
number of sections collected is the number of lines outside fenced code
blocks that start with `## `. -/
theorem fenced_lines_are_not_structural (content : JsString) :
    (∀ i, i < (splitLines content).length → insideFence (splitLines content) i = true →
      (stateBefore (splitLines content) (i + 1)).sections =
        (stateBefore (splitLines content) i).sections ∧
      (stateBefore (splitLines content) (i + 1)).currentSection =
        pushLine ((splitLines content).getD i [])
          (stateBefore (splitLines content) i).currentSection) ∧
    (collectSections (splitLines content)).length =
      ((List.range (splitLines content).length).filter
        (fun i => !insideFence (splitLines content) i &&
          startsWith ['#', '#', ' '] ((splitLines content).getD i []))).length := by
  constructor
  · intro i hi hin
    have inv := scanInv_stateBefore (splitLines content) i (by omega)
    rw [stateBefore_succ _ i hi]
    rcases scanStep_cases (splitLines content) i _ inv.code with
      ⟨_, e⟩ | ⟨hb, _⟩ | ⟨hb, _⟩
    · rw [e]; exact ⟨rfl, rfl⟩
    · simp [isBoundary, hin] at hb
    · simp [isBoundary, hin] at hb
  · have := congrArg List.length (collectSections_startLines (splitLines content))
    rw [List.length_map] at this
    exact this

/-- Witness of C2: the fenced line `## Fake` of a document with two sections. -/
theorem fenced_lines_are_not_structural_witness :
    (stateBefore (splitLines "## A\n```\n## Fake\n```\n## B".toList) (2 + 1)).sections =
      (stateBefore (splitLines "## A\n```\n## Fake\n```\n## B".toList) 2).sections ∧
    (stateBefore (splitLines "## A\n```\n## Fake\n```\n## B".toList) (2 + 1)).currentSection =
      pushLine ((splitLines "## A\n```\n## Fake\n```\n## B".toList).getD 2 [])
        (stateBefore (splitLines "## A\n```\n## Fake\n```\n## B".toList) 2).currentSection :=
  (fenced_lines_are_not_structural "## A\n```\n## Fake\n```\n## B".toList).1 2
    (by decide) (by decide)

/-- C3, refuted by the code: whatever the parser, the section file written for
`fencedDocument` holds the fenced line `## Fake Heading` with one hash only;
the `map` that lowers the body lines does not track code fences. -/
theorem explode_lowers_fenced_line (P : MarkdownTreeParser) :
    (splitLines fencedDocument)[4]? = some "## Fake Heading".toList ∧
    insideFence (splitLines fencedDocument) 4 = true ∧
    (explodeDocumentTextBased P (some fencedDocument) none).2.bind
      (fun dir => readFile dir "a.md".toList) =
        some "# A\n```\n# Fake Heading\n```".toList := by
  refine ⟨by decide, by decide, ?_⟩
  rfl

/-- C4, refuted by the code: a line of six hashes followed by whitespace comes
out of `adjustHeadingLevels(content, adjustment)` as it is, whatever the
adjustment and wherever the line stands; under the adjustment -1 it is
therefore not the line with five hashes, although `6 - 1` lies in `1..6`.  The
pattern `PATTERNS.HEADING_LEVEL_1_5` keeps level-6 lines from the adjustment. -/
theorem adjustHeadingLevels_keeps_level6 (content : JsString) (adjustment : Int) (i : Nat)
    (w : Char) (r : JsString)
    (hline : (splitLines content)[i]? = some (hashes 6 ++ w :: r))
    (hw : isJsWhitespace w = true) :
    (splitLines (adjustHeadingLevels content adjustment))[i]? = some (hashes 6 ++ w :: r) ∧
    (splitLines (adjustHeadingLevels content (-1)))[i]? ≠
      some (hashes ((6 : Int) + (-1)).toNat ++ w :: r) := by
  refine ⟨adjustHeadingLevels_level6_line content adjustment i w r hline hw, ?_⟩
  rw [adjustHeadingLevels_level6_line content (-1) i w r hline hw]
  intro e
  exact hashes_append_ne 6 5 w r hw (by decide) (Option.some.inj e)

/-- Witness of C4, refuted: the heading `###### six`, outside code fences, under
the adjustment -1. -/
theorem adjustHeadingLevels_keeps_level6_witness :
    insideFence (splitLines "###### six".toList) 0 = false ∧
    (1 ≤ (6 : Int) + (-1) ∧ (6 : Int) + (-1) ≤ 6) ∧
    (splitLines (adjustHeadingLevels "###### six".toList (-1)))[0]? =
      some (hashes 6 ++ ' ' :: "six".toList) ∧
    (splitLines (adjustHeadingLevels "###### six".toList (-1)))[0]? ≠
      some (hashes ((6 : Int) + (-1)).toNat ++ ' ' :: "six".toList) :=
  ⟨by decide, by decide,
    adjustHeadingLevels_keeps_level6 "###### six".toList (-1) 0 ' ' "six".toList
      (by decide) (by decide)⟩

/-- Two contents on which the adjustment does not shift a heading: a level-6
heading outside code fences is not lowered by the adjustment -1, although
6 - 1 lies in 1..6; and a level-1 heading whose text ends with a carriage
return is not raised by +1. -/
theorem adjustHeadingLevels_level6_down_counterexample :
    ((splitLines "###### six".toList)[0]? = some (hashes 6 ++ ' ' :: "six".toList) ∧
      insideFence (splitLines "###### six".toList) 0 = false ∧
      isJsWhitespace ' ' = true ∧ (1 ≤ (6 : Int) + (-1) ∧ (6 : Int) + (-1) ≤ 6) ∧
      (splitLines (adjustHeadingLevels "###### six".toList (-1)))[0]? =
        some (hashes 6 ++ ' ' :: "six".toList) ∧
      (splitLines (adjustHeadingLevels "###### six".toList (-1)))[0]? ≠
        some (hashes ((6 : Int) + (-1)).toNat ++ ' ' :: "six".toList)) ∧
    ((splitLines "# a\r".toList)[0]? = some (hashes 1 ++ ' ' :: "a\r".toList) ∧
      insideFence (splitLines "# a\r".toList) 0 = false ∧
      (splitLines (adjustHeadingLevels "# a\r".toList 1))[0]? ≠
        some (hashes ((1 : Int) + 1).toNat ++ ' ' :: "a\r".toList)) := by
  decide

/-- Levels 1 to 5: a line outside code fences made of `L` hashes, `1 ≤ L ≤ 5`,
then whitespace and a text without line terminator (a line that
`PATTERNS.HEADING_LEVEL_1_5` matches), comes out of
`adjustHeadingLevels(content, adjustment)` with `L + adjustment` hashes and the
same remainder, when `1 ≤ L + adjustment ≤ 6`. -/
theorem adjustHeadingLevels_shifts_heading (content : JsString) (adjustment : Int) (i L : Nat)
    (w : Char) (r : JsString)
    (hline : (splitLines content)[i]? = some (hashes L ++ w :: r))
    (houtside : insideFence (splitLines content) i = false)
    (hw : isJsWhitespace w = true)
    (hlt : ∀ c ∈ (w :: r).dropWhile isJsWhitespace, isLineTerminator c = false)
    (hL : 1 ≤ L ∧ L ≤ 5)
    (hnew : 1 ≤ (L : Int) + adjustment ∧ (L : Int) + adjustment ≤ 6) :
    (splitLines (adjustHeadingLevels content adjustment))[i]? =
      some (hashes ((L : Int) + adjustment).toNat ++ w :: r) := by
  rw [adjustHeadingLevels_line, hline]
  have hf : isFenceDelimiter (hashes L ++ w :: r) = false :=
    isFenceDelimiter_hashes_append _ _ hL.1
  simp only [Option.map_some', hf, houtside, Bool.or_self, Bool.false_eq_true, if_false]
  rw [adjustLine_of_heading adjustment L w r hw (by simpa using hlt) hL hnew]

/-- A level-3 heading lowered to level 2. -/
theorem adjustHeadingLevels_shifts_heading_witness :
    (splitLines (adjustHeadingLevels "intro\n### Sub\ttext".toList (-1)))[1]? =
      some (hashes ((3 : Int) + (-1)).toNat ++ ' ' :: "Sub\ttext".toList) :=
  adjustHeadingLevels_shifts_heading "intro\n### Sub\ttext".toList (-1) 1 3 ' ' "Sub\ttext".toList
    (by decide) (by decide) (by decide) (by decide) (by decide) (by decide)

/-- C5: `adjustHeadingLevels(content, +1)` returns every level-6 heading line
as it is, and `adjustHeadingLevels(content, -1)` every level-1 heading line;
a line that starts with at most six hashes still does after +1, and a line
that starts with a hash still does after -1. -/
theorem adjustHeadingLevels_clamps (content : JsString) (i : Nat) (line : JsString)
    (hline : (splitLines content)[i]? = some line) :
    ((∃ w r, line = hashes 6 ++ w :: r ∧ isJsWhitespace w = true) →
      (splitLines (adjustHeadingLevels content 1))[i]? = some line) ∧
    ((∃ w r, line = hashes 1 ++ w :: r ∧ isJsWhitespace w = true) →
      (splitLines (adjustHeadingLevels content (-1)))[i]? = some line) ∧
    (∃ up, (splitLines (adjustHeadingLevels content 1))[i]? = some up ∧
      (leadingHashes line ≤ 6 → leadingHashes up ≤ 6)) ∧
    (∃ down, (splitLines (adjustHeadingLevels content (-1)))[i]? = some down ∧
      (1 ≤ leadingHashes line → 1 ≤ leadingHashes down)) := by
  have key : ∀ δ : Int, (splitLines (adjustHeadingLevels content δ))[i]? = some line ∨
      (splitLines (adjustHeadingLevels content δ))[i]? = some (adjustLine δ line) := by
    intro δ
    rw [adjustHeadingLevels_line, hline]
    simp only [Option.map_some']
    split
    · exact Or.inl rfl
    · exact Or.inr rfl
  refine ⟨?_, ?_, ?_, ?_⟩
  · rintro ⟨w, r, rfl, hw⟩
    rcases key 1 with h | h
    · exact h
    · rw [h, adjustLine_of_not_match]
      rw [matchHeading_hashes _ _ _ _ _ hw, if_neg (by omega)]
  · rintro ⟨w, r, rfl, hw⟩
    rcases key (-1) with h | h
    · exact h
    · rw [h]
      rcases adjustLine_eq_or (-1) (hashes 1 ++ w :: r) with
        e | ⟨L, w', r', hl, hw', _, _, h6, _, _, _⟩
      · rw [e]
      · have := congrArg leadingHashes hl
        rw [leadingHashes_hashes _ _ _ hw, leadingHashes_hashes _ _ _ hw'] at this
        omega
  · rcases key 1 with h | h
    · exact ⟨line, h, id⟩
    · refine ⟨_, h, fun hle => ?_⟩
      rcases adjustLine_eq_or 1 line with e | ⟨L, w, r, _, hw, _, _, _, h6, _, e⟩
      · rw [e]; exact hle
      · rw [e, leadingHashes_hashes _ _ _ hw]; omega
  · rcases key (-1) with h | h
    · exact ⟨line, h, id⟩
    · refine ⟨_, h, fun hle => ?_⟩
      rcases adjustLine_eq_or (-1) line with e | ⟨L, w, r, _, hw, _, _, h1, _, _, e⟩
      · rw [e]; exact hle
      · rw [e, leadingHashes_hashes _ _ _ hw]; omega

/-- Witness of C5: a level-6 heading under +1 and a level-1 heading under -1. -/
theorem adjustHeadingLevels_clamps_witness :
    (splitLines (adjustHeadingLevels "###### six\n# one".toList 1))[0]? =
      some "###### six".toList ∧
    (splitLines (adjustHeadingLevels "###### six\n# one".toList (-1)))[1]? =
      some "# one".toList :=
  ⟨(adjustHeadingLevels_clamps "###### six\n# one".toList 0 "###### six".toList (by decide)).1
      ⟨' ', "six".toList, by decide, by decide⟩,
    (adjustHeadingLevels_clamps "###### six\n# one".toList 1 "# one".toList (by decide)).2.1
      ⟨' ', "one".toList, by decide, by decide⟩⟩

/-- C6, refuted by the code: a level-5 heading line outside code fences comes
back from `adjustHeadingLevels(adjustHeadingLevels(x, +1), -1)` with six hashes, so
that the result is not `x`: the first call raises the line to level 6, and the
pattern `PATTERNS.HEADING_LEVEL_1_5` keeps the second call from lowering it. -/
theorem adjust_up_down_raises_level5 (x : JsString) (i : Nat) (w : Char) (r : JsString)
    (hline : (splitLines x)[i]? = some (hashes 5 ++ w :: r))
    (houtside : insideFence (splitLines x) i = false)
    (hw : isJsWhitespace w = true)
    (hlt : ∀ c ∈ (w :: r).dropWhile isJsWhitespace, isLineTerminator c = false) :
    (splitLines (adjustHeadingLevels (adjustHeadingLevels x 1) (-1)))[i]? =
      some (hashes 6 ++ w :: r) ∧
    adjustHeadingLevels (adjustHeadingLevels x 1) (-1) ≠ x := by
  have hup : (splitLines (adjustHeadingLevels x 1))[i]? = some (hashes 6 ++ w :: r) := by
    rw [adjustHeadingLevels_line, hline]
    have hf : isFenceDelimiter (hashes 5 ++ w :: r) = false :=
      isFenceDelimiter_hashes_append _ _ (by decide)
    simp only [Option.map_some', hf, houtside, Bool.or_self, Bool.false_eq_true, if_false]
    rw [adjustLine_of_heading 1 5 w r hw (by simpa using hlt) ⟨by decide, by decide⟩
      ⟨by decide, by decide⟩]
    rfl
  have hdown := adjustHeadingLevels_level6_line (adjustHeadingLevels x 1) (-1) i w r hup hw
  refine ⟨hdown, fun e => ?_⟩
  rw [e, hline] at hdown
  exact hashes_append_ne 5 6 w r hw (by decide) (Option.some.inj hdown)

/-- Witness of C6, refuted: the content `##### five`, whose only heading has
level 5. -/
theorem adjust_up_down_raises_level5_witness :
    (∀ line ∈ splitLines "##### five".toList,
      isHeading line = true → 1 ≤ leadingHashes line ∧ leadingHashes line ≤ 5) ∧
    (splitLines (adjustHeadingLevels (adjustHeadingLevels "##### five".toList 1) (-1)))[0]? =
      some (hashes 6 ++ ' ' :: "five".toList) ∧
    adjustHeadingLevels (adjustHeadingLevels "##### five".toList 1) (-1) ≠
      "##### five".toList :=
  ⟨by decide,
    adjust_up_down_raises_level5 "##### five".toList 0 ' ' "five".toList
      (by decide) (by decide) (by decide) (by decide)⟩

/-- The content `##### five`: its only heading has level 5, yet raising and then
lowering the content gives `###### five`. -/
theorem adjust_up_down_level5_counterexample :
    (∀ line ∈ splitLines "##### five".toList,
      isHeading line = true → 1 ≤ leadingHashes line ∧ leadingHashes line ≤ 5) ∧
    adjustHeadingLevels (adjustHeadingLevels "##### five".toList 1) (-1) =
      "###### five".toList ∧
    adjustHeadingLevels (adjustHeadingLevels "##### five".toList 1) (-1) ≠
      "##### five".toList := by
  decide

/-- Where raising and lowering give the content back: for every content none
of whose heading lines outside code fences has level 5,
`adjustHeadingLevels(adjustHeadingLevels(x, +1), -1)` is `x`. -/
theorem adjust_up_down_roundtrip (x : JsString)
    (h : ∀ i, i < (splitLines x).length → insideFence (splitLines x) i = false →
      isHeading ((splitLines x).getD i []) = true →
      leadingHashes ((splitLines x).getD i []) ≠ 5) :
    adjustHeadingLevels (adjustHeadingLevels x 1) (-1) = x := by
  have h1 : splitLines (adjustHeadingLevels x 1) = adjustLines 1 false (splitLines x) :=
    splitLines_adjustHeadingLevels x 1
  unfold adjustHeadingLevels at h1 ⊢
  rw [h1, adjustLines_down_up false _ ?_, joinLines_splitLines]
  intro i line hl hin hh
  have hi : i < (splitLines x).length := by
    by_contra hc
    rw [List.getElem?_eq_none (by omega)] at hl
    exact absurd hl (by simp)
  have hd : (splitLines x).getD i [] = line := by
    rw [List.getD_eq_getElem?_getD, hl]; rfl
  have := h i hi (by simpa using hin)
  rw [hd] at this
  exact this hh

/-- Headings of levels 1, 4 and 6, and a level-5 heading inside a code fence. -/
theorem adjust_up_down_roundtrip_witness :
    adjustHeadingLevels
      (adjustHeadingLevels "# a\n#### b\n```\n##### c\n```\n###### d".toList 1) (-1) =
      "# a\n#### b\n```\n##### c\n```\n###### d".toList :=
  adjust_up_down_roundtrip "# a\n#### b\n```\n##### c\n```\n###### d".toList (by decide)

/-- C7: `adjustHeadingLevels` returns the content with as many lines, and
returns at its place, unchanged, every line that is a fence delimiter, that
lies inside a fenced code block, or that is not a heading. -/
theorem adjustHeadingLevels_frame (content : JsString) (adjustment : Int) (i : Nat)
    (line : JsString) (hline : (splitLines content)[i]? = some line)
    (h : isFenceDelimiter line = true ∨ insideFence (splitLines content) i = true ∨
      isHeading line = false) :
    (splitLines (adjustHeadingLevels content adjustment))[i]? = some line ∧
    (splitLines (adjustHeadingLevels content adjustment)).length =
      (splitLines content).length := by
  refine ⟨?_, by rw [splitLines_adjustHeadingLevels, adjustLines_length]⟩
  rw [adjustHeadingLevels_line, hline]
  simp only [Option.map_some', Option.some.injEq]
  split
  · rfl
  · next hc =>
    simp only [Bool.or_eq_true, not_or] at hc
    rcases h with h | h | h
    · exact absurd h hc.1
    · exact absurd h hc.2
    · apply adjustLine_of_not_match
      apply matchHeading_mono 1 5 1 6 _ (le_refl _) (by omega)
      unfold isHeading at h
      simpa using h

/-- Witness of C7: hashes with no whitespace after them. -/
theorem adjustHeadingLevels_frame_witness :
    (splitLines (adjustHeadingLevels "## a\n##nospace".toList 1))[1]? =
      some "##nospace".toList ∧
    (splitLines (adjustHeadingLevels "## a\n##nospace".toList 1)).length =
      (splitLines "## a\n##nospace".toList).length :=
  adjustHeadingLevels_frame "## a\n##nospace".toList 1 1 "##nospace".toList (by decide)
    (Or.inr (Or.inr (by decide)))

/-- Counterexample of C8 as stated: the section of `# T\n\n## A` has an empty
body, and the content written for it is `# A`, with no newline after the
heading text. -/
theorem empty_section_content_counterexample :
    (collectSections (splitLines "# T\n\n## A".toList)).map (·.lines) = [[]] ∧
    (explodeDocumentTextBased specParser (some "# T\n\n## A".toList) none).2.bind
      (fun dir => readFile dir "a.md".toList) = some "# A".toList ∧
    (explodeDocumentTextBased specParser (some "# T\n\n## A".toList) none).2.bind
      (fun dir => readFile dir "a.md".toList) ≠
        some ("# ".toList ++ "A".toList ++ '\n' :: joinLines ([] : List JsString)) := by
  decide

/-- C8, amended: for every document and every section explode collects from
it, the content written for the section is made of one line more than the
body, joined by newlines: the first line is `# ` and the heading text, and it
is the whole content when the body is empty; body line `k` is the line
`startLine + 1 + k` of the document, and the line at its place in the content is
that body line when `/^(#{2,6})(\s+.*)$/` does not match it, and, when the body
line is `L` hashes, `2 ≤ L ≤ 6`, whitespace and a text without line terminator
and lies outside the code fences of the document, the same line with `L - 1`
hashes.  When every file name is at most `NAME_MAX` bytes long, no
later section has the file name of the section and that name is not
`index.md`, the command returns and the file of the section holds that
content. -/
theorem section_file_content (P : MarkdownTreeParser) (content : JsString)
    (outputDir : Option Dir) (s : Section) (before after : List Section)
    (hs : collectSections (splitLines content) = before ++ s :: after) :
    (splitLines (sectionContent s)).length = s.lines.length + 1 ∧
    joinLines (splitLines (sectionContent s)) = sectionContent s ∧
    (splitLines (sectionContent s))[0]? = some ("# ".toList ++ s.headingText) ∧
    (s.lines = [] → sectionContent s = "# ".toList ++ s.headingText) ∧
    (∀ (k : Nat) (line : JsString), s.lines[k]? = some line →
      (splitLines content)[s.startLine + 1 + k]? = some line ∧
      (matchHeading 2 6 line = none →
        (splitLines (sectionContent s))[k + 1]? = some line) ∧
      (∀ (L : Nat) (w : Char) (r : JsString), line = hashes L ++ w :: r → 2 ≤ L → L ≤ 6 →
        isJsWhitespace w = true →
        (∀ c ∈ (w :: r).dropWhile isJsWhitespace, isLineTerminator c = false) →
        insideFence (splitLines content) (s.startLine + 1 + k) = false →
        (splitLines (sectionContent s))[k + 1]? = some (hashes (L - 1) ++ w :: r))) ∧
    ((∀ t ∈ collectSections (splitLines content), utf8Length (sectionFilename t) ≤ NAME_MAX) →
      (∀ t ∈ after, sectionFilename t ≠ sectionFilename s) →
      sectionFilename s ≠ "index.md".toList →
      (explodeDocumentTextBased P (some content) outputDir).1 = Outcome.returned ∧
      (explodeDocumentTextBased P (some content) outputDir).2.bind
        (fun dir => readFile dir (sectionFilename s)) = some (sectionContent s)) := by
  have hmem : s ∈ collectSections (splitLines content) := by rw [hs]; simp
  have hC := splitLines_sectionContent (splitLines content) (splitLines_mem_noNewline content)
    s hmem
  refine ⟨?_, joinLines_splitLines _, ?_, ?_, ?_, ?_⟩
  · rw [hC]; simp
  · rw [hC, List.getElem?_cons_zero]; rfl
  · intro hl
    unfold sectionContent
    rw [hl]
    simp [joinLines]
  · intro k line hline
    have hk : (splitLines (sectionContent s))[k + 1]? = some (decrementLine line) := by
      rw [hC, List.getElem?_cons_succ, List.getElem?_map, hline]
      rfl
    refine ⟨?_, fun hm => ?_, fun L w r hl h2 h6 hw hlt _ => ?_⟩
    · obtain ⟨j, hspan, _, _⟩ := collectSections_spans (splitLines content) s hmem
      obtain ⟨hlt, hget⟩ := List.getElem?_eq_some_iff.1 hline
      obtain ⟨hkj, hbody, _⟩ := section_body_line _ s j hspan k hlt
      have hj : s.startLine + 1 + k < (splitLines content).length := by
        have := hspan.2.1
        omega
      rw [List.getD_eq_getElem?_getD, List.getD_eq_getElem?_getD, hline,
        List.getElem?_eq_getElem hj] at hbody
      rw [List.getElem?_eq_getElem hj]
      exact congrArg some (Eq.symm hbody)
    · rw [hk]
      unfold decrementLine
      rw [hm]
    · rw [hk, hl]
      unfold decrementLine
      rw [matchHeading_hashes _ _ _ _ _ hw, if_pos ⟨h2, h6, by simpa using hlt⟩]
      obtain ⟨m, rfl⟩ : ∃ m, L = m + 1 := ⟨L - 1, by omega⟩
      simp [hashes, List.replicate_succ]
  · intro hshort hafter hidx
    have hne : (collectSections (splitLines content)).length ≠ 0 := by
      rw [hs]; simp
    rw [explodeDocumentTextBased_of_short P content outputDir hne hshort]
    refine ⟨rfl, ?_⟩
    rw [Option.some_bind, readFile_putFile_other _ _ _ _ (fun e => hidx e.symm), hs,
      putSections_append, putSections, readFile_putSections_other _ _ _ hafter,
      readFile_putFile_same]

/-- Witness of C8, amended: the first of two sections, with a sub-heading, a
fence and a line that is no heading. -/
theorem section_file_content_witness :
    (splitLines (sectionContent ⟨"A".toList, 0, some 4, ["### x".toList, "```".toList,
      "#a".toList, "```".toList]⟩))[1]? = some (hashes (3 - 1) ++ ' ' :: "x".toList) ∧
    (splitLines (sectionContent ⟨"A".toList, 0, some 4, ["### x".toList, "```".toList,
      "#a".toList, "```".toList]⟩))[3]? = some "#a".toList ∧
    (explodeDocumentTextBased specParser (some "## A\n### x\n```\n#a\n```\n## B".toList) none).2.bind
      (fun dir => readFile dir "a.md".toList) = some "# A\n## x\n```\n#a\n```".toList :=
  ⟨((section_file_content specParser "## A\n### x\n```\n#a\n```\n## B".toList none
      ⟨"A".toList, 0, some 4, ["### x".toList, "```".toList, "#a".toList, "```".toList]⟩ []
      [⟨"B".toList, 5, some 5, []⟩] (by decide)).2.2.2.2.1 0 "### x".toList (by decide)).2.2
      3 ' ' "x".toList (by decide) (by decide) (by decide) (by decide) (by decide) (by decide),
    ((section_file_content specParser "## A\n### x\n```\n#a\n```\n## B".toList none
      ⟨"A".toList, 0, some 4, ["### x".toList, "```".toList, "#a".toList, "```".toList]⟩ []
      [⟨"B".toList, 5, some 5, []⟩] (by decide)).2.2.2.2.1 2 "#a".toList (by decide)).2.1
      (by decide),
    ((section_file_content specParser "## A\n### x\n```\n#a\n```\n## B".toList none
      ⟨"A".toList, 0, some 4, ["### x".toList, "```".toList, "#a".toList, "```".toList]⟩ []
      [⟨"B".toList, 5, some 5, []⟩] (by decide)).2.2.2.2.2 (by decide) (by decide)
      (by decide)).2⟩

/-- Counterexample of C9 as stated: the files written for scenario A do not
have the empty line the claim puts after their first line. -/
theorem scenarioA_counterexample :
    (explodeDocumentTextBased specParser (some scenarioA) none).2.bind
      (fun dir => readFile dir "alpha.md".toList) ≠
        some "# Alpha\n\nBody A\n\n## Sub\nNested\n".toList ∧
    (explodeDocumentTextBased specParser (some scenarioA) none).2.bind
      (fun dir => readFile dir "beta.md".toList) ≠ some "# Beta\n\nBody B\n".toList := by
  decide

/-- C9, amended: on the document of scenario A, with a parser that lists its
headings as Title, Alpha, Sub and Beta, explode into a new directory writes
`alpha.md` with `# Alpha\nBody A\n\n## Sub\nNested\n`, `beta.md` with
`# Beta\nBody B\n`, and an `index.md` that links both files and has a
sub-entry for `Sub`. -/
theorem scenarioA_explode (P : MarkdownTreeParser)
    (hP : P.getHeadingsList (P.parse scenarioA) =
      [⟨1, "Title".toList⟩, ⟨2, "Alpha".toList⟩, ⟨3, "Sub".toList⟩, ⟨2, "Beta".toList⟩]) :
    explodeDocumentTextBased P (some scenarioA) none =
      (Outcome.returned, some
        [("alpha.md".toList, "# Alpha\nBody A\n\n## Sub\nNested\n".toList),
         ("beta.md".toList, "# Beta\nBody B\n".toList),
         ("index.md".toList,
          ("# Title\n\n## Table of Contents\n\n- [Title](#table-of-contents)\n" ++
           "  - [Alpha](./alpha.md)\n    - [Sub](./alpha.md#sub)\n" ++
           "  - [Beta](./beta.md)\n").toList)]) := by
  unfold explodeDocumentTextBased explodeIndexContent generateIndexContentWithSubsections
  simp only [hP]
  rfl

/-- Witness of C9, amended: the parser modelled from the specification. -/
theorem scenarioA_explode_witness :
    explodeDocumentTextBased specParser (some scenarioA) none =
      (Outcome.returned, some
        [("alpha.md".toList, "# Alpha\nBody A\n\n## Sub\nNested\n".toList),
         ("beta.md".toList, "# Beta\nBody B\n".toList),
         ("index.md".toList,
          ("# Title\n\n## Table of Contents\n\n- [Title](#table-of-contents)\n" ++
           "  - [Alpha](./alpha.md)\n    - [Sub](./alpha.md#sub)\n" ++
           "  - [Beta](./beta.md)\n").toList)]) :=
  scenarioA_explode specParser (by decide)

/-- C10: every section collected by `explodeDocumentTextBased` starts at a
line outside code fences that is `## ` followed by its heading text, and its
body is, in order and unmodified, the lines after that line up to, and
excluding, the next line outside code fences that starts with `# ` or `## `,
or up to the end of the document; the sections are collected in document
order, one for each such `## ` line; a line before the first of these lines,
or between a `# ` line outside code fences and the next of them, lies in no
section. -/
theorem sections_are_runs_between_boundaries (content : JsString) :
    (∀ s ∈ collectSections (splitLines content), ∃ j,
      SpansUpTo (splitLines content) s j ∧
      (j < (splitLines content).length → isBoundary (splitLines content) j = true) ∧
      s.endLine = some ((j : Int) - 1)) ∧
    (collectSections (splitLines content)).map (·.startLine) =
      (List.range (splitLines content).length).filter (isSectionStart (splitLines content)) ∧
    (∀ k, (∀ i, i ≤ k → isSectionStart (splitLines content) i = false) →
      ∀ s ∈ collectSections (splitLines content), ¬ s.covers k) ∧
    (∀ b k, b ≤ k → insideFence (splitLines content) b = false →
      startsWith ['#', ' '] ((splitLines content).getD b []) = true →
      (∀ i, b < i → i ≤ k → isSectionStart (splitLines content) i = false) →
      ∀ s ∈ collectSections (splitLines content), ¬ s.covers k) := by
  refine ⟨collectSections_spans _, collectSections_startLines _, ?_, ?_⟩
  · intro k hk s hs hcov
    obtain ⟨j, ⟨_, _, hstart, _⟩, _, _⟩ := collectSections_spans _ s hs
    rw [hk s.startLine hcov.1] at hstart
    exact absurd hstart (by simp)
  · intro b k hbk hout hh1 hno s hs hcov
    obtain ⟨j, ⟨h1, h2, hstart, h4, h5, h6⟩, _, hend⟩ := collectSections_spans _ s hs
    obtain ⟨hsk, e, he, hke⟩ := hcov
    rw [hend] at he
    have hkj : k < j := by
      have := Option.some.inj he
      omega
    have hbnd : isBoundary (splitLines content) b = true := by
      unfold isBoundary
      rw [hout, hh1]; rfl
    rcases Nat.lt_trichotomy s.startLine b with hlt | heq | hgt
    · rw [h6 b hlt (by omega)] at hbnd
      exact absurd hbnd (by simp)
    · rw [heq] at hstart
      simp only [isSectionStart, Bool.and_eq_true] at hstart
      rw [not_h2_of_h1 _ hh1] at hstart
      exact absurd hstart.2 (by simp)
    · rw [hno s.startLine hgt hsk] at hstart
      exact absurd hstart (by simp)

/-- Witness of C10: the first section of a document with a second title line. -/
theorem sections_are_runs_between_boundaries_witness :
    ∃ j, SpansUpTo (splitLines "## A\nx\n# T\ny\n## B".toList)
        ⟨"A".toList, 0, some 1, ["x".toList]⟩ j ∧
      (j < (splitLines "## A\nx\n# T\ny\n## B".toList).length →
        isBoundary (splitLines "## A\nx\n# T\ny\n## B".toList) j = true) ∧
      (⟨"A".toList, 0, some 1, ["x".toList]⟩ : Section).endLine = some ((j : Int) - 1) :=
  (sections_are_runs_between_boundaries "## A\nx\n# T\ny\n## B".toList).1
    ⟨"A".toList, 0, some 1, ["x".toList]⟩ (by decide)

/-- Counterexample of C11 as stated: the body line `##\tB` of `tabHeadingDocument`
does not start a section, and is lowered to `#\tB`; the content written for the
section `A` has two lines outside code fences that are level-1 headings. -/
theorem section_content_two_titles_counterexample :
    (∀ P : MarkdownTreeParser,
      (explodeDocumentTextBased P (some tabHeadingDocument) none).2.bind
        (fun dir => readFile dir "a.md".toList) = some "# A\n#\tB".toList) ∧
    splitLines "# A\n#\tB".toList = ["# A".toList, "#\tB".toList] ∧
    insideFence (splitLines "# A\n#\tB".toList) 1 = false ∧
    isLevel1Heading "# A".toList = true ∧ isLevel1Heading "#\tB".toList = true :=
  ⟨fun _ => rfl, by decide, by decide, by decide, by decide⟩

/-- C11, amended: for every document and every section that explode collects
from it, the lines of the content written for the section are `# ` and the
heading text, then the lowered body lines; no line after the first that lies
outside the code fences of the content starts with `# `, and such a line is a
level-1 heading only when its line in the document is one or two hashes
followed by whitespace that is not a space; no line has more hashes at its
start than its line in the document, and a line that is a heading has at most
six. -/
theorem section_content_headings (D : JsString) (s : Section)
    (hs : s ∈ collectSections (splitLines D)) :
    splitLines (sectionContent s) =
      ("# ".toList ++ s.headingText) :: s.lines.map decrementLine ∧
    (∀ k, k < s.lines.length → insideFence (splitLines (sectionContent s)) (k + 1) = false →
      startsWith "# ".toList ((splitLines (sectionContent s)).getD (k + 1) []) = false ∧
      (isLevel1Heading ((splitLines (sectionContent s)).getD (k + 1) []) = true →
        ∃ L w r, s.lines.getD k [] = hashes L ++ w :: r ∧ (L = 1 ∨ L = 2) ∧
          isJsWhitespace w = true ∧ w ≠ ' ')) ∧
    (∀ k, k < s.lines.length →
      leadingHashes ((splitLines (sectionContent s)).getD (k + 1) []) ≤
        leadingHashes (s.lines.getD k [])) ∧
    (∀ l ∈ splitLines (sectionContent s), isHeading l = true → leadingHashes l ≤ 6) := by
  have hC := splitLines_sectionContent (splitLines D) (splitLines_mem_noNewline D) s hs
  have hget : ∀ k, k < s.lines.length →
      (splitLines (sectionContent s)).getD (k + 1) [] = decrementLine (s.lines.getD k []) := by
    intro k hk
    rw [hC, List.getD_eq_getElem?_getD, List.getD_eq_getElem?_getD, List.getElem?_cons_succ,
      List.getElem?_map, List.getElem?_eq_getElem hk]
    rfl
  refine ⟨hC, ?_, ?_, ?_⟩
  · intro k hk hout
    obtain ⟨j, hspan, _, _⟩ := collectSections_spans (splitLines D) s hs
    obtain ⟨hkj, hline, hfence⟩ := section_body_line _ s j hspan k hk
    have hin : insideFence s.lines k = false := by
      rw [hC, insideFence_cons_succ, insideFence_map_decrementLine] at hout
      have hf : isFenceDelimiter (['#', ' '] ++ s.headingText) = false := isFenceDelimiter_hash _
      rw [hf, Bool.false_xor] at hout
      exact hout
    have hb := hspan.2.2.2.2.2 (s.startLine + 1 + k) (by omega) hkj
    unfold isBoundary at hb
    rw [hfence, hin, ← hline] at hb
    simp only [Bool.not_false, Bool.true_and, Bool.or_eq_false_iff] at hb
    rw [hget k hk]
    constructor
    · cases hsw : startsWith "# ".toList (decrementLine (s.lines.getD k [])) with
      | false => rfl
      | true =>
        rcases startsWith_h1_decrementLine _ hsw with h | h
        · rw [hb.1] at h; exact absurd h (by simp)
        · rw [hb.2] at h; exact absurd h (by simp)
    · intro h1
      obtain ⟨L, w, r, e, hL, hw⟩ := isLevel1Heading_decrementLine _ h1
      refine ⟨L, w, r, e, hL, hw, ?_⟩
      rintro rfl
      rw [e] at hb
      rcases hL with rfl | rfl
      · have := (startsWith_h1_hashes 1 ' ' r hw).2 ⟨rfl, rfl⟩
        rw [hb.1] at this; exact absurd this (by simp)
      · have := (startsWith_h2_hashes 2 ' ' r hw).2 ⟨rfl, rfl⟩
        rw [hb.2] at this; exact absurd this (by simp)
  · intro k hk
    rw [hget k hk]
    exact leadingHashes_decrementLine _
  · intro l _ hl
    exact (leadingHashes_of_isHeading l hl).2

theorem section_content_headings_witness :
    splitLines (sectionContent ⟨"A".toList, 0, some 1, ["### x".toList]⟩) =
      ["# A".toList, "## x".toList] ∧
    startsWith "# ".toList
      ((splitLines (sectionContent ⟨"A".toList, 0, some 1, ["### x".toList]⟩)).getD 1 []) = false :=
  ⟨(section_content_headings "## A\n### x\n## B".toList
      ⟨"A".toList, 0, some 1, ["### x".toList]⟩ (by decide)).1,
    ((section_content_headings "## A\n### x\n## B".toList
      ⟨"A".toList, 0, some 1, ["### x".toList]⟩ (by decide)).2.1 0 (by decide) (by decide)).1⟩

/-- C12: for an index that is readable, whose first level-1 heading has the
text `T` and whose section references are `f1..fn` with `n ≥ 1`, all files
readable, `assembleDocument` writes `# T` and a newline followed, for `i = 1..n` in
that order, by a newline and `adjustHeadingLevels(content of fi, +1)`, and
nothing else. -/
theorem assembleDocument_output (P : MarkdownTreeParser) (dir : Dir) (index T : JsString)
    (fs : List TocEntry) (contents : List JsString)
    (hindex : readFile dir "index.md".toList = some index)
    (htitle : ((P.getHeadingsList (P.parse index)).find? (fun h => h.level == 1)).map (·.text) =
      some T)
    (hrefs : extractSectionFilesFromTOC P (P.parse index) = fs) (hne : fs ≠ [])
    (hread : fs.map (fun f => readFile dir f.filename) = contents.map some) :
    assembleDocument P (some dir) =
      (Outcome.returned,
        some ("# ".toList ++ T ++ ['\n'] ++
          (contents.map (fun c => '\n' :: adjustHeadingLevels c 1)).flatten)) := by
  unfold assembleDocument
  simp only [hindex]
  cases hf : List.find? (fun h => h.level == 1) (P.getHeadingsList (P.parse index)) with
  | none => rw [hf] at htitle; simp at htitle
  | some mt =>
    rw [hf] at htitle
    simp only [Option.map_some', Option.some.injEq] at htitle
    simp only [hrefs]
    rw [if_neg (fun h0 => hne (List.length_eq_zero.1 h0)), htitle,
      assembleLoop_contents dir fs contents _ hread]

theorem assembleDocument_output_witness :
    assembleDocument specParser
        (some [("index.md".toList, "# T\n\n  - [A](./a.md)\n  - [B](./b.md)\n".toList),
          ("a.md".toList, "# A\n## x".toList), ("b.md".toList, "# B\n".toList)]) =
      (Outcome.returned, some "# T\n\n## A\n### x\n## B\n".toList) :=
  assembleDocument_output specParser
    [("index.md".toList, "# T\n\n  - [A](./a.md)\n  - [B](./b.md)\n".toList),
      ("a.md".toList, "# A\n## x".toList), ("b.md".toList, "# B\n".toList)]
    "# T\n\n  - [A](./a.md)\n  - [B](./b.md)\n".toList "T".toList
    [{ filename := "a.md".toList, title := "A".toList },
      { filename := "b.md".toList, title := "B".toList }]
    ["# A\n## x".toList, "# B\n".toList]
    (by decide) (by decide) (by decide) (by decide) (by decide)

/-- C13: the file names `extractSectionFilesFromTOC` returns are the section
references of the lines of the index, each once, in the order of its first
line; a line gives a section reference exactly when it begins with two spaces,
`-` or `*`, a space and `[`, and contains a link `[text](./filename)` or
`[text](./filename#anchor)`, and the reference is the file name of the first such
link; a line that does not begin with a space, or begins with four spaces,
gives none. -/
theorem extractSectionFilesFromTOC_references (P : MarkdownTreeParser) (tree : P.Tree) :
    (extractSectionFilesFromTOC P tree).map (·.filename) =
      firstOccurrences ((splitLines (P.stringify tree)).filterMap sectionReference) ∧
    (∀ lines : List JsString, (extractLoop [] [] lines).map (·.filename) =
      firstOccurrences (lines.filterMap sectionReference)) ∧
    (∀ line file, sectionReference line = some file ↔
      BeginsLevel2Item line ∧ ∃ text, LeftmostLink line text file) ∧
    (∀ line, startsWith " ".toList line = false ∨ startsWith "    ".toList line = true →
      sectionReference line = none) := by
  have h : ∀ lines : List JsString, (extractLoop [] [] lines).map (·.filename) =
      firstOccurrences (lines.filterMap sectionReference) := by
    intro lines
    rw [extractLoop_filenames]
    simp
  exact ⟨h _, h, sectionReference_iff,
    fun line hl => sectionReference_of_not_level2 line (isLevel2TocItem_of_indent line hl)⟩

theorem extractSectionFilesFromTOC_references_witness :
    (extractSectionFilesFromTOC specParser
        "# T\n\n- [T](#toc)\n  - [A](./a.md)\n    - [B](./b.md)\n  * [C](./c.md#x)\n  - [A](./a.md)\n".toList).map
        (·.filename) = ["a.md".toList, "c.md".toList] ∧
      sectionReference "    - [B](./b.md)".toList = none :=
  ⟨(extractSectionFilesFromTOC_references specParser
      "# T\n\n- [T](#toc)\n  - [A](./a.md)\n    - [B](./b.md)\n  * [C](./c.md#x)\n  - [A](./a.md)\n".toList).1.trans
      (by decide),
    (extractSectionFilesFromTOC_references specParser []).2.2.2 "    - [B](./b.md)".toList
      (Or.inr (by decide))⟩

/-- Counterexample of C14 as stated: the level-2 headings of `twinDocument` are
`A` and `A`; the index lists two links to `a.md`, and for no parser does
`extractSectionFilesFromTOC` return `a.md` twice: with the parser modelled from the
specification it returns `a.md` once. -/
theorem index_references_twin_counterexample :
    (collectSections (splitLines twinDocument)).map (·.headingText) = ["A".toList, "A".toList] ∧
    (extractSectionFilesFromTOC specParser
      (specParser.parse (explodeIndexContent specParser twinDocument))).map (·.filename) =
        ["a.md".toList] ∧
    (∀ P : MarkdownTreeParser,
      (extractSectionFilesFromTOC P (P.parse (explodeIndexContent P twinDocument))).map
        (·.filename) ≠
        (collectSections (splitLines twinDocument)).map
          (fun s => sanitizeText s.headingText ++ ".md".toList)) := by
  refine ⟨by decide, by decide, ?_⟩
  intro P heq
  have hn : ((extractSectionFilesFromTOC P (P.parse (explodeIndexContent P twinDocument))).map
      (·.filename)).Nodup := by
    unfold extractSectionFilesFromTOC
    rw [extractLoop_filenames]
    simp only [List.map_nil, List.nil_append]
    exact (firstOccurrences_nodup _).filter _
  rw [heq] at hn
  exact absurd hn (by decide)

/-- C14, amended: let the headings `h1..hn` of the sections of a document be
non-empty and hold no `]`, and the file names `sanitizeText(hi).md` be pairwise
different; let the parser list `h1..hn` as the level-2 headings of the
document, no heading text with a newline, and re-serialise the index so that
the section references read from it are those of its lines.  Then the
two-space-indented items of the index explode generates are the lines
`  - [hi](./sanitizeText(hi).md)`, in that order, and `extractSectionFilesFromTOC`
applied to that index returns `sanitizeText(h1).md, ..., sanitizeText(hn).md` in
that order. -/
theorem index_lists_sections_in_order (P : MarkdownTreeParser) (D : JsString)
    (hok : ∀ s ∈ collectSections (splitLines D), s.headingText ≠ [] ∧ ']' ∉ s.headingText)
    (hnames : ((collectSections (splitLines D)).map sectionFilename).Nodup)
    (hP2 : ((P.getHeadingsList (P.parse D)).filter (fun h => h.level == 2)).map (·.text) =
      (collectSections (splitLines D)).map (·.headingText))
    (hP3 : ∀ h ∈ P.getHeadingsList (P.parse D), '\n' ∉ h.text)
    (hP5 : extractSectionFilesFromTOC P (P.parse (explodeIndexContent P D)) =
      extractLoop [] [] (splitLines (explodeIndexContent P D))) :
    (splitLines (explodeIndexContent P D)).filter isLevel2TocItem =
      (collectSections (splitLines D)).map (fun s =>
        "  - [".toList ++ s.headingText ++ "](./".toList ++ sanitizeText s.headingText ++
          ".md)".toList) ∧
    (extractSectionFilesFromTOC P (P.parse (explodeIndexContent P D))).map (·.filename) =
      (collectSections (splitLines D)).map (fun s => sanitizeText s.headingText ++ ".md".toList) := by
  have hlines := explodeIndexContent_lines P D hP2 hP3
  constructor
  · rw [hlines]
    apply List.map_congr_left
    intro s _
    simp [level2Line, mdLink, sectionFilename, sanitizeFilename]
  · rw [hP5, extractLoop_filenames, filterMap_sectionReference_filter, hlines,
      filterMap_map_of_some sectionReference _ sectionFilename _ (fun s hs =>
        sectionReference_level2Line _ _ (hok s hs).1 (hok s hs).2 (sectionFilename_ne_nil s)
          (fun c hc => ⟨(mem_sectionFilename s c hc).1, (mem_sectionFilename s c hc).2.1⟩)),
      firstOccurrences_of_nodup _ hnames]
    simp only [List.map_nil, List.nil_append]
    rw [List.filter_eq_self.mpr (by simp)]
    rfl

theorem index_lists_sections_in_order_witness :
    (splitLines (explodeIndexContent specParser
        "# T\n\n## Intro\na\n## Install\nb\n## FAQ\nc".toList)).filter isLevel2TocItem =
      (collectSections (splitLines "# T\n\n## Intro\na\n## Install\nb\n## FAQ\nc".toList)).map
        (fun s => "  - [".toList ++ s.headingText ++ "](./".toList ++ sanitizeText s.headingText ++
          ".md)".toList) ∧
    (extractSectionFilesFromTOC specParser (specParser.parse (explodeIndexContent specParser
        "# T\n\n## Intro\na\n## Install\nb\n## FAQ\nc".toList))).map (·.filename) =
      (collectSections (splitLines "# T\n\n## Intro\na\n## Install\nb\n## FAQ\nc".toList)).map
        (fun s => sanitizeText s.headingText ++ ".md".toList) :=
  index_lists_sections_in_order specParser "# T\n\n## Intro\na\n## Install\nb\n## FAQ\nc".toList
    (by decide) (by decide) (by decide) (by decide) rfl

/-- C15: when the first level-1 heading of the heading list has the text `T`,
`generateIndexContentWithSubsections` returns
`# T\n\n## Table of Contents\n\n- [T](#table-of-contents)\n` followed, in document
order and with nothing else, by the lines of the headings, each with a newline
after it: for a level-2 heading the line `  - [text](./file)` when it has a
section file (and `  - [text](#anchor)` when it has none), and for a heading of
level `k > 2` whose nearest level-2 heading before it has a section file the
line of `2·(k−1)` spaces and `- [text](./file#anchor)`, with anchor =
`sanitizeText(text)`.  A heading has the section file that `sectionMap` holds for
its lower-case text; the statement holds whatever function `lower` stands for
`String.prototype.toLowerCase`. -/
theorem generateIndexContentWithSubsections_lines (lower : JsString → JsString)
    (P : MarkdownTreeParser) (tree : P.Tree) (sectionFiles : List SectionFile) (T : JsString)
    (hT : ((P.getHeadingsList tree).find? (fun h => h.level == 1)).map (·.text) = some T) :
    generateIndexContentWithSubsections lower P tree sectionFiles =
      "# ".toList ++ T ++ "\n\n## Table of Contents\n\n- [".toList ++ T ++
        "](#table-of-contents)\n".toList ++
        newlineAfter (specTocLines lower sectionFiles [] (P.getHeadingsList tree)) := by
  unfold generateIndexContentWithSubsections
  simp only
  cases hf : List.find? (fun h => h.level == 1) (P.getHeadingsList tree) with
  | none => rw [hf] at hT; simp at hT
  | some mt =>
    rw [hf] at hT
    simp only [Option.map_some', Option.some.injEq] at hT
    simp only [hT]
    have h := tocEntries_spec lower sectionFiles [] (P.getHeadingsList tree)
    have hp : parentFile lower sectionFiles [] = none := rfl
    rw [hp] at h
    rw [h]
    simp [tocHeader, mdLink]

/-- Witness of C15: the headings of scenario A with the files of its two
sections; and the headings `T`, `Éa`, `s` with one file whose heading text is
`éa`, for a lower-casing that turns `É` into `é`: the heading `Éa` has that
file, and `s` a line under it. -/
theorem generateIndexContentWithSubsections_lines_witness :
    (generateIndexContentWithSubsections toLowerCase specParser scenarioA
        [{ filename := "alpha.md".toList, headingText := "Alpha".toList },
          { filename := "beta.md".toList, headingText := "Beta".toList }] =
      "# ".toList ++ "Title".toList ++ "\n\n## Table of Contents\n\n- [".toList ++
        "Title".toList ++ "](#table-of-contents)\n".toList ++
        newlineAfter (specTocLines toLowerCase
          [{ filename := "alpha.md".toList, headingText := "Alpha".toList },
            { filename := "beta.md".toList, headingText := "Beta".toList }] []
          (specParser.getHeadingsList scenarioA)) ∧
    specTocLines toLowerCase
        [{ filename := "alpha.md".toList, headingText := "Alpha".toList },
          { filename := "beta.md".toList, headingText := "Beta".toList }] []
        (specParser.getHeadingsList scenarioA) =
      ["  - [Alpha](./alpha.md)".toList, "    - [Sub](./alpha.md#sub)".toList,
        "  - [Beta](./beta.md)".toList]) ∧
    (generateIndexContentWithSubsections lowerWithAccent specParser "# T\n\n## Éa\n### s".toList
        [{ filename := "x.md".toList, headingText := "éa".toList }] =
      "# ".toList ++ "T".toList ++ "\n\n## Table of Contents\n\n- [".toList ++
        "T".toList ++ "](#table-of-contents)\n".toList ++
        newlineAfter (specTocLines lowerWithAccent
          [{ filename := "x.md".toList, headingText := "éa".toList }] []
          (specParser.getHeadingsList "# T\n\n## Éa\n### s".toList)) ∧
    specTocLines lowerWithAccent [{ filename := "x.md".toList, headingText := "éa".toList }] []
        (specParser.getHeadingsList "# T\n\n## Éa\n### s".toList) =
      ["  - [Éa](./x.md)".toList, "    - [s](./x.md#s)".toList]) :=
  ⟨⟨generateIndexContentWithSubsections_lines toLowerCase specParser scenarioA _
      "Title".toList (by decide), by decide⟩,
    ⟨generateIndexContentWithSubsections_lines lowerWithAccent specParser
      "# T\n\n## Éa\n### s".toList _ "T".toList (by decide), by decide⟩⟩

/-- C16, refuted by the code: for a parser that lists no level-1 heading for
`fencedCommentDocument` and re-serialises it with the line `# comment` of its fenced
code block as the first line that starts with `# `, the index explode generates
has the title `comment` and not `Table of Contents`; the search for the title
in `generateIndexContentTextBased` does not track code fences. -/
theorem fallback_title_from_fenced_line (P : MarkdownTreeParser)
    (h1 : (P.getHeadingsList (P.parse fencedCommentDocument)).find? (fun h => h.level == 1) = none)
    (h2 : (splitLines (P.stringify (P.parse fencedCommentDocument))).find?
      (startsWith ['#', ' ']) = some "# comment".toList) :
    (splitLines fencedCommentDocument)[2]? = some "# comment".toList ∧
    insideFence (splitLines fencedCommentDocument) 2 = true ∧
    explodeIndexContent P fencedCommentDocument =
      "# comment\n\n## Table of Contents\n\n- [comment](#table-of-contents)\n  - [A](./a.md)\n".toList := by
  refine ⟨by decide, by decide, ?_⟩
  unfold explodeIndexContent generateIndexContentWithSubsections generateIndexContentTextBased
  simp only [h1, h2]
  decide

theorem fallback_title_from_fenced_line_witness :
    (specParser.getHeadingsList (specParser.parse fencedCommentDocument)).find?
      (fun h => h.level == 1) = none ∧
    explodeIndexContent specParser fencedCommentDocument =
      "# comment\n\n## Table of Contents\n\n- [comment](#table-of-contents)\n  - [A](./a.md)\n".toList :=
  ⟨by decide, (fallback_title_from_fenced_line specParser (by decide) (by decide)).2.2⟩

/-- Counterexample of C17 as stated: `twinDocument` has two level-2 sections,
both with the file name `a.md`, and explode leaves one section file, which holds
the second section; the section of `## Index` has the file name `index.md`, and
explode leaves the index alone. -/
theorem explode_directory_counterexample :
    (collectSections (splitLines twinDocument)).map sectionFilename =
      ["a.md".toList, "a.md".toList] ∧
    (∀ P : MarkdownTreeParser, (explodeDocumentTextBased P (some twinDocument) none).2 =
      some [("a.md".toList, "# A\ny".toList),
        ("index.md".toList, explodeIndexContent P twinDocument)]) ∧
    (collectSections (splitLines "## Index\nx".toList)).map sectionFilename =
      ["index.md".toList] ∧
    (∀ P : MarkdownTreeParser, (explodeDocumentTextBased P (some "## Index\nx".toList) none).2 =
      some [("index.md".toList, explodeIndexContent P "## Index\nx".toList)]) :=
  ⟨by decide, fun _ => rfl, by decide, fun _ => rfl⟩

/-- A file name that is too long: the one section of `longNameDocument` has a
file name of 258 bytes, the write of its file fails, and explode into a new
directory exits with code 1 and leaves the directory empty, with no
`index.md`. -/
theorem explode_long_name_exits :
    (collectSections (splitLines longNameDocument)).map
      (fun s => utf8Length (sectionFilename s)) = [258] ∧
    ∀ P : MarkdownTreeParser,
      explodeDocumentTextBased P (some longNameDocument) none = (Outcome.exited 1, some []) :=
  ⟨by decide, fun _ => rfl⟩

/-- C17, amended: for a document with `N ≥ 1` level-2 sections whose file
names `sanitizeText(headingText) + .md` are pairwise different, differ from
`index.md` and are at most `NAME_MAX` bytes long, `explodeDocumentTextBased` into a
new or empty output directory returns and leaves in it exactly the `N` section
files, one per section in document order, each named
`sanitizeText(headingText) + .md` and holding the content of its section, and
`index.md`. -/
theorem explode_directory (P : MarkdownTreeParser) (D : JsString) (outputDir : Option Dir)
    (hdir : outputDir.getD [] = [])
    (hN : collectSections (splitLines D) ≠ [])
    (hnames : ((collectSections (splitLines D)).map sectionFilename).Nodup)
    (hindex : "index.md".toList ∉ (collectSections (splitLines D)).map sectionFilename)
    (hshort : ∀ s ∈ collectSections (splitLines D),
      utf8Length (sanitizeText s.headingText ++ ".md".toList) ≤ NAME_MAX) :
    explodeDocumentTextBased P (some D) outputDir =
      (Outcome.returned,
        some ((collectSections (splitLines D)).map
            (fun s => (sanitizeText s.headingText ++ ".md".toList, sectionContent s)) ++
          [("index.md".toList, explodeIndexContent P D)])) := by
  rw [explodeDocumentTextBased_of_short P D outputDir
      (fun h0 => hN (List.length_eq_zero.1 h0)) hshort, hdir,
    putSections_new [] _ hnames (by simp), List.nil_append, putFile_new]
  · rfl
  · intro hm
    apply hindex
    rw [List.map_map] at hm
    exact hm

theorem explode_directory_witness :
    explodeDocumentTextBased specParser (some scenarioA) none =
      (Outcome.returned,
        some ((collectSections (splitLines scenarioA)).map
            (fun s => (sanitizeText s.headingText ++ ".md".toList, sectionContent s)) ++
          [("index.md".toList, explodeIndexContent specParser scenarioA)])) ∧
    (collectSections (splitLines scenarioA)).map
        (fun s => sanitizeText s.headingText ++ ".md".toList) =
      ["alpha.md".toList, "beta.md".toList] :=
  ⟨explode_directory specParser scenarioA none rfl (by decide) (by decide) (by decide)
      (by decide),
    by decide⟩

/-- C18: `sanitizeText("Setup & Install!")` and
`sanitizeText("  Setup   &   Install!  ")` are both `setup-install`, and for every
text `x` and all strings `u` and `v` of whitespace, `sanitizeText(u + x + v)` is
`sanitizeText(x)`. -/
theorem sanitizeText_ignores_outer_whitespace :
    sanitizeText "Setup & Install!".toList = "setup-install".toList ∧
    sanitizeText "  Setup   &   Install!  ".toList = "setup-install".toList ∧
    ∀ u x v : JsString, (∀ c ∈ u, isJsWhitespace c = true) →
      (∀ c ∈ v, isJsWhitespace c = true) → sanitizeText (u ++ x ++ v) = sanitizeText x :=
  ⟨by decide, by decide, sanitizeText_whitespace_around⟩

theorem sanitizeText_ignores_outer_whitespace_witness :
    sanitizeText ("\t ".toList ++ "Q & A".toList ++ " \n".toList) = sanitizeText "Q & A".toList ∧
      sanitizeText "Q & A".toList = "q-a".toList :=
  ⟨sanitizeText_ignores_outer_whitespace.2.2 "\t ".toList "Q & A".toList " \n".toList
    (by decide) (by decide), by decide⟩

/-- C19: for every text `x`, `sanitizeText(sanitizeText(x))` is
`sanitizeText(x)`. -/
theorem sanitizeText_idempotent (x : JsString) :
    sanitizeText (sanitizeText x) = sanitizeText x :=
  sanitizeText_of_slug _ (mem_sanitizeText x) (sanitizeText_hyphens x).1
    (sanitizeText_hyphens x).2.1 (sanitizeText_hyphens x).2.2

/-- C20: for every text `x`, every character of `sanitizeText(x)` is one of
a–z, 0–9, the hyphen, or a character of the ranges U+4E00–U+9FFF (CJK),
U+3040–U+309F (Hiragana), U+30A0–U+30FF (Katakana) and U+AC00–U+D7AF (Hangul);
none is whitespace or one of A–Z, and lower-casing changes none; no two
hyphens are adjacent, and the slug neither starts nor ends with a hyphen. -/
theorem sanitizeText_shape (x : JsString) :
    (∀ c ∈ sanitizeText x,
      ((0x61 ≤ c.toNat ∧ c.toNat ≤ 0x7A) ∨ (0x30 ≤ c.toNat ∧ c.toNat ≤ 0x39) ∨ c = '-' ∨
        (0x4E00 ≤ c.toNat ∧ c.toNat ≤ 0x9FFF) ∨ (0x3040 ≤ c.toNat ∧ c.toNat ≤ 0x309F) ∨
        (0x30A0 ≤ c.toNat ∧ c.toNat ≤ 0x30FF) ∨ (0xAC00 ≤ c.toNat ∧ c.toNat ≤ 0xD7AF)) ∧
      isJsWhitespace c = false ∧ ¬ (0x41 ≤ c.toNat ∧ c.toNat ≤ 0x5A) ∧
      toLowerCaseChar c = [c]) ∧
    ¬ ("--".toList <:+: sanitizeText x) ∧
    (sanitizeText x).head? ≠ some '-' ∧ (sanitizeText x).getLast? ≠ some '-' := by
  refine ⟨fun c hc => ?_, not_infix_of_chain _ (sanitizeText_hyphens x).1,
    (sanitizeText_hyphens x).2.1, (sanitizeText_hyphens x).2.2⟩
  obtain ⟨h1, h2⟩ := mem_sanitizeText x c hc
  have h3 := slugChar_cases c h1 h2
  refine ⟨h3, h2, fun h4 => ?_, toLowerCaseChar_of_slugChar c h1⟩
  have hh : c = '-' → c.toNat = 45 := fun e => by rw [e]; rfl
  rcases h3 with h | h | h | h | h | h | h
  · omega
  · omega
  · have := hh h
    omega
  · omega
  · omega
  · omega
  · omega

theorem sanitizeText_shape_witness :
    sanitizeText "  --Setup  - & -- Install!-- ".toList = "setup-install".toList ∧
      ¬ ("--".toList <:+: sanitizeText "  --Setup  - & -- Install!-- ".toList) ∧
      isJsWhitespace 's' = false :=
  ⟨by decide, (sanitizeText_shape "  --Setup  - & -- Install!-- ".toList).2.1,
    ((sanitizeText_shape "  --Setup  - & -- Install!-- ".toList).1 's' (by decide)).2.1⟩

/-- Counterexample of C21 as stated: `untitledSectionsDocument` has no level-2
heading, and whatever the parser and the output directory, the explode command
returns to `run` without a call of `process.exit`: the process ends with exit code
0, not with a failure. -/
theorem explode_no_sections_counterexample :
    collectSections (splitLines untitledSectionsDocument) = [] ∧
    (∀ (P : MarkdownTreeParser) (outputDir : Option Dir),
      (explodeDocumentTextBased P (some untitledSectionsDocument) outputDir).1 =
        Outcome.returned) ∧
    (∀ (P : MarkdownTreeParser) (outputDir : Option Dir),
      (explodeDocumentTextBased P (some untitledSectionsDocument) outputDir).1 ≠
        Outcome.exited 1) :=
  ⟨by decide, fun _ _ => rfl, fun _ _ h => by
    have h2 : Outcome.returned = Outcome.exited 1 := h
    exact absurd h2 (by decide)⟩

/-- C21, amended: for every document that can be read and has no line outside
code fences that starts with `## `, `explodeDocumentTextBased` collects no section
and returns to `run` after its message, so the command ends with exit code 0;
with no exit code does it call `process.exit`.  It ends in failure, with exit
code 1, when the file cannot be read. -/
theorem explode_no_sections_returns (P : MarkdownTreeParser) (D : JsString)
    (outputDir : Option Dir)
    (h : ∀ i, i < (splitLines D).length → isSectionStart (splitLines D) i = false) :
    collectSections (splitLines D) = [] ∧
    (explodeDocumentTextBased P (some D) outputDir).1 = Outcome.returned ∧
    (∀ code, (explodeDocumentTextBased P (some D) outputDir).1 ≠ Outcome.exited code) ∧
    (explodeDocumentTextBased P none outputDir).1 = Outcome.exited 1 := by
  have hnil := collectSections_eq_nil _ h
  have hret : (explodeDocumentTextBased P (some D) outputDir).1 = Outcome.returned := by
    unfold explodeDocumentTextBased
    simp only [hnil, List.length_nil, if_true]
  refine ⟨hnil, hret, ?_, rfl⟩
  intro code hc
  rw [hret] at hc
  exact Outcome.noConfusion hc

theorem explode_no_sections_returns_witness :
    (explodeDocumentTextBased specParser (some "# T\n```\n## fenced\n```".toList) none).1 =
      Outcome.returned :=
  (explode_no_sections_returns specParser "# T\n```\n## fenced\n```".toList none
    (by decide)).2.1

/-- C22: for every document with no line outside code fences that starts with
`## `, `explodeDocumentTextBased` leaves the output directory as it was: a
directory that did not exist is not created, and no file is written or
changed, neither a section file nor `index.md`. -/
theorem explode_no_sections_writes_nothing (P : MarkdownTreeParser) (D : JsString)
    (outputDir : Option Dir)
    (h : ∀ i, i < (splitLines D).length → isSectionStart (splitLines D) i = false) :
    (explodeDocumentTextBased P (some D) outputDir).2 = outputDir := by
  unfold explodeDocumentTextBased
  simp only [collectSections_eq_nil _ h, List.length_nil, if_true]

theorem explode_no_sections_writes_nothing_witness :
    (explodeDocumentTextBased specParser (some "# T\n```\n## fenced\n```".toList) none).2 = none ∧
    (explodeDocumentTextBased specParser (some "# T\n```\n## fenced\n```".toList)
      (some [("a.md".toList, "old".toList)])).2 = some [("a.md".toList, "old".toList)] :=
  ⟨explode_no_sections_writes_nothing specParser "# T\n```\n## fenced\n```".toList none
      (by decide),
    explode_no_sections_writes_nothing specParser "# T\n```\n## fenced\n```".toList
      (some [("a.md".toList, "old".toList)]) (by decide)⟩

/-- C23: `assembleDocument` ends with exit code 1 and writes no output file when
`index.md` is absent from the input directory (or the directory does not
exist), when the parser lists no level-1 heading for the index, and when
`extractSectionFilesFromTOC` returns no section reference for it. -/
theorem assembleDocument_failures (P : MarkdownTreeParser) (inputDir : Option Dir)
    (h : inputDir.bind (fun dir => readFile dir "index.md".toList) = none ∨
      ∃ dir index, inputDir = some dir ∧ readFile dir "index.md".toList = some index ∧
        ((P.getHeadingsList (P.parse index)).find? (fun h => h.level == 1) = none ∨
          extractSectionFilesFromTOC P (P.parse index) = [])) :
    assembleDocument P inputDir = (Outcome.exited 1, none) := by
  unfold assembleDocument
  rcases h with h | ⟨dir, index, rfl, hidx, h⟩
  · cases inputDir with
    | none => rfl
    | some dir =>
      have h2 : readFile dir "index.md".toList = none := h
      simp only [h2]
  · simp only [hidx]
    rcases h with h | h
    · simp only [h]
    · cases hf : List.find? (fun h => h.level == 1) (P.getHeadingsList (P.parse index)) with
      | none => rfl
      | some mt =>
        simp only [h, List.length_nil, if_true]

theorem assembleDocument_failures_witness :
    assembleDocument specParser (some [("a.md".toList, "# A".toList)]) =
      (Outcome.exited 1, none) ∧
    assembleDocument specParser
        (some [("index.md".toList, "## Table of Contents\n\n  - [A](./a.md)\n".toList),
          ("a.md".toList, "# A".toList)]) = (Outcome.exited 1, none) ∧
    assembleDocument specParser
        (some [("index.md".toList, "# T\n\n- [A](./a.md)\n".toList),
          ("a.md".toList, "# A".toList)]) = (Outcome.exited 1, none) :=
  ⟨assembleDocument_failures specParser _ (Or.inl (by decide)),
    assembleDocument_failures specParser _
      (Or.inr ⟨_, "## Table of Contents\n\n  - [A](./a.md)\n".toList, rfl, by decide,
        Or.inl (by decide)⟩),
    assembleDocument_failures specParser _
      (Or.inr ⟨_, "# T\n\n- [A](./a.md)\n".toList, rfl, by decide, Or.inr (by decide)⟩)⟩

/-- C24, refuted by the code: when the index is readable and has a title, and one
of the section files it references cannot be read, `assembleDocument` ends with
exit code 1 and writes no output file.  The `readFile` method reports the error
and calls `process.exit(1)` itself, so the `catch` of the loop, which would warn
and skip the file, is never entered. -/
theorem assembleDocument_aborts_on_missing_file (P : MarkdownTreeParser) (dir : Dir)
    (index : JsString) (f : TocEntry)
    (hindex : readFile dir "index.md".toList = some index)
    (hf : f ∈ extractSectionFilesFromTOC P (P.parse index))
    (hmiss : readFile dir f.filename = none) :
    assembleDocument P (some dir) = (Outcome.exited 1, none) := by
  unfold assembleDocument
  simp only [hindex]
  cases hfind : List.find? (fun h => h.level == 1) (P.getHeadingsList (P.parse index)) with
  | none => rfl
  | some mt =>
    simp only
    split
    · rfl
    · rw [assembleLoop_missing dir _ _ f hf hmiss]

theorem assembleDocument_aborts_on_missing_file_witness :
    assembleDocument specParser
        (some [("index.md".toList, "# T\n\n  - [A](./a.md)\n  - [B](./b.md)\n".toList),
          ("b.md".toList, "# B\n".toList)]) = (Outcome.exited 1, none) :=
  assembleDocument_aborts_on_missing_file specParser
    [("index.md".toList, "# T\n\n  - [A](./a.md)\n  - [B](./b.md)\n".toList),
      ("b.md".toList, "# B\n".toList)]
    "# T\n\n  - [A](./a.md)\n  - [B](./b.md)\n".toList
    { filename := "a.md".toList, title := "A".toList } (by decide) (by decide) (by decide)

/-- C26: on every sequence of lines, the scan of `explodeDocumentTextBased` and the
`lines.map` of `adjustHeadingLevels` have the same value of `inCodeBlock` before every
line: the parity of the number of earlier lines whose trimmed text starts
with three backticks or three tildes.  It is `false` before the first line
and toggles at every such line, whichever of the two delimiters it is; the
result of `adjustHeadingLevels` is computed from the lines and these values. -/
theorem scan_and_adjust_same_fence_state (lines : List JsString) (δ : Int) :
    (∀ i, i ≤ lines.length → (stateBefore lines i).inCodeBlock = insideFence lines i) ∧
    (∀ i, i < lines.length →
      (adjustCodeBlockStates false lines)[i]? = some (insideFence lines i) ∧
      (adjustCodeBlockStates false lines)[i]? = some (stateBefore lines i).inCodeBlock) ∧
    adjustLines δ false lines =
      List.zipWith
        (fun st l => if isFenceDelimiter l then l else if st then l else adjustLine δ l)
        (adjustCodeBlockStates false lines) lines ∧
    insideFence lines 0 = false ∧
    (∀ i, i < lines.length →
      insideFence lines (i + 1) =
        xor (insideFence lines i) (isFenceDelimiter (lines.getD i []))) := by
  have h1 : ∀ i, i ≤ lines.length → (stateBefore lines i).inCodeBlock = insideFence lines i :=
    fun i hi => (scanInv_stateBefore lines i hi).code
  refine ⟨h1, ?_, adjustLines_eq_zipWith δ false lines, insideFence_zero lines,
    fun i hi => insideFence_succ lines i hi⟩
  intro i hi
  have h2 := adjustCodeBlockStates_getElem? false lines i hi
  rw [Bool.false_xor] at h2
  exact ⟨h2, by rw [h2, h1 i (by omega)]⟩

theorem scan_and_adjust_same_fence_state_witness :
    (stateBefore ["```".toList, "## a".toList, "~~~".toList, "## b".toList] 3).inCodeBlock =
      false ∧
    (adjustCodeBlockStates false ["```".toList, "## a".toList, "~~~".toList, "## b".toList])[1]? =
      some true :=
  ⟨((scan_and_adjust_same_fence_state
      ["```".toList, "## a".toList, "~~~".toList, "## b".toList] 1).1 3 (by decide)).trans
      (by decide),
    (((scan_and_adjust_same_fence_state
      ["```".toList, "## a".toList, "~~~".toList, "## b".toList] 1).2.1 1 (by decide)).1).trans
      (by decide)⟩

/-- C27: a line of two to six hashes followed by whitespace, lowered by the
`map` of `explodeDocumentTextBased` and then raised by the callback of
`adjustHeadingLevels` with +1, is the line again; and when it is a body line of a
section of a document, outside the code fences of the document, the line of
`adjustHeadingLevels(content, +1)` at its place in the content of the section file is
the line of the document. -/
theorem lowered_heading_raised_again (L : Nat) (w : Char) (r : JsString)
    (hL : 2 ≤ L ∧ L ≤ 6) (hw : isJsWhitespace w = true) :
    adjustLine 1 (decrementLine (hashes L ++ w :: r)) = hashes L ++ w :: r ∧
    ∀ (D : JsString) (s : Section) (k : Nat), s ∈ collectSections (splitLines D) →
      s.lines[k]? = some (hashes L ++ w :: r) →
      insideFence (splitLines D) (s.startLine + 1 + k) = false →
      (splitLines (adjustHeadingLevels (sectionContent s) 1))[k + 1]? =
        some (hashes L ++ w :: r) := by
  have hline := (adjustLine_decrementLine (hashes L ++ w :: r)
    (matchHeading_one_of_deeper L w r hL.1 hw)).1
  refine ⟨hline, ?_⟩
  intro D s k hs hk hout
  have hklt : k < s.lines.length := by
    by_contra hge
    rw [List.getElem?_eq_none (by omega)] at hk
    exact absurd hk (by simp)
  obtain ⟨j, hspan, _, _⟩ := collectSections_spans (splitLines D) s hs
  obtain ⟨_, _, hfence⟩ := section_body_line _ s j hspan k hklt
  have hC := splitLines_sectionContent (splitLines D) (splitLines_mem_noNewline D) s hs
  rw [adjustHeadingLevels_line, hC, List.getElem?_cons_succ, List.getElem?_map, hk]
  simp only [Option.map_some']
  have hin : insideFence ((['#', ' '] ++ s.headingText) :: List.map decrementLine s.lines)
      (k + 1) = false := by
    rw [insideFence_cons_succ, insideFence_map_decrementLine, ← hfence, hout]
    have hf : isFenceDelimiter (['#', ' '] ++ s.headingText) = false := isFenceDelimiter_hash _
    rw [hf]; rfl
  have hfd : isFenceDelimiter (decrementLine (hashes L ++ w :: r)) = false := by
    rw [isFenceDelimiter_decrementLine]
    exact isFenceDelimiter_hashes_append _ _ (by omega)
  rw [hin, hfd]
  simp only [Bool.or_self, Bool.false_eq_true, if_false]
  rw [hline]

theorem lowered_heading_raised_again_witness :
    adjustLine 1 (decrementLine (hashes 6 ++ ' ' :: "six".toList)) =
      hashes 6 ++ ' ' :: "six".toList ∧
    (splitLines (adjustHeadingLevels
      (sectionContent ⟨"A".toList, 0, some 1, ["### x".toList]⟩) 1))[1]? =
        some (hashes 3 ++ ' ' :: "x".toList) :=
  ⟨(lowered_heading_raised_again 6 ' ' "six".toList (by decide) (by decide)).1,
    (lowered_heading_raised_again 3 ' ' "x".toList (by decide) (by decide)).2
      "## A\n### x\n## B".toList ⟨"A".toList, 0, some 1, ["### x".toList]⟩ 0
      (by decide) (by decide) (by decide)⟩

/-- C29: `decrementAllHeadingLevelsInText` and `incrementHeadingLevelsInText` return the same
result on every content, `adjustHeadingLevels(content, +1)`; the result has the lines
of the content, each either as it is or with one more hash in front, so no
line loses a hash. -/
theorem decrement_is_increment (content : JsString) :
    decrementAllHeadingLevelsInText content = incrementHeadingLevelsInText content ∧
    decrementAllHeadingLevelsInText content = adjustHeadingLevels content 1 ∧
    (splitLines (decrementAllHeadingLevelsInText content)).length =
      (splitLines content).length ∧
    (∀ (i : Nat) (l : JsString), (splitLines content)[i]? = some l →
      (splitLines (decrementAllHeadingLevelsInText content))[i]? = some l ∨
      (splitLines (decrementAllHeadingLevelsInText content))[i]? = some ('#' :: l)) := by
  refine ⟨rfl, rfl, ?_, ?_⟩
  · unfold decrementAllHeadingLevelsInText
    rw [splitLines_adjustHeadingLevels, adjustLines_length]
  · intro i l hl
    unfold decrementAllHeadingLevelsInText
    rw [adjustHeadingLevels_line, hl]
    simp only [Option.map_some']
    split
    · exact Or.inl rfl
    · rcases adjustLine_eq_or 1 l with e | ⟨L, w, r, rfl, _, _, _, _, _, _, e⟩
      · rw [e]; exact Or.inl rfl
      · right
        rw [e]
        have : ((L : Int) + 1).toNat = L + 1 := by omega
        rw [this]
        simp [hashes, List.replicate_succ]

theorem decrement_is_increment_witness :
    (splitLines (decrementAllHeadingLevelsInText "## a\ntext".toList))[0]? =
      some "### a".toList :=
  ((decrement_is_increment "## a\ntext".toList).2.2.2 0 "## a".toList (by decide)).resolve_left
    (by decide)

end MdTree

namespace Flattener

open MdTree

/-! ## The heaviest marker -/

theorem le_maxWeight (ws : List Nat) (x : Nat) (h : x ∈ ws) : x ≤ maxWeight ws := by
  induction ws with
  | nil => simp at h
  | cons w t ih =>
    unfold maxWeight at ih ⊢
    rw [List.foldr_cons]
    rcases List.mem_cons.1 h with e | hm
    · rw [e]; exact le_max_left _ _
    · exact le_trans (ih hm) (le_max_right _ _)

theorem maxWeight_cons (w : Nat) (t : List Nat) : maxWeight (w :: t) = max w (maxWeight t) := rfl

theorem acceptWeights_eq (dir : Path) (best : Option Best) (ws : List Nat) :
    acceptWeights dir best ws =
      if ws = [] then best
      else if accepts best (maxWeight ws) then some { dir := dir, weight := maxWeight ws }
      else best := by
  induction ws generalizing best with
  | nil => rfl
  | cons w t ih =>
    have hstep : acceptWeights dir best (w :: t) =
        acceptWeights dir (if accepts best w then some { dir := dir, weight := w } else best) t :=
      rfl
    rw [hstep, ih, if_neg (List.cons_ne_nil w t), maxWeight_cons]
    by_cases ht : t = []
    · subst ht
      have h0 : maxWeight [] = 0 := rfl
      rw [if_pos rfl, h0, Nat.max_zero]
    · rw [if_neg ht]
      cases best with
      | none =>
        simp only [accepts, if_true, decide_eq_true_eq]
        by_cases h1 : maxWeight t ≥ w
        · rw [if_pos h1, Nat.max_eq_right h1]
        · rw [if_neg h1, Nat.max_eq_left (by omega)]
      | some b =>
        simp only [accepts, decide_eq_true_eq]
        by_cases h0 : w ≥ b.weight
        · rw [if_pos h0]
          simp only [decide_eq_true_eq]
          rw [if_pos (le_trans h0 (le_max_left _ _))]
          by_cases h1 : maxWeight t ≥ w
          · rw [if_pos h1, Nat.max_eq_right h1]
          · rw [if_neg h1, Nat.max_eq_left (by omega)]
        · rw [if_neg h0]
          simp only [decide_eq_true_eq]
          by_cases h1 : maxWeight t ≥ b.weight
          · rw [if_pos h1, if_pos (le_trans h1 (le_max_right _ _)),
              Nat.max_eq_right (by omega)]
          · rw [if_neg h1, if_neg]
            rw [not_le, max_lt_iff]
            omega

theorem foldl_checks_eq (fs : FileSystem) (cs : List Check) (dir : Path) (best : Option Best) :
    cs.foldl (fun b c =>
      if fs.pathExists (joinPath dir c.rel) && accepts b c.weight then
        some { dir := dir, weight := c.weight }
      else b) best =
    acceptWeights dir best
      ((cs.filter (fun c => fs.pathExists (joinPath dir c.rel))).map (·.weight)) := by
  induction cs generalizing best with
  | nil => rfl
  | cons c t ih =>
    rw [List.foldl_cons, ih]
    by_cases he : fs.pathExists (joinPath dir c.rel) = true
    · have e : List.filter (fun x : Check => fs.pathExists (joinPath dir x.rel)) (c :: t) =
          c :: List.filter (fun x : Check => fs.pathExists (joinPath dir x.rel)) t :=
        List.filter_cons_of_pos he
      rw [e, List.map_cons]
      simp only [he, Bool.true_and]
      rfl
    · have e : List.filter (fun x : Check => fs.pathExists (joinPath dir x.rel)) (c :: t) =
          List.filter (fun x : Check => fs.pathExists (joinPath dir x.rel)) t :=
        List.filter_cons_of_neg he
      rw [e]
      have he2 : fs.pathExists (joinPath dir c.rel) = false := by simpa using he
      simp only [he2, Bool.false_and, Bool.false_eq_true, if_false]

theorem checkDir_eq (fs : FileSystem) (cs : List Check) (dir : Path) (best : Option Best) :
    checkDir fs cs dir best = acceptWeights dir best (markerWeights fs cs dir) := by
  unfold checkDir markerWeights
  simp only
  rw [foldl_checks_eq]
  by_cases hw : hasWorkspacePackageJson fs dir = true
  · simp only [hw, Bool.true_and, if_true]
    rfl
  · have hw2 : hasWorkspacePackageJson fs dir = false := by simpa using hw
    simp only [hw2, Bool.false_and, Bool.false_eq_true, if_false, List.nil_append]

theorem Chosen.congr {fs : FileSystem} {cs : List Check} {S T : Path → Prop}
    {best : Option Best} (h : Chosen fs cs S best) (hST : ∀ d, T d ↔ S d) :
    Chosen fs cs T best where
  nothing := fun hb d hd => h.nothing hb d ((hST d).1 hd)
  found := fun b hb => by
    obtain ⟨h1, h2, h3, h4, h5⟩ := h.found b hb
    exact ⟨(hST _).2 h1, h2, h3, fun d hd => h4 d ((hST d).1 hd),
      fun d hd => h5 d ((hST d).1 hd)⟩

theorem Chosen.step {fs : FileSystem} {cs : List Check} {S : Path → Prop}
    {best : Option Best} (h : Chosen fs cs S best) (cur : Path)
    (hS : ∀ d, S d → cur.length < d.length) :
    Chosen fs cs (fun d => S d ∨ d = cur) (checkDir fs cs cur best) := by
  rw [checkDir_eq, acceptWeights_eq]
  by_cases hW : markerWeights fs cs cur = []
  · rw [if_pos hW]
    constructor
    · intro hb d hd
      rcases hd with hd | rfl
      · exact h.nothing hb d hd
      · exact hW
    · intro b hb
      obtain ⟨h1, h2, h3, h4, h5⟩ := h.found b hb
      refine ⟨Or.inl h1, h2, h3, ?_, ?_⟩
      · intro d hd x hx
        rcases hd with hd | rfl
        · exact h4 d hd x hx
        · rw [hW] at hx; simp at hx
      · intro d hd hlt x hx
        rcases hd with hd | rfl
        · exact h5 d hd hlt x hx
        · rw [hW] at hx; simp at hx
  · rw [if_neg hW]
    by_cases hacc : accepts best (maxWeight (markerWeights fs cs cur)) = true
    · rw [if_pos hacc]
      constructor
      · intro hb; simp at hb
      · intro b hb
        have hb2 : b = { dir := cur, weight := maxWeight (markerWeights fs cs cur) } :=
          (Option.some.inj hb).symm
        subst hb2
        refine ⟨Or.inr rfl, hW, rfl, ?_, ?_⟩
        · intro d hd x hx
          rcases hd with hd | rfl
          · cases hbest : best with
            | none =>
              rw [h.nothing hbest d hd] at hx; simp at hx
            | some b0 =>
              obtain ⟨_, _, _, h4, _⟩ := h.found b0 hbest
              rw [hbest] at hacc
              simp only [accepts, decide_eq_true_eq] at hacc
              exact le_trans (h4 d hd x hx) hacc
          · exact le_maxWeight _ x hx
        · intro d hd hlt x hx
          rcases hd with hd | rfl
          · have := hS d hd
            simp only at hlt
            omega
          · simp only at hlt
            omega
    · rw [if_neg hacc]
      cases hbest : best with
      | none => rw [hbest] at hacc; simp [accepts] at hacc
      | some b0 =>
        rw [hbest] at hacc
        simp only [accepts, decide_eq_true_eq, not_le] at hacc
        obtain ⟨h1, h2, h3, h4, h5⟩ := h.found b0 hbest
        constructor
        · intro hb; simp at hb
        · intro b hb
          have hb2 : b = b0 := (Option.some.inj hb).symm
          subst hb2
          refine ⟨Or.inl h1, h2, h3, ?_, ?_⟩
          · intro d hd x hx
            rcases hd with hd | rfl
            · exact h4 d hd x hx
            · exact le_of_lt (lt_of_le_of_lt (le_maxWeight _ x hx) hacc)
          · intro d hd hlt x hx
            rcases hd with hd | rfl
            · exact h5 d hd hlt x hx
            · exact lt_of_le_of_lt (le_maxWeight _ x hx) hacc

theorem suffix_longer_iff (startDir cur d : Path) (seg : JsString)
    (hcur : (seg :: cur) <:+ startDir) :
    (d <:+ startDir ∧ cur.length < d.length) ↔
      ((d <:+ startDir ∧ (seg :: cur).length < d.length) ∨ d = seg :: cur) := by
  constructor
  · rintro ⟨hd, hlen⟩
    by_cases hl : (seg :: cur).length < d.length
    · exact Or.inl ⟨hd, hl⟩
    · right
      have hle : d.length ≤ (seg :: cur).length := by omega
      have heq : d.length = (seg :: cur).length := by
        simp only [List.length_cons] at hle ⊢
        omega
      rcases List.suffix_or_suffix_of_suffix hd hcur with h | h
      · exact h.eq_of_length heq
      · exact (h.eq_of_length heq.symm).symm
  · rintro (⟨hd, hlen⟩ | rfl)
    · exact ⟨hd, by simp only [List.length_cons] at hlen; omega⟩
    · exact ⟨hcur, by simp⟩

theorem walkUp_chosen (fs : FileSystem) (cs : List Check) (startDir : Path) (cur : Path)
    (best : Option Best) (hcur : cur <:+ startDir)
    (h : Chosen fs cs (fun d => d <:+ startDir ∧ cur.length < d.length) best) :
    Chosen fs cs (fun d => d <:+ startDir) (walkUp fs cs best cur) := by
  induction cur generalizing best with
  | nil =>
    rw [walkUp]
    refine (h.step [] (fun d hd => hd.2)).congr ?_
    intro d
    constructor
    · intro hd
      by_cases hl : d = []
      · exact Or.inr hl
      · exact Or.inl ⟨hd, by
          simp only [List.length_nil]
          exact List.length_pos.2 hl⟩
    · rintro (⟨hd, _⟩ | rfl)
      · exact hd
      · exact List.nil_suffix
  | cons seg parent ih =>
    rw [walkUp]
    apply ih _ (List.IsSuffix.trans (List.suffix_cons seg parent) hcur)
    refine (h.step (seg :: parent) (fun d hd => hd.2)).congr ?_
    intro d
    exact suffix_longer_iff startDir parent d seg hcur

/-! ## The batches -/

theorem concurrency_bounds (n cpu : Nat) : 1 ≤ concurrency n cpu ∧ concurrency n cpu ≤ 64 := by
  unfold concurrency effectiveCpuCount
  simp only
  split <;> split <;> omega

theorem batches_spec {α : Type} (files : List α) (step : Nat) (hstep : 1 ≤ step)
    (fuel index : Nat) (hfuel : files.length ≤ index + fuel) :
    ∃ bs, batches files step fuel index = some bs ∧ bs.flatten = files.drop index ∧
      ∀ b ∈ bs, 1 ≤ b.length ∧ b.length ≤ step := by
  induction fuel generalizing index with
  | zero =>
    refine ⟨[], ?_, ?_, by simp⟩
    · rw [batches, if_neg (by omega)]
    · rw [List.drop_of_length_le (by omega)]; rfl
  | succ k ih =>
    rw [batches]
    by_cases hi : index < files.length
    · rw [if_pos hi]
      obtain ⟨bs, hbs, hflat, hall⟩ := ih (index + step) (by omega)
      refine ⟨(files.drop index).take step :: bs, by rw [hbs]; rfl, ?_, ?_⟩
      · rw [List.flatten_cons, hflat, ← List.drop_drop, List.take_append_drop]
      · intro b hb
        rcases List.mem_cons.1 hb with rfl | hb
        · rw [List.length_take, List.length_drop]
          omega
        · exact hall b hb
    · rw [if_neg hi]
      refine ⟨[], rfl, ?_, by simp⟩
      rw [List.drop_of_length_le (by omega)]; rfl

theorem batches_stuck {α : Type} (files : List α) (fuel index : Nat)
    (hi : index < files.length) : batches files 0 fuel index = none := by
  induction fuel with
  | zero => rw [batches, if_pos hi]
  | succ k ih => rw [batches, if_pos hi, Nat.add_zero, ih]; rfl

/-- C25: with no VCS top-level reported and nothing cached, `findProjectRoot` returns
`null` when no directory from the start directory up to the root holds a
marker; otherwise it returns one of these directories that holds a marker,
whose greatest marker weight is at least the weight of every marker on the
path, and greater than the weight of every marker of a directory further
out: the directory of the greatest marker weight, the outermost on a tie. -/
theorem findProjectRoot_heaviest_outermost (fs : FileSystem) (env : Option JsString)
    (startDir : Path) :
    ((∀ d, d <:+ startDir → markerWeights fs (checks env) d = []) →
      findProjectRoot fs env none none startDir = none) ∧
    ((∃ d, d <:+ startDir ∧ markerWeights fs (checks env) d ≠ []) →
      ∃ r, findProjectRoot fs env none none startDir = some r) ∧
    (∀ r, findProjectRoot fs env none none startDir = some r →
      r <:+ startDir ∧ markerWeights fs (checks env) r ≠ [] ∧
      (∀ d, d <:+ startDir → ∀ x ∈ markerWeights fs (checks env) d,
        x ≤ maxWeight (markerWeights fs (checks env) r)) ∧
      (∀ d, d <:+ startDir → d.length < r.length → ∀ x ∈ markerWeights fs (checks env) d,
        x < maxWeight (markerWeights fs (checks env) r))) := by
  have h0 : Chosen fs (checks env) (fun d => d <:+ startDir ∧ startDir.length < d.length)
      none := by
    constructor
    · intro _ d hd
      have := hd.1.length_le
      omega
    · intro b hb; simp at hb
  have hC := walkUp_chosen fs (checks env) startDir startDir none (List.suffix_refl _) h0
  have hdef : findProjectRoot fs env none none startDir =
      (walkUp fs (checks env) none startDir).map (·.dir) := rfl
  rw [hdef]
  refine ⟨?_, ?_, ?_⟩
  · intro hnone
    cases hw : walkUp fs (checks env) none startDir with
    | none => rfl
    | some b =>
      obtain ⟨h1, h2, _⟩ := hC.found b hw
      exact absurd (hnone _ h1) h2
  · rintro ⟨d, hd, hne⟩
    cases hw : walkUp fs (checks env) none startDir with
    | none => exact absurd (hC.nothing hw d hd) hne
    | some b => exact ⟨b.dir, rfl⟩
  · intro r hr
    cases hw : walkUp fs (checks env) none startDir with
    | none => rw [hw] at hr; simp at hr
    | some b =>
      rw [hw] at hr
      simp only [Option.map_some', Option.some.injEq] at hr
      obtain ⟨h1, h2, h3, h4, h5⟩ := hC.found b hw
      subst hr
      rw [← h3]
      exact ⟨h1, h2, h4, h5⟩

theorem findProjectRoot_heaviest_outermost_witness :
    findProjectRoot
        (fileSystemOf [["requirements.txt".toList, "tie".toList],
          ["requirements.txt".toList, "mid".toList, "tie".toList]])
        none none none ["leaf".toList, "mid".toList, "tie".toList] = some ["tie".toList] ∧
    findProjectRoot
        (fileSystemOf [["package.json".toList, "nested".toList, "r".toList],
          ["yarn.lock".toList, "r".toList]])
        none none none ["deep".toList, "nested".toList, "r".toList] = some ["r".toList] ∧
    markerWeights
        (fileSystemOf [["package.json".toList, "nested".toList, "r".toList],
          ["yarn.lock".toList, "r".toList]]) (checks none) ["r".toList] ≠ [] :=
  ⟨by decide, by decide,
    ((findProjectRoot_heaviest_outermost
      (fileSystemOf [["package.json".toList, "nested".toList, "r".toList],
        ["yarn.lock".toList, "r".toList]])
      none ["deep".toList, "nested".toList, "r".toList]).2.2 ["r".toList] (by decide)).2.1⟩

/-- C28: for every list of files and every number of CPUs reported, the batch
size of `aggregateFileContents` lies between 1 and 64; with as many iterations as
there are files the loop ends, its batches are not empty, hold at most that
many files and, one after the other, make up the list, so `processOne` is
called with the files of the list, each at its place, once.  With a batch
size of 0 the loop would never end on a list that is not empty. -/
theorem aggregateFileContents_batches {α : Type} (files : List α) (cpuCount : Nat) :
    1 ≤ concurrency files.length cpuCount ∧ concurrency files.length cpuCount ≤ 64 ∧
    (∀ fuel, files.length ≤ fuel →
      (∃ bs, batches files (concurrency files.length cpuCount) fuel 0 = some bs ∧
        bs.flatten = files ∧
        ∀ b ∈ bs, 1 ≤ b.length ∧ b.length ≤ concurrency files.length cpuCount) ∧
      aggregateFileContents files cpuCount fuel = some files) ∧
    (∀ fuel, files ≠ [] → batches files 0 fuel 0 = none) := by
  have hb := concurrency_bounds files.length cpuCount
  refine ⟨hb.1, hb.2, ?_, ?_⟩
  · intro fuel hfuel
    obtain ⟨bs, h1, h2, h3⟩ := batches_spec files _ hb.1 fuel 0 (by omega)
    rw [List.drop_zero] at h2
    refine ⟨⟨bs, h1, h2, h3⟩, ?_⟩
    unfold aggregateFileContents
    rw [h1, Option.map_some', h2]
  · intro fuel hne
    exact batches_stuck files fuel 0 (List.length_pos.2 hne)

theorem aggregateFileContents_batches_witness :
    aggregateFileContents [1, 2, 3, 4, 5] 8 5 = some [1, 2, 3, 4, 5] ∧
    batches [1, 2, 3, 4, 5] (concurrency 5 8) 5 0 = some [[1, 2, 3], [4, 5]] :=
  ⟨((aggregateFileContents_batches [1, 2, 3, 4, 5] 8).2.2.1 5 (by decide)).2, by decide⟩

end Flattener

namespace WorkflowFormatter

open MdTree

/-! ## Trimming -/

theorem dropWhile_of_head (p : Char → Bool) (l : JsString)
    (h : ∀ c, l.head? = some c → p c = false) : l.dropWhile p = l := by
  cases l with
  | nil => rfl
  | cons c t => exact List.dropWhile_cons_of_neg (by simp [h c rfl])

theorem dropWhile_dropWhile (p : Char → Bool) (l : JsString) :
    (l.dropWhile p).dropWhile p = l.dropWhile p := by
  apply dropWhile_of_head
  intro c hc
  cases hd : l.dropWhile p with
  | nil => rw [hd] at hc; simp at hc
  | cons d r =>
    rw [hd] at hc
    simp only [List.head?_cons, Option.some.injEq] at hc
    rw [← hc]
    exact dropWhile_head_not p l d r hd

theorem dropWhile_append_of_all (p : Char → Bool) (a b : JsString)
    (h : ∀ c ∈ a, p c = true) : (a ++ b).dropWhile p = b.dropWhile p := by
  induction a with
  | nil => rfl
  | cons x t ih =>
    rw [List.cons_append, List.dropWhile_cons_of_pos (h x (List.mem_cons_self _ _)),
      ih (fun c hc => h c (List.mem_cons_of_mem _ hc))]

/-- A trimmed text is empty or starts with a character that is not
whitespace. -/
theorem jsTrim_head (l : JsString) : ∀ c, (jsTrim l).head? = some c → isJsWhitespace c = false := by
  intro c hc
  cases hd : l.dropWhile isJsWhitespace with
  | nil =>
    unfold jsTrim at hc
    rw [hd] at hc
    simp at hc
  | cons d r =>
    have hdw := dropWhile_head_not _ _ _ _ hd
    obtain ⟨u, hu⟩ := rdropWhile_cons_of_neg isJsWhitespace d r hdw
    unfold jsTrim at hc
    rw [hd, hu] at hc
    simp only [List.head?_cons, Option.some.injEq] at hc
    rw [← hc]
    exact hdw

theorem jsTrim_of_trimmed (s : JsString) (l : JsString) (a : JsString)
    (ha : ∀ c ∈ a, isJsWhitespace c = true) (hs : s = a ++ jsTrim l) : jsTrim s = jsTrim l := by
  have h1 : s.dropWhile isJsWhitespace = jsTrim l := by
    rw [hs, dropWhile_append_of_all _ _ _ ha]
    exact dropWhile_of_head _ _ (jsTrim_head l)
  have h2 : jsTrim s = ((jsTrim l).reverse.dropWhile isJsWhitespace).reverse := by
    unfold jsTrim
    unfold jsTrim at h1
    rw [h1]
  rw [h2]
  unfold jsTrim
  rw [List.reverse_reverse, dropWhile_dropWhile]

theorem jsTrim_jsTrim (l : JsString) : jsTrim (jsTrim l) = jsTrim l :=
  jsTrim_of_trimmed (jsTrim l) l [] (by simp) rfl

theorem mem_jsTrim (l : JsString) (c : Char) (h : c ∈ jsTrim l) : c ∈ l := by
  unfold jsTrim at h
  rw [List.mem_reverse] at h
  have h2 := List.mem_reverse.1 ((List.dropWhile_sublist _).subset h)
  exact (List.dropWhile_sublist _).subset h2

theorem jsTrim_nil : jsTrim [] = [] := rfl

/-! ## The formatter, applied twice -/

theorem formatXMLLine_line (n : Nat) (t : JsString) (i d : Nat) :
    ∃ k, (formatXMLLine n t i d).line = List.replicate k ' ' ++ jsTrim t := by
  unfold formatXMLLine
  exact ⟨_, rfl⟩

theorem jsTrim_formatStep (n : Nat) (st : FormatState) (l : JsString) :
    jsTrim (formatStep n st l).1 = jsTrim l := by
  unfold formatStep
  split
  · rfl
  · split
    · rfl
    · split
      · obtain ⟨k, hk⟩ := formatXMLLine_line n (jsTrim l) st.indentLevel st.checkBlockDepth
        simp only
        rw [hk]
        have h := jsTrim_of_trimmed (List.replicate k ' ' ++ jsTrim (jsTrim l)) (jsTrim l)
          (List.replicate k ' ')
          (fun c hc => by rw [List.eq_of_mem_replicate hc]; decide) rfl
        rw [h, jsTrim_jsTrim]
      · split
        · next h0 =>
          simp only
          rw [jsTrim_nil, List.length_eq_zero.1 h0]
        · rfl

theorem formatStep_idem (n : Nat) (st : FormatState) (l : JsString) :
    formatStep n st (formatStep n st l).1 = formatStep n st l := by
  have ht := jsTrim_formatStep n st l
  have hdef : ∀ x, formatStep n st x =
      if startsWith "```".toList (jsTrim x) then
        (x, { st with inCodeBlock := !st.inCodeBlock })
      else if st.inCodeBlock then (x, st)
      else if isXMLLine (jsTrim x) then
        ((formatXMLLine n (jsTrim x) st.indentLevel st.checkBlockDepth).line,
          { st with
            indentLevel :=
              (formatXMLLine n (jsTrim x) st.indentLevel st.checkBlockDepth).nextIndent,
            checkBlockDepth :=
              (formatXMLLine n (jsTrim x) st.indentLevel st.checkBlockDepth).nextCheckDepth })
      else if (jsTrim x).length = 0 then ([], st)
      else (x, st) := fun x => rfl
  by_cases h1 : startsWith "```".toList (jsTrim l) = true
  · have e : formatStep n st l = (l, { st with inCodeBlock := !st.inCodeBlock }) := by
      rw [hdef l, if_pos h1]
    rw [e]
    exact e
  · by_cases h2 : st.inCodeBlock = true
    · have e : formatStep n st l = (l, st) := by rw [hdef l, if_neg h1, if_pos h2]
      rw [e]
      exact e
    · by_cases h3 : isXMLLine (jsTrim l) = true
      · have e := hdef l
        rw [if_neg h1, if_neg h2, if_pos h3] at e
        rw [e] at ht
        rw [e]
        have e2 := hdef (formatXMLLine n (jsTrim l) st.indentLevel st.checkBlockDepth).line
        rw [ht, if_neg h1, if_neg h2, if_pos h3] at e2
        exact e2
      · by_cases h4 : (jsTrim l).length = 0
        · have e := hdef l
          rw [if_neg h1, if_neg h2, if_neg h3, if_pos h4] at e
          rw [e] at ht
          rw [e]
          have e2 := hdef []
          rw [ht, if_neg h1, if_neg h2, if_neg h3, if_pos h4] at e2
          exact e2
        · have e : formatStep n st l = (l, st) := by
            rw [hdef l, if_neg h1, if_neg h2, if_neg h3, if_neg h4]
          rw [e]
          exact e

theorem formatLines_idem (n : Nat) (st : FormatState) (ls : List JsString) :
    formatLines n st (formatLines n st ls) = formatLines n st ls := by
  induction ls generalizing st with
  | nil => rfl
  | cons l t ih =>
    rw [formatLines, formatLines, formatStep_idem, ih]

theorem formatLines_length (n : Nat) (st : FormatState) (ls : List JsString) :
    (formatLines n st ls).length = ls.length := by
  induction ls generalizing st with
  | nil => rfl
  | cons l t ih => rw [formatLines, List.length_cons, List.length_cons, ih]

theorem formatStep_noNewline (n : Nat) (st : FormatState) (l : JsString) (h : '\n' ∉ l) :
    '\n' ∉ (formatStep n st l).1 := by
  unfold formatStep
  split
  · exact h
  · split
    · exact h
    · split
      · obtain ⟨k, hk⟩ := formatXMLLine_line n (jsTrim l) st.indentLevel st.checkBlockDepth
        simp only
        rw [hk]
        intro hm
        rcases List.mem_append.1 hm with hm | hm
        · exact absurd (List.eq_of_mem_replicate hm) (by decide)
        · exact h (mem_jsTrim _ _ (mem_jsTrim _ _ hm))
      · split
        · simp
        · exact h

theorem formatLines_noNewline (n : Nat) (st : FormatState) (ls : List JsString)
    (h : ∀ l ∈ ls, '\n' ∉ l) : ∀ o ∈ formatLines n st ls, '\n' ∉ o := by
  induction ls generalizing st with
  | nil => intro o ho; simp [formatLines] at ho
  | cons l t ih =>
    intro o ho
    rw [formatLines] at ho
    rcases List.mem_cons.1 ho with rfl | ho
    · exact formatStep_noNewline n st l (h l (List.mem_cons_self _ _))
    · exact ih _ (fun x hx => h x (List.mem_cons_of_mem _ hx)) o ho

theorem splitLines_formatContent (n : Nat) (content : JsString) :
    splitLines (formatContent n content) =
      formatLines n { indentLevel := 0, inCodeBlock := false, checkBlockDepth := 0 }
        (splitLines content) := by
  unfold formatContent
  apply splitLines_joinLines
  · intro h0
    have := congrArg List.length h0
    rw [formatLines_length] at this
    exact splitLines_ne_nil content (List.length_eq_zero.1 this)
  · exact formatLines_noNewline n _ _ (splitLines_mem_noNewline content)

/-- The formatter on a small workflow: tags are indented by their depth, the
lines of a code block and of the text are kept, and a blank line loses its
spaces. -/
theorem formatContent_example :
    formatContent 2
        "  <step n=\"1\">\n<action>do</action>\n   \n<check if=\"x\">\n<action>a</action>\ntext\n</step>".toList =
      "<step n=\"1\">\n  <action>do</action>\n\n  <check if=\"x\">\n    <action>a</action>\ntext\n  </step>".toList := by
  decide

theorem format_snd (indentSize : Nat) (content : JsString) :
    (format indentSize content).2 = formatContent indentSize content := by
  unfold format
  split
  · next h => exact h
  · rfl

/-- C30: for every content `c` and every indent size,
`formatContent(formatContent(c))` is `formatContent(c)`; so `format`, called on a file it has
just rewritten or found unchanged, reports no change and leaves the content
as it is. -/
theorem formatContent_idempotent (indentSize : Nat) (c : JsString) :
    formatContent indentSize (formatContent indentSize c) = formatContent indentSize c ∧
    format indentSize (format indentSize c).2 = (false, (format indentSize c).2) := by
  have h1 : formatContent indentSize (formatContent indentSize c) =
      formatContent indentSize c := by
    have e : formatContent indentSize (formatContent indentSize c) =
        joinLines (formatLines indentSize
          { indentLevel := 0, inCodeBlock := false, checkBlockDepth := 0 }
          (splitLines (formatContent indentSize c))) := rfl
    rw [e, splitLines_formatContent, formatLines_idem]
    rfl
  refine ⟨h1, ?_⟩
  rw [format_snd]
  unfold format
  rw [h1, if_pos rfl]

end WorkflowFormatter
